import Mathlib

/-!
Verification development for the MailMonkey campaign pipeline.

Shallow embedding of the core algorithms of the repository:
  * string canonicalisation helpers (norm_space, norm_key, numeric sort keys)
    from BuildMasterCampaignList_v4_MAILZIPFirst.py and finalize_or_rebuild.py;
  * the bin planner plan_bins_by_order from generate_letters.py
    (identical copy in generate_envelopes_from_master.py);
  * the postage estimator estimate_postage and the prior-history filter
    passes_prior_rules from BuildMasterCampaignList_v4_MAILZIPFirst.py;
  * the selector pick_optimized and the ingestion loop process_rows
    from BuildMasterCampaignList_v4_MAILZIPFirst.py;
  * the finalize step append_executed_and_update_tracker and the disaster
    recovery rebuild rebuild_tracker_from_all from finalize_or_rebuild.py.

Modelling conventions: CSV rows are represented by typed records holding the
values after the column-priority field resolution of the source (the
resolution itself only selects which column feeds each field and is not
re-modelled); Python str values are Lean String, Python int is Int (or Nat
where the source value is provably non-negative); the in-place random.shuffle
calls are modelled by an explicit family of shuffle functions, quantified over
all permutation-producing families; file IO is replaced by passing the file
contents (lists of rows) explicitly.  Date formatting is kept as an opaque
string supplied by the caller (the today function of the source).
-/

/-- Characters the Python regex class matches for whitespace splitting. -/
def isWS (c : Char) : Bool := c.isWhitespace

/-- Longest whitespace-free word at the head of the character list, plus rest. -/
def takeWord : List Char → List Char × List Char
  | [] => ([], [])
  | c :: t =>
    if isWS c then ([], c :: t)
    else (c :: (takeWord t).1, (takeWord t).2)

theorem takeWord_snd_length : ∀ l : List Char, (takeWord l).2.length ≤ l.length := by
  intro l
  induction l with
  | nil => simp [takeWord]
  | cons c t ih =>
    by_cases h : isWS c = true
    · simp [takeWord, h]
    · rw [takeWord, if_neg (by simp [h])]
      exact Nat.le_succ_of_le ih

/-- Fuel-driven word splitter; the fuel bounds the remaining list length, so
    the recursion is structural and the kernel can evaluate it. -/
def wordsOfA : Nat → List Char → List (List Char)
  | 0, _ => []
  | _ + 1, [] => []
  | f + 1, c :: t =>
    if isWS c then wordsOfA f t
    else (c :: (takeWord t).1) :: wordsOfA f (takeWord t).2

/-- Splits a character list into its maximal whitespace-free words
    (the words of the Python regex split). -/
def wordsOf (l : List Char) : List (List Char) := wordsOfA l.length l

theorem wordsOfA_fuel : ∀ (f g : Nat) (l : List Char), l.length ≤ f → l.length ≤ g →
    wordsOfA f l = wordsOfA g l := by
  intro f
  induction f with
  | zero =>
    intro g l hf hg
    cases l with
    | nil => cases g <;> rfl
    | cons c t => exact absurd hf (by simp)
  | succ f ih =>
    intro g l hf hg
    cases l with
    | nil => cases g <;> rfl
    | cons c t =>
      cases g with
      | zero => exact absurd hg (by simp)
      | succ g =>
        have htf : t.length ≤ f := Nat.le_of_succ_le_succ (by simpa using hf)
        have htg : t.length ≤ g := Nat.le_of_succ_le_succ (by simpa using hg)
        conv_lhs => rw [wordsOfA]
        conv_rhs => rw [wordsOfA]
        by_cases hc : isWS c
        · rw [if_pos hc, if_pos hc, ih g t htf htg]
        · rw [if_neg hc, if_neg hc]
          have h2 : (takeWord t).2.length ≤ t.length := takeWord_snd_length t
          rw [ih g _ (le_trans h2 htf) (le_trans h2 htg)]

theorem wordsOf_nil : wordsOf [] = [] := rfl

theorem wordsOf_cons (c : Char) (t : List Char) :
    wordsOf (c :: t) = if isWS c then wordsOf t
      else (c :: (takeWord t).1) :: wordsOf (takeWord t).2 := by
  show wordsOfA (t.length + 1) (c :: t) = _
  conv_lhs => rw [wordsOfA]
  by_cases hc : isWS c
  · rw [if_pos hc, if_pos hc]
    rfl
  · rw [if_neg hc, if_neg hc]
    rw [wordsOfA_fuel t.length (takeWord t).2.length (takeWord t).2
      (takeWord_snd_length t) (le_refl _)]
    rfl

/-- Joins words with single spaces (the replacement side of the regex). -/
def joinSp : List (List Char) → List Char
  | [] => []
  | [w] => w
  | w :: ws => w ++ ' ' :: joinSp ws

/-- Embedding of norm_space: collapse every whitespace run to a single space
    and trim the ends, realised as join-of-words. -/
def normSpace (s : String) : String := (joinSp (wordsOf s.toList)).asString

/-- ASCII upper casing of a string, character by character (Python upper). -/
def upperStr (s : String) : String := (s.toList.map Char.toUpper).asString

/-- Embedding of norm_key: the canonical dedup key of an (address, owner)
    pair, whitespace-normalised and upper-cased. -/
def normKey (addr owner : String) : String × String :=
  (upperStr (normSpace addr), upperStr (normSpace owner))

/-- Numeric value of a digit character. -/
def digitVal (c : Char) : Nat := c.toNat - 48

/-- Value of a digit string read in base 10. -/
def natOfDigits (l : List Char) : Nat := l.foldl (fun a c => a * 10 + digitVal c) 0

/-- Embedding of the sort key int(re.sub(non-digits, empty, x) or zero):
    strip the non-digit characters and read the rest as a number. -/
def numKey (s : String) : Nat := natOfDigits (s.toList.filter Char.isDigit)

/-- Fuel-driven decimal digit expansion, structural for kernel evaluation. -/
def natDigitsA : Nat → Nat → List Char
  | 0, _ => []
  | f + 1, n =>
    if n < 10 then [Char.ofNat (48 + n)]
    else natDigitsA f (n / 10) ++ [Char.ofNat (48 + n % 10)]

/-- Decimal digits of a natural number, most significant first. -/
def natDigits (n : Nat) : List Char := natDigitsA (n + 1) n

theorem natDigitsA_fuel : ∀ (f g n : Nat), n < f → n < g →
    natDigitsA f n = natDigitsA g n := by
  intro f
  induction f with
  | zero => intro g n hf _; exact absurd hf (Nat.not_lt_zero n)
  | succ f ih =>
    intro g n hf hg
    cases g with
    | zero => exact absurd hg (Nat.not_lt_zero n)
    | succ g =>
      by_cases h10 : n < 10
      · rw [natDigitsA, if_pos h10, natDigitsA, if_pos h10]
      · have hdiv : n / 10 < n := Nat.div_lt_self (by omega) (by norm_num)
        rw [natDigitsA, if_neg h10, natDigitsA, if_neg h10]
        rw [ih g (n / 10) (by omega) (by omega)]

/-- Embedding of Python str on a non-negative integer. -/
def natToStr (n : Nat) : String := (natDigits n).asString

/-- First three characters of a ZIP5 string, the ZIP3 prefix
    (Python slice of the first three characters). -/
def z3of (z : String) : String := (z.toList.take 3).asString

/-- Ordered insertion for the sort helper. -/
def insertBy {α : Type} (le : α → α → Bool) (x : α) : List α → List α
  | [] => [x]
  | h :: t => if le x h then x :: h :: t else h :: insertBy le x t

/-- Insertion sort used to model the Python sorted builtin where only the
    multiset of the result matters to the claims. -/
def sortBy {α : Type} (le : α → α → Bool) (l : List α) : List α :=
  l.foldr (insertBy le) []

theorem insertBy_perm {α : Type} (le : α → α → Bool) (x : α) :
    ∀ l : List α, (insertBy le x l).Perm (x :: l) := by
  intro l
  induction l with
  | nil => exact List.Perm.refl _
  | cons h t ih =>
    by_cases hle : le x h = true
    · rw [insertBy, if_pos hle]
    · rw [insertBy, if_neg hle]
      exact (ih.cons h).trans (List.Perm.swap x h t)

theorem sortBy_perm {α : Type} (le : α → α → Bool) (l : List α) :
    (sortBy le l).Perm l := by
  induction l with
  | nil => simp [sortBy]
  | cons h t ih =>
    simp only [sortBy, List.foldr_cons]
    exact (insertBy_perm le h _).trans (ih.cons h)

theorem insertBy_length {α : Type} (le : α → α → Bool) (x : α) (l : List α) :
    (insertBy le x l).length = l.length + 1 :=
  (insertBy_perm le x l).length_eq

theorem sortBy_length {α : Type} (le : α → α → Bool) (l : List α) :
    (sortBy le l).length = l.length :=
  (sortBy_perm le l).length_eq

theorem insertBy_mem {α : Type} (le : α → α → Bool) (x b : α) (l : List α) :
    b ∈ insertBy le x l ↔ b = x ∨ b ∈ l := by
  rw [(insertBy_perm le x l).mem_iff]
  simp

theorem insertBy_sorted {α : Type} (le : α → α → Bool)
    (htot : ∀ a b, le a b = false → le b a = true)
    (htr : ∀ a b c, le a b = true → le b c = true → le a c = true) (x : α) :
    ∀ l : List α, List.Pairwise (fun a b => le a b = true) l →
      List.Pairwise (fun a b => le a b = true) (insertBy le x l) := by
  intro l
  induction l with
  | nil => intro _; simp [insertBy]
  | cons h t ih =>
    intro hp
    rcases hp with _ | ⟨hh, hpt⟩
    by_cases hle : le x h = true
    · rw [insertBy, if_pos hle]
      refine List.Pairwise.cons ?_ (List.Pairwise.cons hh hpt)
      intro b hb
      rw [List.mem_cons] at hb
      rcases hb with rfl | hb
      · exact hle
      · exact htr x h b hle (hh b hb)
    · rw [insertBy, if_neg hle]
      refine List.Pairwise.cons ?_ (ih hpt)
      intro b hb
      rcases (insertBy_mem le x b t).1 hb with hb | hb
      · rw [hb]; exact htot x h (by simpa using hle)
      · exact hh b hb

theorem sortBy_sorted {α : Type} (le : α → α → Bool)
    (htot : ∀ a b, le a b = false → le b a = true)
    (htr : ∀ a b c, le a b = true → le b c = true → le a c = true)
    (l : List α) : List.Pairwise (fun a b => le a b = true) (sortBy le l) := by
  induction l with
  | nil => simp [sortBy]
  | cons h t ih =>
    simp only [sortBy, List.foldr_cons]
    exact insertBy_sorted le htot htr h _ ih

/-! ## Bin planner (plan_bins_by_order, generate_letters.py lines 417-509) -/

/-- Presort tier of a bin (the type field of the source dict). -/
inductive BinType
  | five
  | three
  | aadc
deriving DecidableEq, Repr

/-- A tray span produced by the bin planner.  Fields start and stop are the
    1-based inclusive indices called start and end in the source; idn is the
    sequential id assigned after the walk. -/
structure Bin where
  idn : Nat
  start : Nat
  stop : Nat
  btype : BinType
  group : String
  count : Nat
deriving DecidableEq, Repr

/-- Association-list counter increment (Counter update). -/
def bumpCount (m : List (String × Nat)) (k : String) : List (String × Nat) :=
  match m with
  | [] => [(k, 1)]
  | p :: t => if p.1 = k then (p.1, p.2 + 1) :: t else p :: bumpCount t k

/-- Embedding of Counter(zips): per-ZIP5 occurrence counts. -/
def countsOf (zips : List String) : List (String × Nat) := zips.foldl bumpCount []

/-- Counter lookup with default zero (defaultdict semantics). -/
def lookupD (m : List (String × Nat)) (k : String) : Nat :=
  match m with
  | [] => 0
  | p :: t => if p.1 = k then p.2 else lookupD t k

/-- Association-list assignment. -/
def setKey (m : List (String × Nat)) (k : String) (v : Nat) : List (String × Nat) :=
  match m with
  | [] => [(k, v)]
  | p :: t => if p.1 = k then (k, v) :: t else p :: setKey t k v

/-- Walk state of plan_bins_by_order.  current5 is (current_5_start,
    current_5_z5, piece_in_current_tray of that zip); openZ3 is
    (open_z3_start, open_z3_group, open_z3_count); the source keeps
    piece_in_current_tray in a defaultdict but resets the counter of a zip to
    zero whenever that zip becomes current again, so a single counter for the
    open run is an exact model. -/
structure PlanState where
  bins : List Bin
  traysAssigned : List (String × Nat)
  current5 : Option (Nat × String × Nat)
  openZ3 : Option (Nat × String × Nat)
deriving Repr

/-- Step helper: close the open ZIP3 run as an aadc bin when the ZIP3 prefix
    of the current piece differs from the open group. -/
def closeZ3IfChanged (i : Nat) (z3 : String) (s : PlanState) : PlanState :=
  match s.openZ3 with
  | some (st, g, c) =>
    if g ≠ z3 then
      { s with bins := s.bins ++ [⟨0, st, i - 1, BinType.aadc, g, c⟩], openZ3 := none }
    else s
  | none => s

/-- One iteration of the planner loop for the piece at 1-based index i with
    ZIP5 value z5. -/
def planStep (tt : String → Nat) (i : Nat) (z5 : String) (s0 : PlanState) : PlanState :=
  let z3 := z3of z5
  let s := closeZ3IfChanged i z3 s0
  if lookupD s.traysAssigned z5 < tt z5 then
    let p := match s.current5 with
      | some (st, z, c) => if z = z5 then (st, c) else (i, 0)
      | none => (i, 0)
    let cnt := p.2 + 1
    if cnt = 150 then
      { s with bins := s.bins ++ [⟨0, p.1, i, BinType.five, z5, 150⟩],
               traysAssigned := setKey s.traysAssigned z5 (lookupD s.traysAssigned z5 + 1),
               current5 := none }
    else { s with current5 := some (p.1, z5, cnt) }
  else
    match s.openZ3 with
    | some (st, _, c) =>
      if c + 1 = 150 then
        { s with bins := s.bins ++ [⟨0, st, i, BinType.three, z3, 150⟩], openZ3 := none }
      else { s with openZ3 := some (st, z3, c + 1) }
    | none => { s with openZ3 := some (i, z3, 1) }

/-- The planner loop over the input, carrying the 1-based index. -/
def planFold (tt : String → Nat) : PlanState → Nat → List String → PlanState
  | s, _, [] => s
  | s, i, z :: rest => planFold tt (planStep tt i z s) (i + 1) rest

/-- Initial walk state. -/
def planInit : PlanState := ⟨[], [], none, none⟩

/-- Embedding of plan_bins_by_order: trays_total from the full Counter, the
    walk, the final close of a still-open ZIP3 run as aadc, then sequential
    ids in close order. -/
def planBins (zips : List String) : List Bin :=
  let counts := countsOf zips
  let tt := fun z => lookupD counts z / 150
  let s := planFold tt planInit 1 zips
  let allBins : List Bin :=
    match s.openZ3 with
    | some (st, g, c) => s.bins ++ [Bin.mk 0 st zips.length BinType.aadc g c]
    | none => s.bins
  allBins.mapIdx fun j b => { b with idn := j + 1 }

/-- Total piece count over a list of bins. -/
def sumCounts (bins : List Bin) : Nat := (bins.map Bin.count).sum

/-! ## Postage estimator (estimate_postage, BuildMasterCampaignList lines 282-315) -/

/-- Tier counts of the postage estimator: pieces priced at the 5-digit,
    3-digit and AADC rates.  Embeds the counting part of estimate_postage;
    iteration over Counter items is realised as iteration over the distinct
    values (dedup) of the input lists, which leaves every aggregate sum
    unchanged. -/
def tierCounts (zips : List String) : Nat × Nat × Nat :=
  let distinct := zips.dedup
  let fiveDigit := (distinct.map (fun z => zips.count z / 150 * 150)).sum
  let rems : List (String × Nat) := distinct.map (fun z => (z3of z, zips.count z % 150))
  let z3s := (rems.map Prod.fst).dedup
  let totals := z3s.map (fun g => ((rems.filter (fun p => p.1 = g)).map Prod.snd).sum)
  let threeDigit := (totals.map (fun t => t / 150 * 150)).sum
  let aadc := (totals.map (fun t => t % 150)).sum
  (fiveDigit, threeDigit, aadc)

/-! ## History filter (passes_prior_rules, BuildMasterCampaignList lines 203-228,
    and parse_last_campaign_number, lines 132-147) -/

/-- Parsed tracker information consulted by the prior-history filter.
    campaignCount models the parsed CampaignCount cell (int with fallback 0),
    campaignNumbers the list of integers successfully parsed from the
    CampaignNumbers cell, lastCampaignNumber the parsed LastCampaignNumber
    fallback cell (0 when absent or unparsable); the CSV-cell parsing itself
    is not re-modelled. -/
structure PriorInfo where
  campaignCount : Int
  campaignNumbers : List Int
  lastCampaignNumber : Int
deriving DecidableEq, Repr

/-- Embedding of parse_last_campaign_number: the last element of the parsed
    CampaignNumbers list if any, else the LastCampaignNumber fallback. -/
def parseLastCampaignNumber (info : PriorInfo) : Int :=
  match info.campaignNumbers.getLast? with
  | some v => v
  | none => info.lastCampaignNumber

/-- Embedding of passes_prior_rules. -/
def passesPriorRules (info? : Option PriorInfo) (priorExact priorMax : Option Int)
    (minGap currentCampaignNumber : Int) : Bool :=
  match info? with
  | none =>
    match priorExact with
    | some e => decide (e = 0)
    | none =>
      match priorMax with
      | some m => decide (0 ≤ m)
      | none => true
  | some info =>
    let cnt := info.campaignCount
    let lastN := parseLastCampaignNumber info
    if (match priorExact with | some e => decide (cnt ≠ e) | none => false) then false
    else if (match priorMax with | some m => decide (m < cnt) | none => false) then false
    else if 0 < minGap ∧ 0 < lastN ∧ currentCampaignNumber - minGap < lastN then false
    else true

/-- Maximum of an integer list, 0 for the empty list (Python max is only
    defined on a non-empty list; the claim leaves the empty case unspecified
    and it is not used by the counterexample). -/
def listMaxI : List Int → Int
  | [] => 0
  | h :: t => t.foldl max h

/-- Formalisation of claim C7 exactly as worded, kept separate from the code
    embedding for comparison: with no record the filter passes iff priorExact
    is unset or equals 0; with a record, last is taken to be the maximum of
    CampaignNumbers. -/
def passesPriorClaim (info? : Option PriorInfo) (priorExact priorMax : Option Int)
    (minGap currentCampaignNumber : Int) : Bool :=
  match info? with
  | none =>
    match priorExact with
    | some e => decide (e = 0)
    | none => true
  | some info =>
    let cnt := info.campaignCount
    let lastN := listMaxI info.campaignNumbers
    if (match priorExact with | some e => decide (cnt ≠ e) | none => false) then false
    else if (match priorMax with | some m => decide (m < cnt) | none => false) then false
    else if 0 < minGap ∧ 0 < lastN ∧ currentCampaignNumber - minGap < lastN then false
    else true

/-- [C7] Counterexample to the claim as stated.  First input: a record with
    CampaignNumbers stored as 5 then 3 (the code takes the last listed number,
    3, while the claim takes the maximum, 5), minGap 1, current campaign 5:
    the code passes the lead while the claim says it is rejected.  Second
    input: no record, priorExact unset and priorMax set to a negative value:
    the code rejects while the claim (passes iff priorExact unset or 0) says
    it passes. -/
theorem c7_counterexample :
    passesPriorRules (some ⟨1, [5, 3], 0⟩) none none 1 5 = true ∧
    passesPriorClaim (some ⟨1, [5, 3], 0⟩) none none 1 5 = false ∧
    passesPriorRules none none (some (-1)) 0 0 = false ∧
    passesPriorClaim none none (some (-1)) 0 0 = true := by
  refine ⟨by decide, by decide, by decide, by decide⟩


/-- Truth condition of a three-way reject chain. -/
theorem ite3_true_iff (A B C : Prop) [Decidable A] [Decidable B] [Decidable C] :
    ((if A then false else if B then false else if C then false else true) = true) ↔
      (¬ A ∧ ¬ B ∧ ¬ C) := by
  by_cases hA : A <;> by_cases hB : B <;> by_cases hC : C <;> simp [hA, hB, hC]

/-- [C7, amended] Exact characterisation of passes_prior_rules: with no
    ledger record the lead passes iff priorExact equals 0, or priorExact is
    unset and priorMax is unset or non-negative; with a record, letting cnt be
    CampaignCount and last the LAST listed element of CampaignNumbers (equal
    to the maximum only when the stored sequence is ascending, as finalize
    maintains it), it passes iff cnt matches priorExact when set, cnt does not
    exceed priorMax when set, and when minGap is positive and last is
    positive, last does not exceed currentCampaignNumber minus minGap. -/
theorem c7_passes_prior_rules_characterization (info? : Option PriorInfo)
    (priorExact priorMax : Option Int) (minGap cur : Int) :
    passesPriorRules info? priorExact priorMax minGap cur = true ↔
      (match info? with
       | none =>
         priorExact = some 0 ∨
           (priorExact = none ∧ (priorMax = none ∨ ∃ m, priorMax = some m ∧ 0 ≤ m))
       | some info =>
         (∀ e, priorExact = some e → info.campaignCount = e) ∧
         (∀ m, priorMax = some m → info.campaignCount ≤ m) ∧
         (0 < minGap → 0 < parseLastCampaignNumber info →
            parseLastCampaignNumber info ≤ cur - minGap)) := by
  cases info? with
  | none =>
    rcases priorExact with _ | e <;> rcases priorMax with _ | m <;>
      simp [passesPriorRules] <;> omega
  | some info =>
    rcases priorExact with _ | e <;> rcases priorMax with _ | m <;>
      simp [passesPriorRules, ite3_true_iff] <;> omega

/-! ## Conservation of pieces in the postage estimator -/

theorem sum_map_filter_split {α : Type} (p : α → Bool) (w : α → Nat) (l : List α) :
    ((l.filter p).map w).sum + ((l.filter (fun a => !p a)).map w).sum
      = (l.map w).sum := by
  induction l with
  | nil => simp
  | cons h t ih =>
    by_cases hp : p h = true
    · simp only [List.filter_cons, hp, if_pos, Bool.not_true, Bool.false_eq_true, if_false,
        List.map_cons, List.sum_cons]
      omega
    · have hp' : p h = false := by simpa using hp
      simp only [List.filter_cons, hp', Bool.false_eq_true, if_false, Bool.not_false, if_pos,
        List.map_cons, List.sum_cons]
      omega

theorem sum_by_keys (ks : List String) (ps : List (String × Nat))
    (hn : ks.Nodup) (hc : ∀ p ∈ ps, p.1 ∈ ks) :
    (ks.map (fun g => ((ps.filter (fun p => p.1 = g)).map Prod.snd).sum)).sum
      = (ps.map Prod.snd).sum := by
  induction ks generalizing ps with
  | nil =>
    have hps : ps = [] := by
      cases ps with
      | nil => rfl
      | cons q t => exact absurd (hc q (by simp)) (by simp)
    rw [hps]; simp
  | cons g ks ih =>
    rcases hn with _ | ⟨hg, hks⟩
    have hsplit := sum_map_filter_split (fun p => decide (p.1 = g)) Prod.snd ps
    set ps' := ps.filter (fun p => !decide (p.1 = g)) with hps'
    have htail : ∀ g' ∈ ks,
        ps.filter (fun p => decide (p.1 = g')) = ps'.filter (fun p => decide (p.1 = g')) := by
      intro g' hg'
      rw [hps', List.filter_filter]
      apply List.filter_congr
      intro x _
      by_cases hx : x.1 = g'
      · have hgg : ¬ g' = g := fun he => hg g' hg' he.symm
        simp [hx, hgg]
      · simp [hx]
    have hmap : ks.map (fun g' => ((ps.filter (fun p => p.1 = g')).map Prod.snd).sum)
        = ks.map (fun g' => ((ps'.filter (fun p => p.1 = g')).map Prod.snd).sum) := by
      apply List.map_congr_left
      intro g' hg'
      rw [htail g' hg']
    have hcov : ∀ p ∈ ps', p.1 ∈ ks := by
      intro p hp
      have hmem : p ∈ ps := List.mem_of_mem_filter hp
      have hne : ¬ p.1 = g := by
        have := List.of_mem_filter hp
        simpa using this
      have hmem2 := hc p hmem
      rw [List.mem_cons] at hmem2
      rcases hmem2 with h | h
      · exact absurd h hne
      · exact h
    calc (List.map (fun g' => ((ps.filter (fun p => p.1 = g')).map Prod.snd).sum) (g :: ks)).sum
        = ((ps.filter (fun p => decide (p.1 = g))).map Prod.snd).sum
            + (ks.map (fun g' => ((ps.filter (fun p => p.1 = g')).map Prod.snd).sum)).sum := by
          simp
      _ = ((ps.filter (fun p => decide (p.1 = g))).map Prod.snd).sum
            + (ps'.map Prod.snd).sum := by rw [hmap, ih ps' hks hcov]
      _ = (ps.map Prod.snd).sum := hsplit

theorem sum_map_pair_split {α : Type} (f g : α → Nat) (l : List α) :
    (l.map f).sum + (l.map g).sum = (l.map (fun t => f t + g t)).sum := by
  induction l with
  | nil => simp
  | cons h t ih => simp only [List.map_cons, List.sum_cons]; omega

/-- [C10] The postage estimator never loses or double-counts a piece: for any
    input list of ZIP5 values, in any order, the three tier counts sum to the
    number of pieces. -/
theorem c10_estimator_piece_conservation (zips : List String) :
    (tierCounts zips).1 + (tierCounts zips).2.1 + (tierCounts zips).2.2 = zips.length := by
  simp only [tierCounts]
  set D := zips.dedup with hD
  set rems : List (String × Nat) := D.map (fun z => (z3of z, zips.count z % 150)) with hrems
  set z3s := (rems.map Prod.fst).dedup with hz3s
  set totals := z3s.map
      (fun g => ((rems.filter (fun p => p.1 = g)).map Prod.snd).sum) with htotals
  have h1 : (totals.map (fun t => t / 150 * 150)).sum + (totals.map (fun t => t % 150)).sum
      = totals.sum := by
    rw [sum_map_pair_split]
    have : (fun t => t / 150 * 150 + t % 150) = fun t : Nat => t := by
      funext t; omega
    rw [this]
    simp
  have h2 : totals.sum = (rems.map Prod.snd).sum := by
    rw [htotals]
    apply sum_by_keys
    · exact List.nodup_dedup _
    · intro p hp
      rw [hz3s, List.mem_dedup]
      exact List.mem_map_of_mem Prod.fst hp
  have h3 : (rems.map Prod.snd).sum = (D.map (fun z => zips.count z % 150)).sum := by
    rw [hrems, List.map_map]
    rfl
  have h4 : (D.map (fun z => zips.count z / 150 * 150)).sum
      + (D.map (fun z => zips.count z % 150)).sum = zips.length := by
    rw [sum_map_pair_split]
    have : (D.map fun t => zips.count t / 150 * 150 + zips.count t % 150)
        = D.map fun t => zips.count t := by
      apply List.map_congr_left
      intro z _
      omega
    rw [this, hD]
    exact List.sum_map_count_dedup_eq_length zips
  omega

/-! ## Planner walk: compositional evaluation lemmas -/

theorem planFold_append (tt : String → Nat) (l1 l2 : List String) :
    ∀ (s : PlanState) (i : Nat),
      planFold tt s i (l1 ++ l2) = planFold tt (planFold tt s i l1) (i + l1.length) l2 := by
  induction l1 with
  | nil => intro s i; simp [planFold]
  | cons z t ih =>
    intro s i
    simp only [List.cons_append, planFold, List.append_eq]
    rw [ih]
    congr 1
    simp only [List.length_cons]
    omega

theorem lookupD_bumpCount_self (m : List (String × Nat)) (k : String) :
    lookupD (bumpCount m k) k = lookupD m k + 1 := by
  induction m with
  | nil => simp [bumpCount, lookupD]
  | cons p t ih =>
    by_cases h : p.1 = k
    · simp [bumpCount, lookupD, h]
    · simp [bumpCount, lookupD, h, ih]

theorem lookupD_bumpCount_other (m : List (String × Nat)) (k w : String) (h : ¬ k = w) :
    lookupD (bumpCount m k) w = lookupD m w := by
  induction m with
  | nil => simp [bumpCount, lookupD, h]
  | cons p t ih =>
    by_cases hp : p.1 = k
    · simp [bumpCount, lookupD, hp, h]
    · simp [bumpCount, lookupD, hp, ih]

theorem lookupD_foldl_bump (l : List String) :
    ∀ (m : List (String × Nat)) (z : String),
      lookupD (List.foldl bumpCount m l) z = lookupD m z + l.count z := by
  induction l with
  | nil => intro m z; simp
  | cons a t ih =>
    intro m z
    simp only [List.foldl_cons]
    rw [ih]
    by_cases h : a = z
    · rw [h, lookupD_bumpCount_self, List.count_cons]
      simp
      omega
    · rw [lookupD_bumpCount_other m a z h, List.count_cons]
      have : (a == z) = false := by
        simpa using h
      simp [this]

/-- The Counter embedding agrees with List.count. -/
theorem countsOf_count (l : List String) (z : String) :
    lookupD (countsOf l) z = l.count z := by
  have := lookupD_foldl_bump l [] z
  simpa [countsOf, lookupD] using this

/-- Capacity accumulation: replicated pieces of the current open 5-digit run
    push the tray counter without closing anything, as long as the tray stays
    below 150 pieces. -/
theorem planFold_acc (tt : String → Nat) (z : String) :
    ∀ (k : Nat) (bins : List Bin) (tr : List (String × Nat)) (st i c : Nat),
      lookupD tr z < tt z → c + k < 150 →
      planFold tt ⟨bins, tr, some (st, z, c), none⟩ i (List.replicate k z)
        = ⟨bins, tr, some (st, z, c + k), none⟩ := by
  intro k
  induction k with
  | zero => intro bins tr st i c h1 h2; simp [planFold]
  | succ n ih =>
    intro bins tr st i c h1 h2
    rw [List.replicate_succ]
    simp only [planFold]
    have hne : ¬ c = 149 := by omega
    have hne' : ¬ c + 1 = 150 := by omega
    have hstep : planStep tt i z ⟨bins, tr, some (st, z, c), none⟩
        = ⟨bins, tr, some (st, z, c + 1), none⟩ := by
      simp [planStep, closeZ3IfChanged, h1, hne, hne']
    rw [hstep, ih bins tr st (i + 1) (c + 1) h1 (by omega)]
    have : c + 1 + n = c + (n + 1) := by omega
    rw [this]

/-! ## Counterexample inputs for the order-sensitivity of the planner -/

/-- Two ZIP5 values, each with 150 pieces, interleaved so that neither ever
    completes a tray: the planner abandons both open 5-digit runs. -/
def zigzagZips : List String :=
  ["A"] ++ ["B"] ++ List.replicate 149 "A" ++ List.replicate 149 "B"

theorem zigzag_count_A : zigzagZips.count "A" = 150 := by
  unfold zigzagZips
  rw [List.count_append, List.count_append, List.count_append,
      List.count_replicate, List.count_replicate]
  rw [(by decide : ((["A"] : List String).count "A") = 1),
      (by decide : ((["B"] : List String).count "A") = 0),
      (by decide : (("A" : String) == "A") = true),
      (by decide : (("B" : String) == "A") = false)]
  norm_num

theorem zigzag_count_B : zigzagZips.count "B" = 150 := by
  unfold zigzagZips
  rw [List.count_append, List.count_append, List.count_append,
      List.count_replicate, List.count_replicate]
  rw [(by decide : ((["A"] : List String).count "B") = 0),
      (by decide : ((["B"] : List String).count "B") = 1),
      (by decide : (("A" : String) == "B") = false),
      (by decide : (("B" : String) == "B") = true)]
  norm_num

/-- Tray quota function the planner computes for the interleaved input. -/
def zigzagTT : String → Nat := fun z => lookupD (countsOf zigzagZips) z / 150

theorem zigzagTT_A : zigzagTT "A" = 1 := by
  show lookupD (countsOf zigzagZips) "A" / 150 = 1
  rw [countsOf_count, zigzag_count_A]

theorem zigzagTT_B : zigzagTT "B" = 1 := by
  show lookupD (countsOf zigzagZips) "B" / 150 = 1
  rw [countsOf_count, zigzag_count_B]

/-- Single-step and empty-list unfolding equations for the walk, used for
    controlled rewriting (plain simp unfolding would unroll replicate). -/
theorem planFold_cons (tt : String → Nat) (s : PlanState) (i : Nat) (z : String)
    (rest : List String) :
    planFold tt s i (z :: rest) = planFold tt (planStep tt i z s) (i + 1) rest := rfl

theorem planFold_nil (tt : String → Nat) (s : PlanState) (i : Nat) :
    planFold tt s i [] = s := rfl

/-- Full walk of the planner over the interleaved input: no bin is ever
    closed and the final state still holds an open (abandoned) 5-digit run. -/
theorem zigzag_planFold :
    planFold (fun z => lookupD (countsOf zigzagZips) z / 150) planInit 1 zigzagZips
      = ⟨[], [], some (152, "B", 149), none⟩ := by
  show planFold zigzagTT planInit 1
      ("A" :: ("B" :: (List.replicate 149 "A" ++ List.replicate 149 "B")))
      = ⟨[], [], some (152, "B", 149), none⟩
  have hAB : ¬ (("A" : String) = "B") := by decide
  have hBA : ¬ (("B" : String) = "A") := by decide
  have h1 : planStep zigzagTT 1 "A" planInit = ⟨[], [], some (1, "A", 1), none⟩ := by
    simp only [planStep, closeZ3IfChanged, planInit]
    rw [zigzagTT_A]
    norm_num [lookupD]
  have h2 : planStep zigzagTT 2 "B" ⟨[], [], some (1, "A", 1), none⟩
      = ⟨[], [], some (2, "B", 1), none⟩ := by
    simp only [planStep, closeZ3IfChanged]
    rw [zigzagTT_B]
    norm_num [lookupD, hAB]
  have h3 : planStep zigzagTT 3 "A" ⟨[], [], some (2, "B", 1), none⟩
      = ⟨[], [], some (3, "A", 1), none⟩ := by
    simp only [planStep, closeZ3IfChanged]
    rw [zigzagTT_A]
    norm_num [lookupD, hBA]
  have h4 : planStep zigzagTT 152 "B" ⟨[], [], some (3, "A", 149), none⟩
      = ⟨[], [], some (152, "B", 1), none⟩ := by
    simp only [planStep, closeZ3IfChanged]
    rw [zigzagTT_B]
    norm_num [lookupD, hAB]
  have hrep : (149 : Nat) = 148 + 1 := by norm_num
  rw [planFold_cons, h1, planFold_cons, h2]
  rw [planFold_append, List.length_replicate]
  have hsegA : planFold zigzagTT ⟨[], [], some (2, "B", 1), none⟩ 3 (List.replicate 149 "A")
      = ⟨[], [], some (3, "A", 149), none⟩ := by
    rw [hrep, List.replicate_succ, planFold_cons, h3]
    have hacc := planFold_acc zigzagTT "A" 148 [] [] 3 4 1
      (by rw [zigzagTT_A]; norm_num [lookupD]) (by norm_num)
    rw [hacc]
  have hsegB : planFold zigzagTT ⟨[], [], some (3, "A", 149), none⟩ (2 + 1 + 149)
      (List.replicate 149 "B") = ⟨[], [], some (152, "B", 149), none⟩ := by
    have h152 : (2 : Nat) + 1 + 149 = 152 := by norm_num
    rw [h152, hrep, List.replicate_succ, planFold_cons, h4]
    have hacc := planFold_acc zigzagTT "B" 148 [] [] 152 153 1
      (by rw [zigzagTT_B]; norm_num [lookupD]) (by norm_num)
    rw [hacc]
  rw [hsegA, hsegB]

/-- The planner output on the interleaved input is empty. -/
theorem zigzag_planBins : planBins zigzagZips = [] := by
  simp only [planBins]
  rw [zigzag_planFold]
  rfl

theorem zigzag_length : zigzagZips.length = 300 := by
  unfold zigzagZips
  rw [List.length_append, List.length_append, List.length_append,
      List.length_replicate, List.length_replicate]
  norm_num

/-- [C3] Counterexample to the claim as stated: on an input that is not
    sorted by ZIP5 (two ZIP5 values with 150 pieces each, interleaved so that
    neither completes a tray before the walk switches zips), the planner
    abandons both open 5-digit runs and returns no bins at all, so the bin
    counts sum to 0 while the input has 300 pieces. -/
theorem c3_counterexample :
    ¬ (sumCounts (planBins zigzagZips) = zigzagZips.length) := by
  rw [zigzag_planBins, zigzag_length]
  simp [sumCounts]

/-- Total pieces over the bins of one tier in a bin plan. -/
def tierTotal (bins : List Bin) (t : BinType) : Nat :=
  ((bins.filter (fun b => decide (b.btype = t))).map Bin.count).sum

/-- Input with a split ZIP3 leftover run: 100 pieces of 11100, one piece of
    22200, then 50 pieces of 11101.  The ZIP5 runs are contiguous but the
    ZIP3 group 111 is interrupted, so the planner closes two separate aadc
    runs while the estimator aggregates the 150 group-111 leftovers into one
    full 3-digit tray. -/
def splitZ3Zips : List String :=
  List.replicate 100 "11100" ++ ["22200"] ++ List.replicate 50 "11101"

set_option maxRecDepth 8000 in
/-- [C8] Counterexample to the claim as stated: on the split-ZIP3 input the
    estimator reports 150 pieces at the 3-digit tier while the bin plan
    contains no 3-digit bin at all, so the two components do not compute the
    same tier partition for every ordered list. -/
theorem c8_counterexample :
    ¬ ((tierCounts splitZ3Zips).2.1 = tierTotal (planBins splitZ3Zips) BinType.three) := by
  decide

/-! ## Selector (pick_optimized, BuildMasterCampaignList lines 231-279) -/

section Selector

variable {α : Type} [DecidableEq α]

/-- Shuffle family standing for the in-place random.shuffle calls: one
    function per loop (first pass, leftover pass, ZIP3 fallback) and bucket
    index.  Quantifying the theorems over every permutation-producing family
    covers every possible RNG outcome of the source. -/
structure Shuffler (α : Type) where
  s1 : Nat → List α → List α
  s2 : Nat → List α → List α
  s3 : Nat → List α → List α

/-- A shuffler is lawful when every call returns a permutation of its input,
    as random.shuffle does. -/
def Shuffler.Lawful (sh : Shuffler α) : Prop :=
  (∀ i l, (sh.s1 i l).Perm l) ∧ (∀ i l, (sh.s2 i l).Perm l) ∧ (∀ i l, (sh.s3 i l).Perm l)

/-- Identity shuffler, one concrete RNG outcome. -/
def idShuffler (α : Type) : Shuffler α := ⟨fun _ l => l, fun _ l => l, fun _ l => l⟩

theorem idShuffler_lawful (α : Type) [DecidableEq α] : (idShuffler α).Lawful :=
  ⟨fun _ l => List.Perm.refl l, fun _ l => List.Perm.refl l, fun _ l => List.Perm.refl l⟩

/-- Append r to the group of key k, keeping first-occurrence order of keys
    (defaultdict(list) insertion order). -/
def addToGroup (gs : List (String × List α)) (k : String) (r : α) : List (String × List α) :=
  match gs with
  | [] => [(k, [r])]
  | (kk, l) :: t => if kk = k then (kk, l ++ [r]) :: t else (kk, l) :: addToGroup t k r

/-- Grouping of the candidate list by a key, in first-occurrence order. -/
def groupByKey (keyf : α → String) (l : List α) : List (String × List α) :=
  l.foldl (fun gs r => addToGroup gs (keyf r) r) []

/-- Replace the group of key k (dict assignment). -/
def setGroup (gs : List (String × List α)) (k : String) (v : List α) : List (String × List α) :=
  match gs with
  | [] => [(k, v)]
  | (kk, l) :: t => if kk = k then (kk, v) :: t else (kk, l) :: setGroup t k v

/-- Dict lookup. -/
def lookupGroup (gs : List (String × List α)) (k : String) : Option (List α) :=
  match gs with
  | [] => none
  | (kk, l) :: t => if kk = k then some l else lookupGroup t k

/-- Comparator of the first bucket sort: descending lexicographic
    (group size, group key nonempty), the reverse=True sort of the source.
    The model realises sorted with the structural insertion sort sortBy,
    whose result is a sorted permutation exactly like the builtin. -/
def bucketLe (a b : String × List α) : Bool :=
  decide (b.2.length < a.2.length ∨
    (b.2.length = a.2.length ∧ (b.1 ≠ "" → a.1 ≠ "")))

/-- Comparator of the leftover sorts: descending group size. -/
def lenLe (a b : String × List α) : Bool := decide (b.2.length ≤ a.2.length)

/-- First pass of strict-150 mode.  Returns the per-bucket chosen segments
    (the source appends them to chosen in this order; the caller flattens)
    together with the updated by_zip5 dict.  A bucket reached after the
    target is met contributes an empty segment and is left untouched (the
    break); a shuffled bucket with no full multiple of 150 contributes an
    empty segment but keeps its shuffled order (the in-place shuffle before
    continue); otherwise the first min(take_n, target - used) shuffled
    members are chosen and the first take_n are removed from the dict. -/
def strictPass (sh : Nat → List α → List α) (tgt : Nat) :
    Nat → Nat → List (String × List α) → List (String × List α) →
      List (List α) × List (String × List α)
  | _, _, gs, [] => ([], gs)
  | i, used, gs, (z, b) :: rest =>
    if tgt ≤ used then
      let p := strictPass sh tgt (i + 1) used gs rest
      ([] :: p.1, p.2)
    else
      let b2 := sh i b
      let takeN := b2.length / 150 * 150
      if takeN = 0 then
        let p := strictPass sh tgt (i + 1) used (setGroup gs z b2) rest
        ([] :: p.1, p.2)
      else
        let seg := b2.take (min takeN (tgt - used))
        let p := strictPass sh tgt (i + 1) (used + seg.length) (setGroup gs z (b2.drop takeN)) rest
        (seg :: p.1, p.2)

/-- Greedy fill used by the non-strict pass, the strict leftover pass and the
    ZIP3 fallback: walk the (sorted) buckets, shuffle each, and append
    members one by one until the target is reached. -/
def fillPass (sh : Nat → List α → List α) (tgt : Nat) :
    Nat → List α → List (String × List α) → List α
  | _, chosen, [] => chosen
  | i, chosen, (_, b) :: rest =>
    if tgt ≤ chosen.length then fillPass sh tgt (i + 1) chosen rest
    else fillPass sh tgt (i + 1) (chosen ++ (sh i b).take (tgt - chosen.length)) rest

/-- ZIP5 passes of pick_optimized: the strict first pass over whole trays
    followed by the leftover fill, or the plain greedy fill when strict mode
    is off. -/
def pickChosen (sh : Shuffler α) (zipf : α → String) (cands : List α)
    (tgt : Nat) (strict150 : Bool) : List α :=
  let byZip := groupByKey zipf cands
  let buckets := sortBy bucketLe byZip
  if strict150 then
    let p := strictPass sh.s1 tgt 0 0 byZip buckets
    let chosen1 := p.1.flatten
    if chosen1.length < tgt then fillPass sh.s2 tgt 0 chosen1 (sortBy lenLe p.2)
    else chosen1
  else
    fillPass sh.s1 tgt 0 [] buckets

/-- ZIP3 fallback pass of pick_optimized: regroup everything not yet chosen
    by ZIP3 and fill greedily. -/
def pickFallback (sh : Shuffler α) (zipf : α → String) (cands : List α)
    (tgt : Nat) (chosen : List α) : List α :=
  if chosen.length < tgt then
    let remaining := cands.filter (fun r => decide (¬ r ∈ chosen))
    fillPass sh.s3 tgt 0 chosen (sortBy lenLe (groupByKey (fun r => z3of (zipf r)) remaining))
  else chosen

/-- Embedding of pick_optimized. -/
def pickOptimized (sh : Shuffler α) (zipf : α → String) (cands : List α)
    (target : Int) (strict150 : Bool) : List α :=
  if target ≤ 0 then [] else
  (pickFallback sh zipf cands target.toNat
    (pickChosen sh zipf cands target.toNat strict150)).take target.toNat

end Selector

section SelectorProofs

variable {α : Type} [DecidableEq α]

/-- [C6, amended] In strict mode, the j-th bucket of the first pass
    contributes exactly min(floor(size/150)*150, target - pieces already
    chosen) members to the selection: the whole-tray quota, capped by the
    room left under the target (and hence exactly floor(size/150)*150
    whenever the target leaves enough room); the remaining members stay out
    of the first pass and can only be selected by the later passes. -/
theorem c6_strict_first_pass_takes (sh : Nat → List α → List α)
    (hsh : ∀ i l, (sh i l).Perm l) (tgt : Nat) :
    ∀ (buckets : List (String × List α)) (i used : Nat) (gs : List (String × List α)),
      (strictPass sh tgt i used gs buckets).1.length = buckets.length ∧
      ∀ j, j < buckets.length →
        ((strictPass sh tgt i used gs buckets).1.getD j []).length
          = min ((buckets.getD j ("", [])).2.length / 150 * 150)
              (tgt - (used + ((strictPass sh tgt i used gs buckets).1.take j).flatten.length)) := by
  intro buckets
  induction buckets with
  | nil =>
    intro i used gs
    exact ⟨rfl, fun j hj => absurd hj (Nat.not_lt_zero j)⟩
  | cons zb rest ih =>
    intro i used gs
    obtain ⟨z, b⟩ := zb
    by_cases hbr : tgt ≤ used
    · rw [strictPass, if_pos hbr]
      rcases ih (i + 1) used gs with ⟨ihlen, ihseg⟩
      refine ⟨by simpa using ihlen, ?_⟩
      intro j hj
      cases j with
      | zero =>
        simp only [List.getD, List.take_zero, List.flatten_nil, List.length_nil]
        have : tgt - (used + 0) = 0 := by omega
        rw [this]
        simp
      | succ jj =>
        have hjj : jj < rest.length := by simpa using hj
        have := ihseg jj hjj
        simpa using this
    · rw [strictPass, if_neg hbr]
      have hlen2 : (sh i b).length = b.length := (hsh i b).length_eq
      by_cases h0 : (sh i b).length / 150 * 150 = 0
      · rw [if_pos h0]
        rcases ih (i + 1) used (setGroup gs z (sh i b)) with ⟨ihlen, ihseg⟩
        refine ⟨by simpa using ihlen, ?_⟩
        intro j hj
        cases j with
        | zero =>
          simp only [List.getD_cons_zero, List.take_zero, List.flatten_nil, List.length_nil]
          rw [← hlen2, h0]
          simp
        | succ jj =>
          have hjj : jj < rest.length := by simpa using hj
          have := ihseg jj hjj
          simpa using this
      · rw [if_neg h0]
        set b2 := sh i b with hb2
        set seg := b2.take (min (b2.length / 150 * 150) (tgt - used)) with hseg
        rcases ih (i + 1) (used + seg.length)
            (setGroup gs z (b2.drop (b2.length / 150 * 150))) with ⟨ihlen, ihseg⟩
        refine ⟨by simpa using ihlen, ?_⟩
        intro j hj
        cases j with
        | zero =>
          simp only [List.getD_cons_zero, List.take_zero, List.flatten_nil, List.length_nil]
          rw [List.length_take]
          rw [← hlen2]
          have hquota : b2.length / 150 * 150 ≤ b2.length := Nat.div_mul_le_self _ _
          omega
        | succ jj =>
          have hjj : jj < rest.length := by simpa using hj
          have hrec := ihseg jj hjj
          simp only [List.getD_cons_succ, List.take_succ_cons, List.flatten_cons,
            List.length_append] at hrec ⊢
          have harith : used + (seg.length
              + ((strictPass sh tgt (i + 1) (used + seg.length)
                  (setGroup gs z (b2.drop (b2.length / 150 * 150))) rest).1.take jj).flatten.length)
              = used + seg.length
                + ((strictPass sh tgt (i + 1) (used + seg.length)
                    (setGroup gs z (b2.drop (b2.length / 150 * 150))) rest).1.take jj).flatten.length := by
            omega
          rw [harith]
          exact hrec

end SelectorProofs

/-- One ZIP5 group of 150 candidates (represented by distinct numbers with a
    constant zip function), as the selector groups them. -/
def c6Groups : List (String × List Nat) := groupByKey (fun _ => "95835") (List.range 150)

/-- The same group after the first bucket sort. -/
def c6Buckets : List (String × List Nat) := sortBy bucketLe c6Groups

set_option maxRecDepth 4000 in
/-- [C6] Counterexample to the claim as stated: a single ZIP5 group with
    n = 150 surviving candidates and target 100.  The claim says the first
    pass assigns exactly floor(150/150)*150 = 150 of them, but the code caps
    the take at the room left under the target and assigns only 100. -/
theorem c6_counterexample :
    ((strictPass (idShuffler Nat).s1 100 0 0 c6Groups c6Buckets).1.getD 0 []).length = 100 ∧
    (c6Buckets.getD 0 ("", [])).2.length / 150 * 150 = 150 ∧ ¬ (100 = 150) := by
  decide

/-- One ZIP5 group of 320 candidates, the worked example of the spec. -/
def c6GroupsW : List (String × List Nat) := groupByKey (fun _ => "95835") (List.range 320)

/-- The same group after the first bucket sort. -/
def c6BucketsW : List (String × List Nat) := sortBy bucketLe c6GroupsW

set_option maxRecDepth 8000 in
/-- Witness for the amended C6 theorem at the worked example of the spec:
    ZIP5 95835 with 320 surviving candidates and target 1000 contributes
    exactly min(floor(320/150)*150, 1000) = 300 pieces in the first pass. -/
theorem c6_witness :
    ((strictPass (idShuffler Nat).s1 1000 0 0 c6GroupsW c6BucketsW).1.getD 0 []).length = 300 := by
  have h := (c6_strict_first_pass_takes (idShuffler Nat).s1 (fun i l => List.Perm.refl l)
      1000 c6BucketsW 0 0 c6GroupsW).2 0 (by decide)
  rw [h]
  decide

section SelectorMultiset

variable {α : Type} [DecidableEq α]

/-- All members stored in a group map, in group order. -/
def flatGroups (gs : List (String × List α)) : List α := (gs.map Prod.snd).flatten

theorem flatGroups_cons (p : String × List α) (gs : List (String × List α)) :
    flatGroups (p :: gs) = p.2 ++ flatGroups gs := rfl

theorem addToGroup_flat_perm (gs : List (String × List α)) (k : String) (r : α) :
    (flatGroups (addToGroup gs k r)).Perm (flatGroups gs ++ [r]) := by
  induction gs with
  | nil => simp [addToGroup, flatGroups]
  | cons p t ih =>
    obtain ⟨kk, l⟩ := p
    by_cases h : kk = k
    · rw [addToGroup, if_pos h]
      rw [flatGroups_cons, flatGroups_cons]
      have h1 : (l ++ [r]) ++ flatGroups t = l ++ ([r] ++ flatGroups t) := by
        rw [List.append_assoc]
      have h2 : (l ++ flatGroups t) ++ [r] = l ++ (flatGroups t ++ [r]) := by
        rw [List.append_assoc]
      rw [h1, h2]
      exact List.Perm.append_left l List.perm_append_comm
    · rw [addToGroup, if_neg h]
      rw [flatGroups_cons, flatGroups_cons]
      have h1 := ih.append_left l
      have h2 : l ++ (flatGroups t ++ [r]) = (l ++ flatGroups t) ++ [r] := by
        rw [List.append_assoc]
      rw [h2] at h1
      exact h1

theorem groupByKey_flat_perm (keyf : α → String) (l : List α) :
    (flatGroups (groupByKey keyf l)).Perm l := by
  suffices h : ∀ (l : List α) (gs : List (String × List α)),
      (flatGroups (l.foldl (fun gs r => addToGroup gs (keyf r) r) gs)).Perm
        (flatGroups gs ++ l) by
    simpa [groupByKey, flatGroups] using h l []
  intro l
  induction l with
  | nil => intro gs; simp
  | cons r t ih =>
    intro gs
    simp only [List.foldl_cons]
    refine (ih (addToGroup gs (keyf r) r)).trans ?_
    have h1 := (addToGroup_flat_perm gs (keyf r) r).append_right t
    have h2 : (flatGroups gs ++ [r]) ++ t = flatGroups gs ++ (r :: t) := by
      rw [List.append_assoc]
      rfl
    rw [h2] at h1
    exact h1

/-- Keys of a group map. -/
def keysOf (gs : List (String × List α)) : List String := gs.map Prod.fst

theorem keysOf_addToGroup_mem (gs : List (String × List α)) (k : String) (r : α) :
    ∀ w, w ∈ keysOf (addToGroup gs k r) → w ∈ keysOf gs ∨ w = k := by
  induction gs with
  | nil => intro w hw; right; simpa [addToGroup, keysOf] using hw
  | cons p t ih =>
    obtain ⟨kk, l⟩ := p
    intro w hw
    by_cases h : kk = k
    · rw [addToGroup, if_pos h] at hw
      left; simpa [keysOf] using hw
    · rw [addToGroup, if_neg h] at hw
      simp only [keysOf, List.map_cons, List.mem_cons] at hw ⊢
      rcases hw with hw | hw
      · exact Or.inl (Or.inl hw)
      · rcases ih w hw with h2 | h2
        · exact Or.inl (Or.inr h2)
        · exact Or.inr h2

theorem keysOf_addToGroup_nodup (gs : List (String × List α)) (k : String) (r : α)
    (hn : (keysOf gs).Nodup) : (keysOf (addToGroup gs k r)).Nodup := by
  induction gs with
  | nil => simp [addToGroup, keysOf]
  | cons p t ih =>
    obtain ⟨kk, l⟩ := p
    rw [keysOf, List.map_cons] at hn
    rcases hn with _ | ⟨hh, ht⟩
    by_cases h : kk = k
    · rw [addToGroup, if_pos h]
      rw [keysOf, List.map_cons]
      exact List.Pairwise.cons hh ht
    · rw [addToGroup, if_neg h]
      rw [keysOf, List.map_cons]
      refine List.Pairwise.cons ?_ (ih ht)
      intro w hw
      rcases keysOf_addToGroup_mem t k r w hw with h2 | h2
      · exact hh w h2
      · rw [h2]; exact fun he => h he

theorem groupByKey_keys_nodup (keyf : α → String) (l : List α) :
    (keysOf (groupByKey keyf l)).Nodup := by
  suffices h : ∀ (l : List α) (gs : List (String × List α)), (keysOf gs).Nodup →
      (keysOf (l.foldl (fun gs r => addToGroup gs (keyf r) r) gs)).Nodup by
    exact h l [] (by simp [keysOf])
  intro l
  induction l with
  | nil => intro gs hn; simpa using hn
  | cons r t ih =>
    intro gs hn
    simp only [List.foldl_cons]
    exact ih _ (keysOf_addToGroup_nodup gs (keyf r) r hn)

theorem lookupGroup_of_mem (gs : List (String × List α)) (hn : (keysOf gs).Nodup) :
    ∀ zb ∈ gs, lookupGroup gs zb.1 = some zb.2 := by
  induction gs with
  | nil => intro zb h; exact absurd h (by simp)
  | cons p t ih =>
    obtain ⟨kk, l⟩ := p
    rw [keysOf, List.map_cons] at hn
    rcases hn with _ | ⟨hh, ht⟩
    intro zb hzb
    rw [List.mem_cons] at hzb
    rcases hzb with rfl | hzb
    · rw [lookupGroup, if_pos rfl]
    · rw [lookupGroup]
      have hne : ¬ kk = zb.1 := hh zb.1 (List.mem_map_of_mem Prod.fst hzb)
      rw [if_neg hne]
      exact ih ht zb hzb

theorem lookupGroup_setGroup_other (gs : List (String × List α)) (k w : String)
    (v : List α) (h : ¬ w = k) : lookupGroup (setGroup gs k v) w = lookupGroup gs w := by
  have hkw : ¬ k = w := fun he => h he.symm
  induction gs with
  | nil => simp [setGroup, lookupGroup, hkw]
  | cons p t ih =>
    obtain ⟨kk, l⟩ := p
    by_cases hk : kk = k
    · cases hk
      simp [setGroup, lookupGroup, hkw]
    · simp only [setGroup, lookupGroup]
      rw [if_neg hk]
      simp only [lookupGroup]
      by_cases hw : kk = w
      · rw [if_pos hw, if_pos hw]
      · rw [if_neg hw, if_neg hw]
        exact ih

theorem setGroup_flat (gs : List (String × List α)) (k : String) (v w : List α)
    (h : lookupGroup gs k = some w) :
    ∃ rest, (flatGroups gs).Perm (w ++ rest) ∧
      (flatGroups (setGroup gs k v)).Perm (v ++ rest) := by
  induction gs with
  | nil => exact absurd h (by simp [lookupGroup])
  | cons p t ih =>
    obtain ⟨kk, l⟩ := p
    by_cases hk : kk = k
    · rw [lookupGroup, if_pos hk] at h
      injection h with h
      refine ⟨flatGroups t, ?_, ?_⟩
      · rw [flatGroups_cons, h]
      · rw [setGroup, if_pos hk, flatGroups_cons]
    · rw [lookupGroup, if_neg hk] at h
      rcases ih h with ⟨rest0, h1, h2⟩
      refine ⟨l ++ rest0, ?_, ?_⟩
      · rw [flatGroups_cons]
        refine (h1.append_left l).trans ?_
        have e1 : l ++ (w ++ rest0) = (l ++ w) ++ rest0 := by rw [List.append_assoc]
        have e2 : w ++ (l ++ rest0) = (w ++ l) ++ rest0 := by rw [List.append_assoc]
        rw [e1, e2]
        exact List.perm_append_comm.append_right rest0
      · rw [setGroup, if_neg hk, flatGroups_cons]
        refine (h2.append_left l).trans ?_
        have e1 : l ++ (v ++ rest0) = (l ++ v) ++ rest0 := by rw [List.append_assoc]
        have e2 : v ++ (l ++ rest0) = (v ++ l) ++ rest0 := by rw [List.append_assoc]
        rw [e1, e2]
        exact List.perm_append_comm.append_right rest0

end SelectorMultiset

section SelectorBound

variable {α : Type} [DecidableEq α]

theorem take_append_drop_subperm (m n : Nat) (l : List α) (h : m ≤ n) :
    (l.take m ++ l.drop n).Subperm l := by
  have h1 : l.take m ++ l.drop n = (l.take n).take m ++ l.drop n := by
    rw [List.take_take]
    have : m ⊓ n = m := by omega
    rw [this]
  rw [h1]
  have h2 : ((l.take n).take m ++ l.drop n).Sublist (l.take n ++ l.drop n) :=
    List.Sublist.append (List.take_sublist m (l.take n)) (List.Sublist.refl _)
  rw [List.take_append_drop] at h2
  exact h2.subperm

theorem strictPass_bound (sh : Nat → List α → List α)
    (hsh : ∀ i l, (sh i l).Perm l) (tgt : Nat) :
    ∀ (buckets : List (String × List α)) (i used : Nat) (gs : List (String × List α)),
      (∀ zb ∈ buckets, lookupGroup gs zb.1 = some zb.2) →
      ((buckets.map Prod.fst).Nodup) →
      ((strictPass sh tgt i used gs buckets).1.flatten : Multiset α)
        + (flatGroups (strictPass sh tgt i used gs buckets).2 : Multiset α)
        ≤ (flatGroups gs : Multiset α) := by
  intro buckets
  induction buckets with
  | nil =>
    intro i used gs _ _
    simp [strictPass]
  | cons zb rest ih =>
    intro i used gs hlk hnd
    obtain ⟨z, b⟩ := zb
    have hlkz : lookupGroup gs z = some b := hlk (z, b) (by simp)
    have hlkrest : ∀ wb ∈ rest, lookupGroup gs wb.1 = some wb.2 :=
      fun wb hwb => hlk wb (List.mem_cons_of_mem _ hwb)
    rw [List.map_cons] at hnd
    rcases hnd with _ | ⟨hz, hndrest⟩
    by_cases hbr : tgt ≤ used
    · rw [strictPass, if_pos hbr]
      simpa using ih (i + 1) used gs hlkrest hndrest
    · rw [strictPass, if_neg hbr]
      have hperm : (sh i b).Perm b := hsh i b
      have hlkrest2 : ∀ (v : List α), ∀ wb ∈ rest,
          lookupGroup (setGroup gs z v) wb.1 = some wb.2 := by
        intro v wb hwb
        have hwz : ¬ wb.1 = z := by
          intro he
          exact hz wb.1 (List.mem_map_of_mem Prod.fst hwb) he.symm
        rw [lookupGroup_setGroup_other gs z wb.1 v hwz]
        exact hlkrest wb hwb
      by_cases h0 : (sh i b).length / 150 * 150 = 0
      · rw [if_pos h0]
        have hb := ih (i + 1) used (setGroup gs z (sh i b)) (hlkrest2 _) hndrest
        rcases setGroup_flat gs z (sh i b) b hlkz with ⟨rest0, h1, h2⟩
        have he1 : (flatGroups (setGroup gs z (sh i b)) : Multiset α)
            = (flatGroups gs : Multiset α) := by
          have hp : (flatGroups (setGroup gs z (sh i b))).Perm (flatGroups gs) :=
            h2.trans ((hperm.append_right rest0).trans h1.symm)
          exact Multiset.coe_eq_coe.mpr hp
        rw [he1] at hb
        simpa using hb
      · rw [if_neg h0]
        have hb := ih (i + 1)
            (used + ((sh i b).take (min ((sh i b).length / 150 * 150) (tgt - used))).length)
            (setGroup gs z ((sh i b).drop ((sh i b).length / 150 * 150)))
            (hlkrest2 _) hndrest
        rcases setGroup_flat gs z ((sh i b).drop ((sh i b).length / 150 * 150)) b hlkz
          with ⟨rest0, h1, h2⟩
        have hgs2 : (flatGroups (setGroup gs z ((sh i b).drop ((sh i b).length / 150 * 150)))
            : Multiset α)
            = ((sh i b).drop ((sh i b).length / 150 * 150) : Multiset α) + (rest0 : Multiset α) := by
          have := Multiset.coe_eq_coe.mpr h2
          simpa using this
        have hgs : (flatGroups gs : Multiset α) = (b : Multiset α) + (rest0 : Multiset α) := by
          have := Multiset.coe_eq_coe.mpr h1
          simpa using this
        rw [hgs2] at hb
        rw [hgs]
        simp only [List.flatten_cons]
        have hsplit : (((sh i b).take (min ((sh i b).length / 150 * 150) (tgt - used))
              ++ (strictPass sh tgt (i + 1)
                (used + ((sh i b).take (min ((sh i b).length / 150 * 150) (tgt - used))).length)
                (setGroup gs z ((sh i b).drop ((sh i b).length / 150 * 150))) rest).1.flatten
              : List α) : Multiset α)
            = ((sh i b).take (min ((sh i b).length / 150 * 150) (tgt - used)) : Multiset α)
              + ((strictPass sh tgt (i + 1)
                (used + ((sh i b).take (min ((sh i b).length / 150 * 150) (tgt - used))).length)
                (setGroup gs z ((sh i b).drop ((sh i b).length / 150 * 150))) rest).1.flatten
                : Multiset α) := by
          simp
        rw [hsplit]
        have htd : (((sh i b).take (min ((sh i b).length / 150 * 150) (tgt - used)) : List α)
              : Multiset α)
            + ((sh i b).drop ((sh i b).length / 150 * 150) : Multiset α)
            ≤ ((sh i b) : Multiset α) := by
          have hsp := take_append_drop_subperm (min ((sh i b).length / 150 * 150) (tgt - used))
            ((sh i b).length / 150 * 150) (sh i b) (Nat.min_le_left _ _)
          have := Multiset.coe_le.mpr hsp
          simpa using this
        have hbb : ((sh i b) : Multiset α) = (b : Multiset α) := Multiset.coe_eq_coe.mpr hperm
        calc ((sh i b).take (min ((sh i b).length / 150 * 150) (tgt - used)) : Multiset α)
              + (((strictPass sh tgt (i + 1)
                  (used + ((sh i b).take (min ((sh i b).length / 150 * 150) (tgt - used))).length)
                  (setGroup gs z ((sh i b).drop ((sh i b).length / 150 * 150))) rest).1.flatten
                  : List α) : Multiset α)
              + (flatGroups (strictPass sh tgt (i + 1)
                  (used + ((sh i b).take (min ((sh i b).length / 150 * 150) (tgt - used))).length)
                  (setGroup gs z ((sh i b).drop ((sh i b).length / 150 * 150))) rest).2 : Multiset α)
            ≤ ((sh i b).take (min ((sh i b).length / 150 * 150) (tgt - used)) : Multiset α)
              + (((sh i b).drop ((sh i b).length / 150 * 150) : List α) : Multiset α)
              + (rest0 : Multiset α) := by
              rw [add_assoc, add_assoc]
              exact add_le_add_left hb _
          _ ≤ ((b : Multiset α) + (rest0 : Multiset α)) := by
              refine add_le_add ?_ (le_refl _)
              rw [← hbb]
              exact htd

theorem fillPass_bound (sh : Nat → List α → List α)
    (hsh : ∀ i l, (sh i l).Perm l) (tgt : Nat) :
    ∀ (groups : List (String × List α)) (i : Nat) (chosen : List α),
      ((fillPass sh tgt i chosen groups : List α) : Multiset α)
        ≤ (chosen : Multiset α) + (flatGroups groups : Multiset α) := by
  intro groups
  induction groups with
  | nil =>
    intro i chosen
    simp [fillPass, flatGroups]
  | cons zb rest ih =>
    intro i chosen
    obtain ⟨z, b⟩ := zb
    have hflat : (flatGroups ((z, b) :: rest) : Multiset α)
        = (b : Multiset α) + (flatGroups rest : Multiset α) := by
      rw [flatGroups_cons]
      simp
    by_cases hbr : tgt ≤ chosen.length
    · rw [fillPass, if_pos hbr, hflat]
      refine (ih (i + 1) chosen).trans ?_
      rw [← add_assoc]
      exact add_le_add (le_add_right (le_refl _)) (le_refl _)
    · rw [fillPass, if_neg hbr, hflat]
      refine (ih (i + 1) (chosen ++ (sh i b).take (tgt - chosen.length))).trans ?_
      have h1 : ((chosen ++ (sh i b).take (tgt - chosen.length) : List α) : Multiset α)
          = (chosen : Multiset α) + ((sh i b).take (tgt - chosen.length) : Multiset α) := by
        simp
      rw [h1]
      have h2 : ((sh i b).take (tgt - chosen.length) : Multiset α) ≤ (b : Multiset α) := by
        have hsub := (List.take_sublist (tgt - chosen.length) (sh i b)).subperm
        have hle := Multiset.coe_le.mpr hsub
        have hbb : ((sh i b) : Multiset α) = (b : Multiset α) :=
          Multiset.coe_eq_coe.mpr (hsh i b)
        rw [hbb] at hle
        exact hle
      rw [add_assoc]
      refine add_le_add_left ?_ _
      exact add_le_add h2 (le_refl _)

theorem chosen_filter_bound (chosen cands : List α) (hnd : cands.Nodup)
    (hle : (chosen : Multiset α) ≤ (cands : Multiset α)) :
    (chosen : Multiset α)
      + ((cands.filter (fun r => decide (¬ r ∈ chosen)) : List α) : Multiset α)
      ≤ (cands : Multiset α) := by
  rw [Multiset.le_iff_count]
  intro a
  rw [Multiset.count_add, Multiset.coe_count, Multiset.coe_count, Multiset.coe_count]
  have hc1 : List.count a cands ≤ 1 := List.nodup_iff_count_le_one.mp hnd a
  have hc2 : List.count a chosen ≤ List.count a cands := by
    have := Multiset.le_iff_count.mp hle a
    rwa [Multiset.coe_count, Multiset.coe_count] at this
  by_cases hmem : a ∈ chosen
  · have h0 : List.count a (cands.filter (fun r => decide (¬ r ∈ chosen))) = 0 := by
      rw [List.count_eq_zero]
      intro hcontra
      rw [List.mem_filter] at hcontra
      have hdec := hcontra.2
      simp only [decide_eq_true_eq] at hdec
      exact hdec hmem
    have h1 : 0 < List.count a chosen := List.count_pos_iff_mem.mpr hmem
    omega
  · have h0 : List.count a chosen = 0 := List.count_eq_zero.mpr hmem
    have h1 : List.count a (cands.filter (fun r => decide (¬ r ∈ chosen)))
        ≤ List.count a cands :=
      (List.filter_sublist cands).count_le a
    omega

theorem flatGroups_perm_of_perm {gs1 gs2 : List (String × List α)} (h : gs1.Perm gs2) :
    (flatGroups gs1).Perm (flatGroups gs2) := (h.map Prod.snd).flatten

theorem pickChosen_le (sh : Shuffler α) (hsh : sh.Lawful) (zipf : α → String)
    (cands : List α) (tgt : Nat) (strict150 : Bool) :
    ((pickChosen sh zipf cands tgt strict150 : List α) : Multiset α) ≤ (cands : Multiset α) := by
  obtain ⟨hs1, hs2, hs3⟩ := hsh
  have hflatby : (flatGroups (groupByKey zipf cands) : Multiset α) = (cands : Multiset α) :=
    Multiset.coe_eq_coe.mpr (groupByKey_flat_perm zipf cands)
  have hkeysnd : (keysOf (groupByKey zipf cands)).Nodup := groupByKey_keys_nodup zipf cands
  have hbperm : (sortBy bucketLe (groupByKey zipf cands)).Perm (groupByKey zipf cands) :=
    sortBy_perm _ _
  have hblookup : ∀ zb ∈ sortBy bucketLe (groupByKey zipf cands),
      lookupGroup (groupByKey zipf cands) zb.1 = some zb.2 := by
    intro zb hzb
    exact lookupGroup_of_mem _ hkeysnd zb (hbperm.mem_iff.mp hzb)
  have hbnd : ((sortBy bucketLe (groupByKey zipf cands)).map Prod.fst).Nodup := by
    have hp : ((sortBy bucketLe (groupByKey zipf cands)).map Prod.fst).Perm
        ((groupByKey zipf cands).map Prod.fst) := hbperm.map _
    exact (hp.nodup_iff).mpr hkeysnd
  rw [pickChosen]
  by_cases hst : strict150 = true
  · rw [if_pos hst]
    have hsp := strictPass_bound sh.s1 hs1 tgt (sortBy bucketLe (groupByKey zipf cands))
      0 0 (groupByKey zipf cands) hblookup hbnd
    by_cases hlt : (strictPass sh.s1 tgt 0 0 (groupByKey zipf cands)
        (sortBy bucketLe (groupByKey zipf cands))).1.flatten.length < tgt
    · rw [if_pos hlt]
      refine (fillPass_bound sh.s2 hs2 tgt _ 0 _).trans ?_
      have hps : (flatGroups (sortBy lenLe (strictPass sh.s1 tgt 0 0 (groupByKey zipf cands)
          (sortBy bucketLe (groupByKey zipf cands))).2) : Multiset α)
          = (flatGroups (strictPass sh.s1 tgt 0 0 (groupByKey zipf cands)
            (sortBy bucketLe (groupByKey zipf cands))).2 : Multiset α) :=
        Multiset.coe_eq_coe.mpr (flatGroups_perm_of_perm (sortBy_perm _ _))
      rw [hps, ← hflatby]
      exact hsp
    · rw [if_neg hlt]
      refine le_trans ?_ (hflatby ▸ hsp)
      exact le_add_right (le_refl _)
  · rw [if_neg hst]
    refine (fillPass_bound sh.s1 hs1 tgt _ 0 _).trans ?_
    have hps : (flatGroups (sortBy bucketLe (groupByKey zipf cands)) : Multiset α)
        = (cands : Multiset α) := by
      rw [← hflatby]
      exact Multiset.coe_eq_coe.mpr (flatGroups_perm_of_perm hbperm)
    rw [hps]
    simp

theorem pickFallback_le (sh : Shuffler α) (hsh : sh.Lawful) (zipf : α → String)
    (cands : List α) (tgt : Nat) (chosen : List α) (hnd : cands.Nodup)
    (hle : (chosen : Multiset α) ≤ (cands : Multiset α)) :
    ((pickFallback sh zipf cands tgt chosen : List α) : Multiset α) ≤ (cands : Multiset α) := by
  obtain ⟨hs1, hs2, hs3⟩ := hsh
  rw [pickFallback]
  by_cases hlt : chosen.length < tgt
  · rw [if_pos hlt]
    refine (fillPass_bound sh.s3 hs3 tgt _ 0 _).trans ?_
    have hps : (flatGroups (sortBy lenLe (groupByKey (fun r => z3of (zipf r))
        (cands.filter (fun r => decide (¬ r ∈ chosen))))) : Multiset α)
        = ((cands.filter (fun r => decide (¬ r ∈ chosen)) : List α) : Multiset α) := by
      refine Multiset.coe_eq_coe.mpr ?_
      exact (flatGroups_perm_of_perm (sortBy_perm _ _)).trans (groupByKey_flat_perm _ _)
    rw [hps]
    exact chosen_filter_bound chosen cands hnd hle
  · rw [if_neg hlt]
    exact hle

theorem pickOptimized_le (sh : Shuffler α) (hsh : sh.Lawful) (zipf : α → String)
    (cands : List α) (target : Int) (strict150 : Bool) (hnd : cands.Nodup) :
    ((pickOptimized sh zipf cands target strict150 : List α) : Multiset α)
      ≤ (cands : Multiset α) := by
  rw [pickOptimized]
  by_cases ht : target ≤ 0
  · rw [if_pos ht]; simp
  · rw [if_neg ht]
    have h1 := pickChosen_le sh hsh zipf cands target.toNat strict150
    have h2 := pickFallback_le sh hsh zipf cands target.toNat _ hnd h1
    refine le_trans ?_ h2
    exact Multiset.coe_le.mpr (List.take_sublist _ _).subperm

end SelectorBound

/-! ## Idempotence of norm_space -/

theorem takeWord_all_nonws : ∀ l : List Char, (∀ c ∈ l, isWS c = false) →
    takeWord l = (l, []) := by
  intro l
  induction l with
  | nil => intro _; rfl
  | cons c t ih =>
    intro h
    have hc : isWS c = false := h c (by simp)
    rw [takeWord, if_neg (by simp [hc])]
    rw [ih (fun d hd => h d (by simp [hd]))]

theorem takeWord_split (w rest : List Char) (hw : ∀ c ∈ w, isWS c = false)
    (hr : rest = [] ∨ ∃ d t, rest = d :: t ∧ isWS d = true) :
    takeWord (w ++ rest) = (w, rest) := by
  induction w with
  | nil =>
    rcases hr with rfl | ⟨d, t, rfl, hd⟩
    · rfl
    · rw [List.nil_append, takeWord, if_pos hd]
  | cons c t ih =>
    have hc : isWS c = false := hw c (by simp)
    rw [List.cons_append, takeWord, if_neg (by simp [hc])]
    rw [ih (fun d hd => hw d (by simp [hd]))]

theorem wordsOfA_words_ok : ∀ (f : Nat) (l : List Char), ∀ w ∈ wordsOfA f l,
    w ≠ [] ∧ ∀ c ∈ w, isWS c = false := by
  intro f
  induction f with
  | zero => intro l w hw; exact absurd hw (by simp [wordsOfA])
  | succ f ih =>
    intro l w hw
    cases l with
    | nil => exact absurd hw (by simp [wordsOfA])
    | cons c t =>
    by_cases hc : isWS c = true
    · rw [wordsOfA, if_pos hc] at hw
      exact ih t w hw
    · rw [wordsOfA, if_neg (by simpa using hc)] at hw
      rw [List.mem_cons] at hw
      rcases hw with rfl | hw
      · refine ⟨by simp, ?_⟩
        intro d hd
        rw [List.mem_cons] at hd
        rcases hd with rfl | hd
        · simpa using hc
        · -- d is in the taken word
          clear ih
          have : ∀ (l2 : List Char) (d : Char), d ∈ (takeWord l2).1 → isWS d = false := by
            intro l2
            induction l2 with
            | nil => intro d hd; exact absurd hd (by simp [takeWord])
            | cons e t2 ih2 =>
              intro d hd
              by_cases he : isWS e = true
              · rw [takeWord, if_pos he] at hd
                exact absurd hd (by simp)
              · rw [takeWord, if_neg he] at hd
                rw [List.mem_cons] at hd
                rcases hd with rfl | hd
                · simpa using he
                · exact ih2 d hd
          exact this t d hd
      · exact ih _ w hw

theorem wordsOf_words_ok (l : List Char) : ∀ w ∈ wordsOf l,
    w ≠ [] ∧ ∀ c ∈ w, isWS c = false := wordsOfA_words_ok l.length l

theorem wordsOf_joinSp : ∀ ws : List (List Char),
    (∀ w ∈ ws, w ≠ [] ∧ ∀ c ∈ w, isWS c = false) → wordsOf (joinSp ws) = ws := by
  intro ws
  induction ws with
  | nil =>
    intro _
    exact wordsOf_nil
  | cons w rest ih =>
    intro h
    rcases h w (by simp) with ⟨hne, hok⟩
    obtain ⟨c, w2, rfl⟩ : ∃ c w2, w = c :: w2 := by
      cases w with
      | nil => exact absurd rfl hne
      | cons c w2 => exact ⟨c, w2, rfl⟩
    have hc : isWS c = false := hok c (by simp)
    have hw2 : ∀ d ∈ w2, isWS d = false := fun d hd => hok d (by simp [hd])
    cases rest with
    | nil =>
      show wordsOf (c :: w2) = [c :: w2]
      rw [wordsOf_cons, if_neg (by simp [hc])]
      rw [takeWord_all_nonws w2 hw2]
      show (c :: w2) :: wordsOf [] = [c :: w2]
      rw [wordsOf_nil]
    | cons w3 rest2 =>
      show wordsOf (c :: (w2 ++ ' ' :: joinSp (w3 :: rest2))) = (c :: w2) :: w3 :: rest2
      rw [wordsOf_cons, if_neg (by simp [hc])]
      rw [takeWord_split w2 (' ' :: joinSp (w3 :: rest2)) hw2
        (Or.inr ⟨' ', joinSp (w3 :: rest2), rfl, by decide⟩)]
      have hw3 : wordsOf (' ' :: joinSp (w3 :: rest2)) = w3 :: rest2 := by
        rw [wordsOf_cons, if_pos (by decide)]
        exact ih (fun w4 hw4 => h w4 (by simp [hw4]))
      rw [hw3]

/-- norm_space is idempotent: normalising an already-normalised string
    changes nothing.  This ties the seen-key set of process_rows (keyed on
    the raw detected fields) to the dedup key recomputed downstream from the
    stored, normalised fields. -/
theorem normSpace_idem (s : String) : normSpace (normSpace s) = normSpace s := by
  show normSpace ((joinSp (wordsOf s.toList)).asString) = (joinSp (wordsOf s.toList)).asString
  rw [normSpace]
  have hdata : ((joinSp (wordsOf s.toList)).asString).toList = joinSp (wordsOf s.toList) := rfl
  rw [hdata]
  rw [wordsOf_joinSp (wordsOf s.toList) (wordsOf_words_ok s.toList)]

/-! ## Ingestion and build pipeline (process_rows and main,
    BuildMasterCampaignList lines 318-424) -/

/-- Source row after field resolution.  detect_addr_owner_from_source_row
    and get_zip5_from_row only choose which columns feed these values; that
    column-priority selection is not re-modelled.  addr and owner are the
    detected strings (empty when no column resolved), zip the mailing-first
    ZIP5; tag stands for the remaining row payload so that distinct source
    rows with identical resolved fields stay distinct values, as the Python
    row dicts do. -/
structure SrcRow where
  addr : String
  owner : String
  zip : String
  tag : Nat
deriving DecidableEq, Repr

/-- Candidate row built by process_rows (the source also stores the raw row
    under the key _src_row). -/
structure Candidate where
  propertyAddress : String
  ownerName : String
  zip5 : String
  src : SrcRow
deriving DecidableEq, Repr

/-- Per-bucket counters of process_rows. -/
structure SrcStats where
  kept : Nat
  deduped : Nat
  droppedPrior : Nat
  missingAddr : Nat
  missingOwner : Nat
deriving DecidableEq, Repr

def SrcStats.zero : SrcStats := ⟨0, 0, 0, 0, 0⟩

/-- Configuration surface of main consumed by the core. -/
structure BuildConfig where
  campaignNumber : Int
  targetSize : Int
  priorExact : Option Int
  priorMax : Option Int
  minGap : Int
  strict150 : Bool
deriving Repr

/-- Ingestion state: the process-wide seen-key set (kept as a list), the
    accumulated candidates, and the per-bucket statistics. -/
structure ProcState where
  seen : List (String × String)
  cands : List Candidate
  mand : SrcStats
  pool : SrcStats
deriving Repr

def initProcState : ProcState := ⟨[], [], SrcStats.zero, SrcStats.zero⟩

/-- Bump one counter of the bucket statistics. -/
def bumpStat (st : ProcState) (isMand : Bool) (f : SrcStats → SrcStats) : ProcState :=
  if isMand then { st with mand := f st.mand } else { st with pool := f st.pool }

/-- One iteration of process_rows: resolve, drop on missing fields, dedup on
    the seen-key set, apply the prior filter, then keep the candidate. -/
def processRow (cfg : BuildConfig) (tracker : String × String → Option PriorInfo)
    (isMand : Bool) (st : ProcState) (r : SrcRow) : ProcState :=
  if r.addr = "" then
    bumpStat st isMand (fun s => { s with missingAddr := s.missingAddr + 1 })
  else if r.owner = "" then
    bumpStat st isMand (fun s => { s with missingOwner := s.missingOwner + 1 })
  else
    let k := normKey r.addr r.owner
    if k ∈ st.seen then
      bumpStat st isMand (fun s => { s with deduped := s.deduped + 1 })
    else if ¬ (passesPriorRules (tracker k) cfg.priorExact cfg.priorMax cfg.minGap
        cfg.campaignNumber = true) then
      bumpStat st isMand (fun s => { s with droppedPrior := s.droppedPrior + 1 })
    else
      bumpStat
        { st with
          cands := st.cands ++ [⟨normSpace r.addr, normSpace r.owner, r.zip, r⟩],
          seen := st.seen ++ [k] }
        isMand (fun s => { s with kept := s.kept + 1 })

/-- process_rows over one source file. -/
def processSource (cfg : BuildConfig) (tracker : String × String → Option PriorInfo)
    (isMand : Bool) (st : ProcState) (rows : List SrcRow) : ProcState :=
  rows.foldl (processRow cfg tracker isMand) st

/-- State after ingesting every mandatory source then every optional pool. -/
def ingest (cfg : BuildConfig) (tracker : String × String → Option PriorInfo)
    (mandatory optionalSrcs : List (List SrcRow)) : ProcState :=
  optionalSrcs.foldl (processSource cfg tracker false)
    (mandatory.foldl (processSource cfg tracker true) initProcState)

/-- Lexicographic string triple comparison (Python tuple order). -/
def strLex3 (a b : String × String × String) : Bool :=
  decide (a.1 < b.1 ∨ (a.1 = b.1 ∧ (a.2.1 < b.2.1 ∨ (a.2.1 = b.2.1 ∧ a.2.2 ≤ b.2.2))))

/-- Sort key of the final master list: mailing ZIP5 (empty sorts last via
    ZZZZZ), then address, then owner. -/
def masterKey (r : Candidate) : String × String × String :=
  ((if r.zip5 = "" then "ZZZZZ" else r.zip5), r.propertyAddress, r.ownerName)

/-- USPS-friendly final ordering of the chosen selection. -/
def sortFinal (l : List Candidate) : List Candidate :=
  sortBy (fun a b => strLex3 (masterKey a) (masterKey b)) l

/-- Embedding of the validation-and-build skeleton of main: the fatal
    configuration checks in order, then ingestion, the mandatory
    oversubscription check, and on success the sorted optimized selection.
    The exit code 1 of sys.exit(1) is carried in the error case; reports and
    file writing happen only on the success path and are represented by the
    returned selection. -/
def runBuild (sh : Shuffler Candidate) (cfg : BuildConfig)
    (mandatory optionalSrcs : List (List SrcRow))
    (tracker : String × String → Option PriorInfo) : Except Nat (List Candidate) :=
  if cfg.priorExact.isSome ∧ cfg.priorMax.isSome then Except.error 1
  else if 4 < mandatory.length then Except.error 1
  else if 2 < optionalSrcs.length then Except.error 1
  else
    let st1 := mandatory.foldl (processSource cfg tracker true) initProcState
    if cfg.targetSize < (st1.mand.kept : Int) then Except.error 1
    else
      let st2 := optionalSrcs.foldl (processSource cfg tracker false) st1
      Except.ok (sortFinal (pickOptimized sh Candidate.zip5 st2.cands cfg.targetSize
        cfg.strict150))

/-- Dedup key of a stored candidate, as recomputed downstream. -/
def candKey (c : Candidate) : String × String := normKey c.propertyAddress c.ownerName

theorem bumpStat_cands (st : ProcState) (m : Bool) (f : SrcStats → SrcStats) :
    (bumpStat st m f).cands = st.cands := by
  rw [bumpStat]; by_cases h : m = true
  · rw [if_pos h]
  · rw [if_neg h]

theorem bumpStat_seen (st : ProcState) (m : Bool) (f : SrcStats → SrcStats) :
    (bumpStat st m f).seen = st.seen := by
  rw [bumpStat]; by_cases h : m = true
  · rw [if_pos h]
  · rw [if_neg h]

/-- Invariant carried by the ingestion state. -/
def ProcInv (st : ProcState) : Prop :=
  (st.cands.map candKey).Nodup ∧ ∀ c ∈ st.cands, candKey c ∈ st.seen

theorem processRow_inv (cfg : BuildConfig) (tracker : String × String → Option PriorInfo)
    (isMand : Bool) (st : ProcState) (r : SrcRow) (h : ProcInv st) :
    ProcInv (processRow cfg tracker isMand st r) := by
  rcases h with ⟨hnd, hseen⟩
  rw [processRow]
  by_cases h1 : r.addr = ""
  · rw [if_pos h1]
    exact ⟨by rw [bumpStat_cands]; exact hnd,
      by rw [bumpStat_cands, bumpStat_seen]; exact hseen⟩
  · rw [if_neg h1]
    by_cases h2 : r.owner = ""
    · rw [if_pos h2]
      exact ⟨by rw [bumpStat_cands]; exact hnd,
        by rw [bumpStat_cands, bumpStat_seen]; exact hseen⟩
    · rw [if_neg h2]
      by_cases h3 : normKey r.addr r.owner ∈ st.seen
      · rw [if_pos h3]
        exact ⟨by rw [bumpStat_cands]; exact hnd,
          by rw [bumpStat_cands, bumpStat_seen]; exact hseen⟩
      · rw [if_neg h3]
        by_cases h4 : ¬ (passesPriorRules (tracker (normKey r.addr r.owner)) cfg.priorExact
            cfg.priorMax cfg.minGap cfg.campaignNumber = true)
        · rw [if_pos h4]
          exact ⟨by rw [bumpStat_cands]; exact hnd,
            by rw [bumpStat_cands, bumpStat_seen]; exact hseen⟩
        · rw [if_neg h4]
          have hk : candKey ⟨normSpace r.addr, normSpace r.owner, r.zip, r⟩
              = normKey r.addr r.owner := by
            show normKey (normSpace r.addr) (normSpace r.owner) = normKey r.addr r.owner
            rw [normKey, normKey, normSpace_idem, normSpace_idem]
          constructor
          · rw [bumpStat_cands]
            simp only [List.map_append, List.map_cons, List.map_nil]
            rw [List.nodup_append]
            refine ⟨hnd, by simp, ?_⟩
            intro a ha
            simp only [List.mem_singleton]
            intro hb
            rw [List.mem_map] at ha
            rcases ha with ⟨c, hc, rfl⟩
            rw [hk] at hb
            have hs := hseen c hc
            rw [hb] at hs
            exact h3 hs
          · rw [bumpStat_cands, bumpStat_seen]
            intro c hc
            simp only [List.mem_append, List.mem_singleton] at hc
            rcases hc with hc | hc
            · exact List.mem_append_left _ (hseen c hc)
            · rw [hc, hk]
              exact List.mem_append_right _ (by simp)

theorem processSource_inv (cfg : BuildConfig) (tracker : String × String → Option PriorInfo)
    (isMand : Bool) (rows : List SrcRow) :
    ∀ (st : ProcState), ProcInv st → ProcInv (processSource cfg tracker isMand st rows) := by
  induction rows with
  | nil => intro st h; exact h
  | cons r t ih =>
    intro st h
    exact ih _ (processRow_inv cfg tracker isMand st r h)

theorem foldl_sources_inv (cfg : BuildConfig) (tracker : String × String → Option PriorInfo)
    (isMand : Bool) (srcs : List (List SrcRow)) :
    ∀ (st : ProcState), ProcInv st →
      ProcInv (srcs.foldl (processSource cfg tracker isMand) st) := by
  induction srcs with
  | nil => intro st h; exact h
  | cons s t ih =>
    intro st h
    exact ih _ (processSource_inv cfg tracker isMand s st h)

theorem ingest_inv (cfg : BuildConfig) (tracker : String × String → Option PriorInfo)
    (mandatory optionalSrcs : List (List SrcRow)) :
    ProcInv (ingest cfg tracker mandatory optionalSrcs) := by
  rw [ingest]
  refine foldl_sources_inv cfg tracker false optionalSrcs _ ?_
  refine foldl_sources_inv cfg tracker true mandatory _ ?_
  exact ⟨by simp [initProcState], by simp [initProcState]⟩

/-- [C5] For every configuration, tracker and list of sources, and every
    possible shuffle outcome, the selection built by pick_optimized on the
    ingested candidate pool has length at most targetSize, is empty whenever
    targetSize is not positive, and mentions every dedup key at most once
    (process_rows drops any later duplicate key across all sources,
    first-seen wins, and the selector never duplicates a candidate). -/
theorem c5_selection_properties (sh : Shuffler Candidate) (hsh : sh.Lawful)
    (cfg : BuildConfig) (mandatory optionalSrcs : List (List SrcRow))
    (tracker : String × String → Option PriorInfo) :
    (pickOptimized sh Candidate.zip5 (ingest cfg tracker mandatory optionalSrcs).cands
        cfg.targetSize cfg.strict150).length ≤ cfg.targetSize.toNat ∧
    (cfg.targetSize ≤ 0 →
      pickOptimized sh Candidate.zip5 (ingest cfg tracker mandatory optionalSrcs).cands
        cfg.targetSize cfg.strict150 = []) ∧
    ((pickOptimized sh Candidate.zip5 (ingest cfg tracker mandatory optionalSrcs).cands
        cfg.targetSize cfg.strict150).map candKey).Nodup := by
  have hkeys : ((ingest cfg tracker mandatory optionalSrcs).cands.map candKey).Nodup :=
    (ingest_inv cfg tracker mandatory optionalSrcs).1
  have hcnd : (ingest cfg tracker mandatory optionalSrcs).cands.Nodup :=
    List.Nodup.of_map candKey hkeys
  have hle := pickOptimized_le sh hsh Candidate.zip5
    (ingest cfg tracker mandatory optionalSrcs).cands cfg.targetSize cfg.strict150 hcnd
  refine ⟨?_, ?_, ?_⟩
  · rw [pickOptimized]
    by_cases ht : cfg.targetSize ≤ 0
    · rw [if_pos ht]; simp
    · rw [if_neg ht]
      simpa using List.length_take_le _ _
  · intro ht
    rw [pickOptimized, if_pos ht]
  · have hsel : (pickOptimized sh Candidate.zip5
        (ingest cfg tracker mandatory optionalSrcs).cands cfg.targetSize
        cfg.strict150).Nodup := by
      have := Multiset.nodup_of_le hle (by simpa using hcnd)
      simpa using this
    have hsub : ∀ x ∈ pickOptimized sh Candidate.zip5
        (ingest cfg tracker mandatory optionalSrcs).cands cfg.targetSize cfg.strict150,
        x ∈ (ingest cfg tracker mandatory optionalSrcs).cands := by
      intro x hx
      have := Multiset.subset_of_le hle
      simpa using this (by simpa using hx)
    refine List.Nodup.map_on ?_ hsel
    intro x hx y hy hxy
    exact List.inj_on_of_nodup_map hkeys (hsub x hx) (hsub y hy) hxy

/-- [C5, witness] The selection properties at a concrete instance: one
    mandatory source with two rows sharing a dedup key up to whitespace and
    case, empty tracker, target 3, non-strict, identity shuffles. -/
theorem c5_witness :
    (pickOptimized (idShuffler Candidate) Candidate.zip5
        (ingest ⟨1, 3, none, none, 0, false⟩ (fun _ => none)
          [[⟨"1 Main St", "Jane Doe", "95835", 0⟩, ⟨"1  main st", "JANE  DOE", "95835", 1⟩]]
          []).cands 3 false).length ≤ (3 : Int).toNat ∧
    ((3 : Int) ≤ 0 →
      pickOptimized (idShuffler Candidate) Candidate.zip5
        (ingest ⟨1, 3, none, none, 0, false⟩ (fun _ => none)
          [[⟨"1 Main St", "Jane Doe", "95835", 0⟩, ⟨"1  main st", "JANE  DOE", "95835", 1⟩]]
          []).cands 3 false = []) ∧
    ((pickOptimized (idShuffler Candidate) Candidate.zip5
        (ingest ⟨1, 3, none, none, 0, false⟩ (fun _ => none)
          [[⟨"1 Main St", "Jane Doe", "95835", 0⟩, ⟨"1  main st", "JANE  DOE", "95835", 1⟩]]
          []).cands 3 false).map candKey).Nodup :=
  c5_selection_properties (idShuffler Candidate) (idShuffler_lawful Candidate)
    ⟨1, 3, none, none, 0, false⟩
    [[⟨"1 Main St", "Jane Doe", "95835", 0⟩, ⟨"1  main st", "JANE  DOE", "95835", 1⟩]]
    [] (fun _ => none)

/-- [C9] Fatal validation: if priorExact and priorMax are both set, or more
    than 4 mandatory or more than 2 optional sources are supplied, or the
    surviving mandatory-source candidate count exceeds targetSize after
    filtering, the build aborts with exit code 1 and produces no output (the
    error value carries no selection; all file writing lives on the success
    path only). -/
theorem c9_validation_errors (sh : Shuffler Candidate) (cfg : BuildConfig)
    (mandatory optionalSrcs : List (List SrcRow))
    (tracker : String × String → Option PriorInfo)
    (h : (cfg.priorExact.isSome ∧ cfg.priorMax.isSome) ∨ 4 < mandatory.length ∨
      2 < optionalSrcs.length ∨ cfg.targetSize <
        ((mandatory.foldl (processSource cfg tracker true) initProcState).mand.kept : Int)) :
    runBuild sh cfg mandatory optionalSrcs tracker = Except.error 1 := by
  simp only [runBuild]
  by_cases h1 : cfg.priorExact.isSome ∧ cfg.priorMax.isSome
  · rw [if_pos h1]
  · rw [if_neg h1]
    by_cases h2 : 4 < mandatory.length
    · rw [if_pos h2]
    · rw [if_neg h2]
      by_cases h3 : 2 < optionalSrcs.length
      · rw [if_pos h3]
      · rw [if_neg h3]
        have h4 : cfg.targetSize <
            ((mandatory.foldl (processSource cfg tracker true) initProcState).mand.kept : Int) := by
          rcases h with h | h | h | h
          · exact absurd h h1
          · exact absurd h h2
          · exact absurd h h3
          · exact h
        rw [if_pos h4]

/-- [C9, witness] A concrete violating configuration: priorExact and
    priorMax both set aborts with exit code 1. -/
theorem c9_witness :
    runBuild (idShuffler Candidate) ⟨1, 10, some 0, some 1, 0, false⟩ [] []
      (fun _ => none) = Except.error 1 :=
  c9_validation_errors (idShuffler Candidate) ⟨1, 10, some 0, some 1, 0, false⟩ [] []
    (fun _ => none) (Or.inl (by decide))

/-! ## Campaign ledger: finalize (append_executed_and_update_tracker,
    finalize_or_rebuild.py lines 169-311) -/

/-- Python str.strip. -/
def trimStr (s : String) : String :=
  (((s.toList.dropWhile isWS).reverse.dropWhile isWS).reverse).asString

/-- Mapping row of letters_mapping.csv after the get-fallback chains of the
    source pick the owner, address, ref-code and template columns.  zipGiven
    is the ZIP5 cell or, when empty, the generic mail-first ZIP resolution of
    the row (that column-priority resolution is not re-modelled); empty when
    neither yields a ZIP. -/
structure MapRow where
  owner : String
  addr : String
  refCode : String
  templateId : String
  zipGiven : String
deriving DecidableEq, Repr

/-- Row of an executed campaign log. -/
structure LogRow where
  executedDt : String
  campaignName : String
  campaignNumber : String
  ownerName : String
  propertyAddress : String
  templateId : String
  refCode : String
  zip5 : String
deriving DecidableEq, Repr

/-- Tracker (master ledger) row; the CampaignNumbers and TemplateIds cells
    are carried in split (pipe-separated) form and CampaignCount as the
    number the source stores as str(count). -/
structure TrackRow where
  propertyAddress : String
  ownerName : String
  zip5 : String
  campaignCount : Nat
  firstSentDt : String
  lastSentDt : String
  campaignNumbers : List String
  templateIds : List String
deriving DecidableEq, Repr

/-- Pair keys (dedup key, stripped campaign number) present in a log. -/
def logPairs (log : List LogRow) : List ((String × String) × String) :=
  log.map (fun r => (normKey r.propertyAddress r.ownerName, trimStr r.campaignNumber))

/-- Non-empty ref-codes present in a log. -/
def logRefs (log : List LogRow) : List String :=
  (log.filter (fun r => decide (¬ r.refCode = ""))).map LogRow.refCode

/-- Idempotency skip: the pair key or a non-empty ref-code already logged. -/
def skipRow (log : List LogRow) (cnT : String) (r : MapRow) : Bool :=
  decide ((normKey r.addr r.owner, cnT) ∈ logPairs log) ||
    (decide (¬ r.refCode = "") && decide (r.refCode ∈ logRefs log))

/-- ZIP of a mapping row: the given ZIP, else the master-index lookup when
    both key fields are present. -/
def resolveZip (zi : String × String → String) (r : MapRow) : String :=
  if ¬ r.zipGiven = "" then r.zipGiven
  else if ¬ r.addr = "" ∧ ¬ r.owner = "" then zi (normKey r.addr r.owner)
  else ""

/-- New executed-log row for a kept mapping row. -/
def mkLogRow (today cname cn : String) (zi : String × String → String) (r : MapRow) : LogRow :=
  ⟨today, cname, cn, r.owner, r.addr, trimStr r.templateId, trimStr r.refCode,
    trimStr (resolveZip zi r)⟩

/-- Rows appended by one finalize run. -/
def toAddRows (today cname cn : String) (zi : String × String → String)
    (log : List LogRow) (m : List MapRow) : List LogRow :=
  (m.filter (fun r => !(skipRow log (trimStr cn) r))).map (mkLogRow today cname cn zi)

/-- Tracker dict assignment: replace in place or append. -/
def dictSetT (d : List ((String × String) × TrackRow)) (k : String × String)
    (v : TrackRow) : List ((String × String) × TrackRow) :=
  match d with
  | [] => [(k, v)]
  | (kk, w) :: t => if kk = k then (kk, v) :: t else (kk, w) :: dictSetT t k v

/-- Tracker dict lookup. -/
def lookupT (d : List ((String × String) × TrackRow)) (k : String × String) :
    Option TrackRow :=
  match d with
  | [] => none
  | (kk, w) :: t => if kk = k then some w else lookupT t k

/-- The in-memory index of the tracker file, keyed by dedup key (later file
    rows with the same key replace earlier ones, as dict assignment does). -/
def trackIndex (rows : List TrackRow) : List ((String × String) × TrackRow) :=
  rows.foldl (fun d r => dictSetT d (normKey r.propertyAddress r.ownerName) r) []

/-- Group appender for by_pair_new (setdefault(k, []).append(r)). -/
def addPairGroup (gs : List ((String × String) × List LogRow)) (k : String × String)
    (r : LogRow) : List ((String × String) × List LogRow) :=
  match gs with
  | [] => [(k, [r])]
  | (kk, l) :: t => if kk = k then (kk, l ++ [r]) :: t else (kk, l) :: addPairGroup t k r

/-- by_pair_new: the appended rows grouped by dedup key. -/
def groupByPair (rows : List LogRow) : List ((String × String) × List LogRow) :=
  rows.foldl (fun gs r => addPairGroup gs (normKey r.propertyAddress r.ownerName) r) []

/-- Numeric sort of campaign-number strings. -/
def sortNum (l : List String) : List String :=
  sortBy (fun a b => Nat.ble (numKey a) (numKey b)) l

/-- Tracker update for one dedup key with its freshly appended rows. -/
def updateTrack (today : String) (d : List ((String × String) × TrackRow))
    (k : String × String) (rows : List LogRow) :
    List ((String × String) × TrackRow) :=
  match rows with
  | [] => d
  | r0 :: _ =>
    match lookupT d k with
    | some tr =>
      let z5 := r0.zip5
      let zip' := if tr.zip5 = "" ∧ ¬ z5 = "" then z5 else tr.zip5
      let existing := tr.campaignNumbers.filter (fun x => decide (¬ x = ""))
      let cns := sortNum ((existing ++ rows.map LogRow.campaignNumber).dedup)
      let existingTs := tr.templateIds.filter (fun x => decide (¬ x = ""))
      let newTs := (rows.map LogRow.templateId).filter (fun x => decide (¬ x = ""))
      dictSetT d k
        { propertyAddress := if tr.propertyAddress = "" then r0.propertyAddress
            else tr.propertyAddress,
          ownerName := if tr.ownerName = "" then r0.ownerName else tr.ownerName,
          zip5 := zip',
          campaignCount := cns.length,
          firstSentDt := if tr.firstSentDt = "" then today else tr.firstSentDt,
          lastSentDt := today,
          campaignNumbers := cns,
          templateIds := existingTs ++ newTs }
    | none =>
      dictSetT d k
        { propertyAddress := r0.propertyAddress,
          ownerName := r0.ownerName,
          zip5 := r0.zip5,
          campaignCount := 1,
          firstSentDt := today,
          lastSentDt := today,
          campaignNumbers := [r0.campaignNumber],
          templateIds := (rows.map LogRow.templateId).filter (fun x => decide (¬ x = "")) }

/-- One finalize run (without force-recount): guard clauses for a missing
    campaign number and an empty mapping, the idempotent append to the
    executed log, and the tracker rewrite.  Returns the new log and the new
    tracker rows. -/
def finalizeOnce (today cname cn : String) (zi : String × String → String)
    (m : List MapRow) (log : List LogRow) (tracker : List TrackRow) :
    List LogRow × List TrackRow :=
  if cn = "" then (log, tracker)
  else if m = [] then (log, tracker)
  else
    let toAdd := toAddRows today cname cn zi log m
    let idx2 := (groupByPair toAdd).foldl (fun d g => updateTrack today d g.1 g.2)
      (trackIndex tracker)
    (log ++ toAdd, idx2.map Prod.snd)

/-! ## Idempotence of finalize -/

theorem logPairs_append (l1 l2 : List LogRow) :
    logPairs (l1 ++ l2) = logPairs l1 ++ logPairs l2 := by
  rw [logPairs, List.map_append]; rfl

theorem logRefs_append (l1 l2 : List LogRow) :
    logRefs (l1 ++ l2) = logRefs l1 ++ logRefs l2 := by
  rw [logRefs, List.filter_append, List.map_append]; rfl

theorem skipRow_mono (log ext : List LogRow) (cnT : String) (r : MapRow)
    (h : skipRow log cnT r = true) : skipRow (log ++ ext) cnT r = true := by
  rw [skipRow] at h ⊢
  rw [Bool.or_eq_true] at h ⊢
  rcases h with h | h
  · left
    rw [decide_eq_true_eq] at h ⊢
    rw [logPairs_append]
    exact List.mem_append_left _ h
  · right
    rw [Bool.and_eq_true] at h ⊢
    refine ⟨h.1, ?_⟩
    have h2 := h.2
    rw [decide_eq_true_eq] at h2 ⊢
    rw [logRefs_append]
    exact List.mem_append_left _ h2

theorem skipRow_after_run (today cname cn : String) (zi : String × String → String)
    (log : List LogRow) (m : List MapRow) :
    ∀ r ∈ m, skipRow (log ++ toAddRows today cname cn zi log m) (trimStr cn) r = true := by
  intro r hr
  by_cases hs : skipRow log (trimStr cn) r = true
  · exact skipRow_mono log _ (trimStr cn) r hs
  · have hmem : mkLogRow today cname cn zi r ∈ toAddRows today cname cn zi log m := by
      rw [toAddRows]
      refine List.mem_map_of_mem _ ?_
      rw [List.mem_filter]
      exact ⟨hr, by simp [hs]⟩
    rw [skipRow, Bool.or_eq_true]
    left
    rw [decide_eq_true_eq, logPairs_append]
    refine List.mem_append_right _ ?_
    rw [logPairs, List.mem_map]
    exact ⟨mkLogRow today cname cn zi r, hmem, rfl⟩

theorem toAddRows_second_run (today1 today2 cname cn : String)
    (zi : String × String → String) (log : List LogRow) (m : List MapRow) :
    toAddRows today2 cname cn zi (log ++ toAddRows today1 cname cn zi log m) m = [] := by
  rw [toAddRows]
  have h : (m.filter (fun r =>
      !(skipRow (log ++ toAddRows today1 cname cn zi log m) (trimStr cn) r))) = [] := by
    rw [List.filter_eq_nil]
    intro r hr
    rw [skipRow_after_run today1 cname cn zi log m r hr]
    simp
  rw [h]
  rfl

/-- Every dict entry stores a row whose recomputed dedup key is its key. -/
def WKeyed (d : List ((String × String) × TrackRow)) : Prop :=
  ∀ p ∈ d, normKey p.2.propertyAddress p.2.ownerName = p.1

/-- Dict keys are pairwise distinct. -/
def KeysNodup (d : List ((String × String) × TrackRow)) : Prop :=
  (d.map Prod.fst).Nodup

theorem dictSetT_mem (d : List ((String × String) × TrackRow)) (k : String × String)
    (v : TrackRow) : ∀ q ∈ dictSetT d k v, q ∈ d ∨ q = (k, v) := by
  induction d with
  | nil => intro q hq; right; simpa [dictSetT] using hq
  | cons p t ih =>
    obtain ⟨kk, w⟩ := p
    intro q hq
    by_cases h : kk = k
    · rw [dictSetT, if_pos h] at hq
      rw [List.mem_cons] at hq
      rcases hq with rfl | hq
      · right; rw [h]
      · left; exact List.mem_cons_of_mem _ hq
    · rw [dictSetT, if_neg h] at hq
      rw [List.mem_cons] at hq
      rcases hq with rfl | hq
      · left; simp
      · rcases ih q hq with h2 | h2
        · left; exact List.mem_cons_of_mem _ h2
        · right; exact h2

theorem dictSetT_keys_mem (d : List ((String × String) × TrackRow)) (k : String × String)
    (v : TrackRow) : ∀ w ∈ (dictSetT d k v).map Prod.fst, w ∈ d.map Prod.fst ∨ w = k := by
  intro w hw
  rw [List.mem_map] at hw
  rcases hw with ⟨q, hq, rfl⟩
  rcases dictSetT_mem d k v q hq with h | h
  · left; exact List.mem_map_of_mem _ h
  · right; rw [h]

theorem dictSetT_keys_nodup (d : List ((String × String) × TrackRow)) (k : String × String)
    (v : TrackRow) (h : KeysNodup d) : KeysNodup (dictSetT d k v) := by
  induction d with
  | nil => simp [dictSetT, KeysNodup]
  | cons p t ih =>
    obtain ⟨kk, w⟩ := p
    rw [KeysNodup, List.map_cons] at h
    rcases h with _ | ⟨hh, ht⟩
    by_cases hk : kk = k
    · rw [KeysNodup, dictSetT, if_pos hk, List.map_cons]
      exact List.Pairwise.cons hh ht
    · rw [KeysNodup, dictSetT, if_neg hk, List.map_cons]
      refine List.Pairwise.cons ?_ (ih ht)
      intro b hb
      rcases dictSetT_keys_mem t k v b hb with h2 | h2
      · exact hh b h2
      · rw [h2]; exact hk

theorem dictSetT_wkeyed (d : List ((String × String) × TrackRow)) (k : String × String)
    (v : TrackRow) (hd : WKeyed d) (hv : normKey v.propertyAddress v.ownerName = k) :
    WKeyed (dictSetT d k v) := by
  intro q hq
  rcases dictSetT_mem d k v q hq with h | h
  · exact hd q h
  · rw [h]; exact hv

theorem lookupT_mem (d : List ((String × String) × TrackRow)) (k : String × String)
    (tr : TrackRow) (h : lookupT d k = some tr) : (k, tr) ∈ d := by
  induction d with
  | nil => exact absurd h (by simp [lookupT])
  | cons p t ih =>
    obtain ⟨kk, w⟩ := p
    by_cases hk : kk = k
    · rw [lookupT, if_pos hk] at h
      injection h with h
      rw [← hk, ← h]
      simp
    · rw [lookupT, if_neg hk] at h
      exact List.mem_cons_of_mem _ (ih h)

theorem trackIndex_ok (rows : List TrackRow) :
    WKeyed (trackIndex rows) ∧ KeysNodup (trackIndex rows) := by
  suffices h : ∀ (rows : List TrackRow) (d : List ((String × String) × TrackRow)),
      WKeyed d → KeysNodup d →
      WKeyed (rows.foldl (fun d r => dictSetT d (normKey r.propertyAddress r.ownerName) r) d) ∧
      KeysNodup (rows.foldl (fun d r => dictSetT d (normKey r.propertyAddress r.ownerName) r) d) by
    exact h rows [] (by intro q hq; exact absurd hq (by simp)) (by simp [KeysNodup])
  intro rows
  induction rows with
  | nil => intro d h1 h2; exact ⟨h1, h2⟩
  | cons r t ih =>
    intro d h1 h2
    simp only [List.foldl_cons]
    exact ih _ (dictSetT_wkeyed d _ r h1 rfl) (dictSetT_keys_nodup d _ r h2)

theorem addPairGroup_members (gs : List ((String × String) × List LogRow))
    (k : String × String) (r : LogRow) :
    ∀ g ∈ addPairGroup gs k r, ∀ x ∈ g.2,
      (∃ g0 ∈ gs, g0.1 = g.1 ∧ x ∈ g0.2) ∨ (x = r ∧ g.1 = k) := by
  induction gs with
  | nil =>
    intro g hg x hx
    rw [addPairGroup] at hg
    rw [List.mem_singleton] at hg
    right
    rw [hg] at hx ⊢
    exact ⟨by simpa using hx, rfl⟩
  | cons p t ih =>
    obtain ⟨kk, l⟩ := p
    intro g hg x hx
    by_cases h : kk = k
    · rw [addPairGroup, if_pos h] at hg
      rw [List.mem_cons] at hg
      rcases hg with rfl | hg
      · simp only [List.mem_append, List.mem_singleton] at hx
        rcases hx with hx | hx
        · exact Or.inl ⟨(kk, l), by simp, rfl, hx⟩
        · exact Or.inr ⟨hx, h⟩
      · exact Or.inl (by
          rcases (show (∃ g0 ∈ t, g0.1 = g.1 ∧ x ∈ g0.2) from ⟨g, hg, rfl, hx⟩)
            with ⟨g0, hg0, he, hxx⟩
          exact ⟨g0, List.mem_cons_of_mem _ hg0, he, hxx⟩)
    · rw [addPairGroup, if_neg h] at hg
      rw [List.mem_cons] at hg
      rcases hg with rfl | hg
      · exact Or.inl ⟨(kk, l), by simp, rfl, hx⟩
      · rcases ih g hg x hx with ⟨g0, hg0, he, hxx⟩ | h2
        · exact Or.inl ⟨g0, List.mem_cons_of_mem _ hg0, he, hxx⟩
        · exact Or.inr h2

theorem groupByPair_members_aux (rows0 : List LogRow) :
    ∀ (rows : List LogRow) (gs : List ((String × String) × List LogRow)),
      (∀ g ∈ gs, ∀ x ∈ g.2, x ∈ rows0 ∧ normKey x.propertyAddress x.ownerName = g.1) →
      (∀ r ∈ rows, r ∈ rows0) →
      ∀ g ∈ rows.foldl (fun gs r => addPairGroup gs (normKey r.propertyAddress r.ownerName) r) gs,
        ∀ x ∈ g.2, x ∈ rows0 ∧ normKey x.propertyAddress x.ownerName = g.1 := by
  intro rows
  induction rows with
  | nil => intro gs hgs _; exact hgs
  | cons r t ih =>
    intro gs hgs hsub
    simp only [List.foldl_cons]
    refine ih _ ?_ (fun r2 hr2 => hsub r2 (List.mem_cons_of_mem _ hr2))
    intro g hg x hx
    rcases addPairGroup_members gs (normKey r.propertyAddress r.ownerName) r g hg x hx with
      ⟨g0, hg0, he, hxx⟩ | ⟨rfl, hk⟩
    · have := hgs g0 hg0 x hxx
      exact ⟨this.1, by rw [← he]; exact this.2⟩
    · exact ⟨hsub x (by simp), by rw [hk]⟩

theorem groupByPair_ok (rows : List LogRow) :
    ∀ g ∈ groupByPair rows, ∀ x ∈ g.2,
      x ∈ rows ∧ normKey x.propertyAddress x.ownerName = g.1 := by
  rw [groupByPair]
  exact groupByPair_members_aux rows rows []
    (fun g hg => absurd hg (by simp)) (fun r hr => hr)

theorem normKey_fst (a o : String) : (normKey a o).1 = upperStr (normSpace a) := rfl

theorem normKey_snd (a o : String) : (normKey a o).2 = upperStr (normSpace o) := rfl

theorem updateTrack_ok (today : String) (d : List ((String × String) × TrackRow))
    (k : String × String) (rows : List LogRow) (hd : WKeyed d) (hnd : KeysNodup d)
    (hrows : ∀ x ∈ rows, normKey x.propertyAddress x.ownerName = k) :
    WKeyed (updateTrack today d k rows) ∧ KeysNodup (updateTrack today d k rows) := by
  cases rows with
  | nil => exact ⟨hd, hnd⟩
  | cons r0 rest =>
    have hk0 : normKey r0.propertyAddress r0.ownerName = k := hrows r0 (by simp)
    rw [updateTrack]
    cases hlk : lookupT d k with
    | some tr =>
      have htr : normKey tr.propertyAddress tr.ownerName = k := hd (k, tr) (lookupT_mem d k tr hlk)
      refine ⟨dictSetT_wkeyed d k _ hd ?_, dictSetT_keys_nodup d k _ hnd⟩
      have ha : upperStr (normSpace (if tr.propertyAddress = "" then r0.propertyAddress
          else tr.propertyAddress)) = k.1 := by
        by_cases he : tr.propertyAddress = ""
        · rw [if_pos he, ← normKey_fst r0.propertyAddress r0.ownerName, hk0]
        · rw [if_neg he, ← normKey_fst tr.propertyAddress tr.ownerName, htr]
      have ho : upperStr (normSpace (if tr.ownerName = "" then r0.ownerName
          else tr.ownerName)) = k.2 := by
        by_cases he : tr.ownerName = ""
        · rw [if_pos he, ← normKey_snd r0.propertyAddress r0.ownerName, hk0]
        · rw [if_neg he, ← normKey_snd tr.propertyAddress tr.ownerName, htr]
      show normKey _ _ = k
      rw [normKey]
      rw [show k = (k.1, k.2) from rfl]
      exact Prod.ext (by exact ha) (by exact ho)
    | none =>
      exact ⟨dictSetT_wkeyed d k _ hd hk0, dictSetT_keys_nodup d k _ hnd⟩

theorem foldl_updateTrack_ok (today : String)
    (groups : List ((String × String) × List LogRow)) (rows0 : List LogRow)
    (hgr : ∀ g ∈ groups, ∀ x ∈ g.2, x ∈ rows0 ∧ normKey x.propertyAddress x.ownerName = g.1) :
    ∀ (d : List ((String × String) × TrackRow)), WKeyed d → KeysNodup d →
      WKeyed (groups.foldl (fun d g => updateTrack today d g.1 g.2) d) ∧
      KeysNodup (groups.foldl (fun d g => updateTrack today d g.1 g.2) d) := by
  induction groups with
  | nil => intro d h1 h2; exact ⟨h1, h2⟩
  | cons g t ih =>
    intro d h1 h2
    simp only [List.foldl_cons]
    have hg := updateTrack_ok today d g.1 g.2 h1 h2
      (fun x hx => (hgr g (by simp) x hx).2)
    exact ih (fun g2 hg2 x hx => hgr g2 (List.mem_cons_of_mem _ hg2) x hx) _ hg.1 hg.2

theorem dictSetT_fresh (d : List ((String × String) × TrackRow)) (k : String × String)
    (v : TrackRow) (h : ¬ k ∈ d.map Prod.fst) : dictSetT d k v = d ++ [(k, v)] := by
  induction d with
  | nil => rfl
  | cons p t ih =>
    obtain ⟨kk, w⟩ := p
    have hk : ¬ kk = k := by
      intro he
      exact h (by rw [← he]; simp)
    rw [dictSetT, if_neg hk, List.cons_append]
    rw [ih (fun hm => h (by simp [hm]))]

/-- Rebuilding the index from the values of a well-keyed dict with distinct
    keys reproduces the dict. -/
theorem trackIndex_roundtrip (d : List ((String × String) × TrackRow))
    (hw : WKeyed d) (hnd : KeysNodup d) : trackIndex (d.map Prod.snd) = d := by
  suffices h : ∀ (d : List ((String × String) × TrackRow))
      (acc : List ((String × String) × TrackRow)),
      (∀ p ∈ d, normKey p.2.propertyAddress p.2.ownerName = p.1) →
      ((acc.map Prod.fst ++ d.map Prod.fst).Nodup) →
      (d.map Prod.snd).foldl
        (fun a r => dictSetT a (normKey r.propertyAddress r.ownerName) r) acc = acc ++ d by
    have := h d [] hw (by simpa [KeysNodup] using hnd)
    simpa [trackIndex] using this
  intro d
  induction d with
  | nil => intro acc _ _; simp
  | cons p t ih =>
    intro acc hw2 hnd2
    obtain ⟨k, v⟩ := p
    have hkv : normKey v.propertyAddress v.ownerName = k := hw2 (k, v) (by simp)
    simp only [List.map_cons, List.foldl_cons]
    rw [hkv]
    have hfresh : ¬ k ∈ acc.map Prod.fst := by
      intro hm
      rw [List.map_cons] at hnd2
      exact (List.nodup_append.mp hnd2).2.2 hm (by simp)
    rw [dictSetT_fresh acc k v hfresh]
    have hnd3 : ((acc ++ [(k, v)]).map Prod.fst ++ t.map Prod.fst).Nodup := by
      rw [List.map_append]
      simp only [List.map_cons, List.map_nil]
      rw [List.map_cons] at hnd2
      have h1 : (acc.map Prod.fst ++ (k :: t.map Prod.fst)).Nodup := hnd2
      have h2 : (acc.map Prod.fst ++ (k :: t.map Prod.fst)).Perm
          ((acc.map Prod.fst ++ [k]) ++ t.map Prod.fst) := by
        rw [List.append_assoc]
        refine List.Perm.append_left _ ?_
        rw [List.singleton_append]
      exact h2.nodup h1
    have := ih (acc ++ [(k, v)]) (fun q hq => hw2 q (List.mem_cons_of_mem _ hq)) hnd3
    rw [this]
    simp

/-- [C1] Finalize is idempotent: running the finalize step twice with an
    unchanged mapping (without force-recount) leaves both the executed log
    and the tracker exactly as after the first run, whatever the initial log
    and tracker contents and whatever date the second run sees.  In
    particular the log row count is unchanged and every CampaignCount is
    unchanged on the second run; every mapping row whose (dedup key,
    campaign number) pair or non-empty ref-code is already logged is skipped,
    never re-appended. -/
theorem c1_finalize_idempotent (today1 today2 cname cn : String)
    (zi : String × String → String) (m : List MapRow) (log : List LogRow)
    (tracker : List TrackRow) :
    finalizeOnce today2 cname cn zi m (finalizeOnce today1 cname cn zi m log tracker).1
        (finalizeOnce today1 cname cn zi m log tracker).2
      = finalizeOnce today1 cname cn zi m log tracker := by
  by_cases hcn : cn = ""
  · rw [finalizeOnce, if_pos hcn, finalizeOnce, if_pos hcn]
  · by_cases hm : m = []
    · rw [finalizeOnce, if_neg hcn, if_pos hm, finalizeOnce, if_neg hcn, if_pos hm]
    · have hrun1 : finalizeOnce today1 cname cn zi m log tracker
        = (log ++ toAddRows today1 cname cn zi log m,
          ((groupByPair (toAddRows today1 cname cn zi log m)).foldl
            (fun d g => updateTrack today1 d g.1 g.2) (trackIndex tracker)).map Prod.snd) := by
        rw [finalizeOnce, if_neg hcn, if_neg hm]
      rw [hrun1]
      rw [finalizeOnce, if_neg hcn, if_neg hm]
      rw [toAddRows_second_run today1 today2 cname cn zi log m]
      have hidx := foldl_updateTrack_ok today1 (groupByPair (toAddRows today1 cname cn zi log m))
        (toAddRows today1 cname cn zi log m)
        (groupByPair_ok (toAddRows today1 cname cn zi log m))
        (trackIndex tracker) (trackIndex_ok tracker).1 (trackIndex_ok tracker).2
      have hround := trackIndex_roundtrip
        ((groupByPair (toAddRows today1 cname cn zi log m)).foldl
          (fun d g => updateTrack today1 d g.1 g.2) (trackIndex tracker)) hidx.1 hidx.2
      have hgnil : groupByPair ([] : List LogRow) = [] := rfl
      simp only [hgnil, List.append_nil, List.foldl_nil]
      rw [hround]

/-! ## Disaster-recovery rebuild (rebuild_tracker_from_all,
    finalize_or_rebuild.py lines 361-446) -/

/-- Aggregation record of the rebuild scan. -/
structure AggRec where
  propertyAddress : String
  ownerName : String
  zip5 : String
  cns : List String
  tids : List String
deriving DecidableEq, Repr

def lookupAgg (d : List ((String × String) × AggRec)) (k : String × String) :
    Option AggRec :=
  match d with
  | [] => none
  | (kk, w) :: t => if kk = k then some w else lookupAgg t k

def dictSetAgg (d : List ((String × String) × AggRec)) (k : String × String)
    (v : AggRec) : List ((String × String) × AggRec) :=
  match d with
  | [] => [(k, v)]
  | (kk, w) :: t => if kk = k then (kk, v) :: t else (kk, w) :: dictSetAgg t k v

/-- Set add keeping insertion order. -/
def addCn (l : List String) (x : String) : List String := if x ∈ l then l else l ++ [x]

/-- One executed-log row folded into the rebuild aggregation (the row loop of
    rebuild_tracker_from_all): rows with a missing address or owner are
    skipped; the campaign number is normalised to its digits-only integer and
    collected as a decimal string in the set; the template id is appended as
    a sequence; sent dates are not modelled (no claim mentions them). -/
def rebuildZip (zi : String × String → String) (r : LogRow) : String :=
  if ¬ trimStr r.zip5 = "" then trimStr r.zip5
  else zi (normKey r.propertyAddress r.ownerName)

/-- The aggregation record the row starts from: the stored one, or a fresh
    record from the row's raw fields (dict setdefault). -/
def rebuildRec0 (zi : String × String → String)
    (agg : List ((String × String) × AggRec)) (r : LogRow) : AggRec :=
  match lookupAgg agg (normKey r.propertyAddress r.ownerName) with
  | some a => a
  | none => ⟨r.propertyAddress, r.ownerName, rebuildZip zi r, [], []⟩

/-- The aggregation record after the row's mutations: field backfills, the
    campaign-number set add, and the template-id append. -/
def rebuildRec (zi : String × String → String)
    (agg : List ((String × String) × AggRec)) (r : LogRow) : AggRec :=
  let rec0 := rebuildRec0 zi agg r
  { propertyAddress := if rec0.propertyAddress = "" then r.propertyAddress
      else rec0.propertyAddress,
    ownerName := if rec0.ownerName = "" then r.ownerName else rec0.ownerName,
    zip5 := if rec0.zip5 = "" ∧ ¬ rebuildZip zi r = "" then rebuildZip zi r
      else rec0.zip5,
    cns := addCn rec0.cns (natToStr (numKey r.campaignNumber)),
    tids := if ¬ trimStr r.templateId = "" then rec0.tids ++ [trimStr r.templateId]
      else rec0.tids }

def rebuildRow (zi : String × String → String) (agg : List ((String × String) × AggRec))
    (r : LogRow) : List ((String × String) × AggRec) :=
  if r.propertyAddress = "" ∨ r.ownerName = "" then agg
  else dictSetAgg agg (normKey r.propertyAddress r.ownerName) (rebuildRec zi agg r)

/-- Final tracker row of one aggregation record: distinct non-zero campaign
    numbers sorted numerically, count recomputed from them, dates left empty
    (not modelled). -/
def aggToRow (a : AggRec) : TrackRow :=
  let cns := sortNum (a.cns.filter (fun x => decide (¬ x = "" ∧ ¬ x = "0")))
  ⟨a.propertyAddress, a.ownerName, a.zip5, cns.length, "", "", cns, a.tids⟩

/-- Embedding of rebuild_tracker_from_all over the discovered campaign
    folders in order, each carrying its master-index ZIP backfill. -/
def rebuildTracker (folders : List (List LogRow × (String × String → String))) :
    List TrackRow :=
  ((folders.foldl (fun a f => f.1.foldl (rebuildRow f.2) a) []).map Prod.snd).map aggToRow

/-! ## The CampaignCount invariant (claim C2) -/

/-- Invariant of a stored ledger row: CampaignCount equals the number of
    distinct non-empty entries of the CampaignNumbers cell (what
    |unique(CampaignNumbers)| denotes after the cell is split again on the
    pipe, dropping empty pieces). -/
def TrackInv (r : TrackRow) : Prop :=
  r.campaignCount = ((r.campaignNumbers.filter (fun x => decide (¬ x = ""))).dedup).length

theorem trackInv_of_clean (r : TrackRow) (hnd : r.campaignNumbers.Nodup)
    (hne : ∀ x ∈ r.campaignNumbers, ¬ x = "")
    (hc : r.campaignCount = r.campaignNumbers.length) : TrackInv r := by
  rw [TrackInv]
  have h1 : r.campaignNumbers.filter (fun x => decide (¬ x = "")) = r.campaignNumbers := by
    rw [List.filter_eq_self]
    intro a ha
    simpa using hne a ha
  rw [h1, List.dedup_eq_self.mpr hnd, hc]

theorem sortNum_mem (l : List String) (x : String) : x ∈ sortNum l ↔ x ∈ l :=
  (sortBy_perm _ l).mem_iff

theorem sortNum_nodup (l : List String) (h : l.Nodup) : (sortNum l).Nodup :=
  (sortBy_perm _ l).symm.nodup h

theorem toAddRows_cn (today cname cn : String) (zi : String × String → String)
    (log : List LogRow) (m : List MapRow) :
    ∀ x ∈ toAddRows today cname cn zi log m, x.campaignNumber = cn := by
  intro x hx
  rw [toAddRows, List.mem_map] at hx
  rcases hx with ⟨r, _, rfl⟩
  rfl

theorem updateTrack_inv (today : String) (d : List ((String × String) × TrackRow))
    (k : String × String) (rows : List LogRow)
    (hd : ∀ p ∈ d, TrackInv p.2)
    (hrows : ∀ x ∈ rows, ¬ x.campaignNumber = "") :
    ∀ p ∈ updateTrack today d k rows, TrackInv p.2 := by
  cases rows with
  | nil => exact hd
  | cons r0 rest =>
    rw [updateTrack]
    cases hlk : lookupT d k with
    | some tr =>
      intro p hp
      rcases dictSetT_mem d k _ p hp with h | h
      · exact hd p h
      · rw [h]
        refine trackInv_of_clean _ ?_ ?_ rfl
        · exact sortNum_nodup _ (List.nodup_dedup _)
        · intro x hx
          have hx2 := (sortNum_mem _ x).mp hx
          rw [List.mem_dedup, List.mem_append] at hx2
          rcases hx2 with hx2 | hx2
          · have := List.of_mem_filter hx2
            simpa using this
          · rw [List.mem_map] at hx2
            rcases hx2 with ⟨r, hr, rfl⟩
            exact hrows r hr
    | none =>
      intro p hp
      rcases dictSetT_mem d k _ p hp with h | h
      · exact hd p h
      · rw [h]
        refine trackInv_of_clean _ (by simp) ?_ rfl
        intro x hx
        rw [List.mem_singleton] at hx
        rw [hx]
        exact hrows r0 (by simp)

theorem foldl_updateTrack_inv (today : String)
    (groups : List ((String × String) × List LogRow)) (rows0 : List LogRow)
    (hne : ∀ x ∈ rows0, ¬ x.campaignNumber = "")
    (hgr : ∀ g ∈ groups, ∀ x ∈ g.2, x ∈ rows0) :
    ∀ d, (∀ p ∈ d, TrackInv p.2) →
      ∀ p ∈ groups.foldl (fun d g => updateTrack today d g.1 g.2) d, TrackInv p.2 := by
  induction groups with
  | nil => intro d hd; exact hd
  | cons g t ih =>
    intro d hd
    simp only [List.foldl_cons]
    exact ih (fun g2 hg2 x hx => hgr g2 (List.mem_cons_of_mem _ hg2) x hx) _
      (updateTrack_inv today d g.1 g.2 hd (fun x hx => hne x (hgr g (by simp) x hx)))

theorem trackIndex_mem_aux (rows0 : List TrackRow) :
    ∀ (rows : List TrackRow) (acc : List ((String × String) × TrackRow)),
      (∀ p ∈ acc, p.2 ∈ rows0) → (∀ r ∈ rows, r ∈ rows0) →
      ∀ p ∈ rows.foldl (fun d r => dictSetT d (normKey r.propertyAddress r.ownerName) r) acc,
        p.2 ∈ rows0 := by
  intro rows
  induction rows with
  | nil => intro acc hacc _; exact hacc
  | cons r t ih =>
    intro acc hacc hsub
    simp only [List.foldl_cons]
    refine ih _ ?_ (fun r2 hr2 => hsub r2 (List.mem_cons_of_mem _ hr2))
    intro p hp
    rcases dictSetT_mem acc _ r p hp with h | h
    · exact hacc p h
    · rw [h]; exact hsub r (by simp)

theorem trackIndex_snd_mem (rows : List TrackRow) :
    ∀ p ∈ trackIndex rows, p.2 ∈ rows := by
  rw [trackIndex]
  exact trackIndex_mem_aux rows rows [] (fun p hp => absurd hp (by simp)) (fun r hr => hr)

theorem lookupAgg_mem (d : List ((String × String) × AggRec)) (k : String × String)
    (a : AggRec) (h : lookupAgg d k = some a) : (k, a) ∈ d := by
  induction d with
  | nil => simp [lookupAgg] at h
  | cons p t ih =>
    obtain ⟨kk, w⟩ := p
    by_cases hk : kk = k
    · rw [lookupAgg, if_pos hk] at h
      injection h with h
      rw [← hk, ← h]
      simp
    · rw [lookupAgg, if_neg hk] at h
      exact List.mem_cons_of_mem _ (ih h)

theorem dictSetAgg_mem (d : List ((String × String) × AggRec)) (k : String × String)
    (v : AggRec) : ∀ q ∈ dictSetAgg d k v, q ∈ d ∨ q = (k, v) := by
  induction d with
  | nil => intro q hq; right; simpa [dictSetAgg] using hq
  | cons p t ih =>
    obtain ⟨kk, w⟩ := p
    intro q hq
    by_cases h : kk = k
    · rw [dictSetAgg, if_pos h] at hq
      rw [List.mem_cons] at hq
      rcases hq with rfl | hq
      · right; rw [h]
      · left; exact List.mem_cons_of_mem _ hq
    · rw [dictSetAgg, if_neg h] at hq
      rw [List.mem_cons] at hq
      rcases hq with rfl | hq
      · left; simp
      · rcases ih q hq with h2 | h2
        · left; exact List.mem_cons_of_mem _ h2
        · right; exact h2

theorem addCn_nodup (l : List String) (x : String) (h : l.Nodup) : (addCn l x).Nodup := by
  rw [addCn]
  by_cases hm : x ∈ l
  · rw [if_pos hm]; exact h
  · rw [if_neg hm]
    exact List.nodup_append.mpr ⟨h, by simp, by simpa [List.disjoint_singleton] using hm⟩

theorem rebuildRow_inv (zi : String × String → String)
    (agg : List ((String × String) × AggRec)) (r : LogRow)
    (h : ∀ p ∈ agg, p.2.cns.Nodup) :
    ∀ p ∈ rebuildRow zi agg r, p.2.cns.Nodup := by
  intro p hp
  by_cases hskip : r.propertyAddress = "" ∨ r.ownerName = ""
  · rw [rebuildRow, if_pos hskip] at hp
    exact h p hp
  · rw [rebuildRow, if_neg hskip] at hp
    rcases dictSetAgg_mem agg _ _ p hp with h2 | h2
    · exact h p h2
    · rw [h2]
      show (rebuildRec zi agg r).cns.Nodup
      rw [rebuildRec]
      refine addCn_nodup _ _ ?_
      rw [rebuildRec0]
      cases hlk : lookupAgg agg (normKey r.propertyAddress r.ownerName) with
      | some a => exact h _ (lookupAgg_mem agg _ a hlk)
      | none => exact List.nodup_nil

theorem foldl_rebuildRow_inv (zi : String × String → String) (rows : List LogRow) :
    ∀ agg, (∀ p ∈ agg, p.2.cns.Nodup) →
      ∀ p ∈ rows.foldl (rebuildRow zi) agg, p.2.cns.Nodup := by
  induction rows with
  | nil => intro agg h; exact h
  | cons r t ih =>
    intro agg h
    simp only [List.foldl_cons]
    exact ih _ (rebuildRow_inv zi agg r h)

theorem rebuild_agg_inv (folders : List (List LogRow × (String × String → String))) :
    ∀ p ∈ folders.foldl (fun a f => f.1.foldl (rebuildRow f.2) a) [], p.2.cns.Nodup := by
  suffices h : ∀ (fs : List (List LogRow × (String × String → String)))
      (agg : List ((String × String) × AggRec)), (∀ p ∈ agg, p.2.cns.Nodup) →
      ∀ p ∈ fs.foldl (fun a f => f.1.foldl (rebuildRow f.2) a) agg, p.2.cns.Nodup by
    exact h folders [] (fun p hp => absurd hp (by simp))
  intro fs
  induction fs with
  | nil => intro agg h; exact h
  | cons f t ih =>
    intro agg h
    simp only [List.foldl_cons]
    exact ih _ (foldl_rebuildRow_inv f.2 f.1 agg h)

theorem aggToRow_inv (a : AggRec) (h : a.cns.Nodup) : TrackInv (aggToRow a) := by
  refine trackInv_of_clean _ ?_ ?_ rfl
  · exact sortNum_nodup _ (h.filter _)
  · intro x hx
    have hx2 := (sortNum_mem _ x).mp hx
    have hf := List.of_mem_filter hx2
    rw [decide_eq_true_eq] at hf
    exact hf.1

/-- [C2] Every ledger row written by a finalize update — provided every
    pre-existing ledger row already satisfies it, which holds for ledgers
    built by these two writers only — and every ledger row written by the
    disaster-recovery rebuild has CampaignCount equal to the number of
    distinct non-empty entries of its CampaignNumbers cell: the count is
    recomputed from the unique campaign numbers, never blindly
    incremented, even when the same campaign number is finalized again. -/
theorem c2_campaign_count_matches (today cname cn : String)
    (zi : String × String → String) (m : List MapRow) (log : List LogRow)
    (tracker : List TrackRow)
    (folders : List (List LogRow × (String × String → String)))
    (hinv : ∀ r ∈ tracker, TrackInv r) :
    (∀ r ∈ (finalizeOnce today cname cn zi m log tracker).2, TrackInv r) ∧
    (∀ r ∈ rebuildTracker folders, TrackInv r) := by
  constructor
  · by_cases hcn : cn = ""
    · rw [finalizeOnce, if_pos hcn]; exact hinv
    by_cases hm : m = []
    · rw [finalizeOnce, if_neg hcn, if_pos hm]; exact hinv
    have hsnd : (finalizeOnce today cname cn zi m log tracker).2
        = ((groupByPair (toAddRows today cname cn zi log m)).foldl
            (fun d g => updateTrack today d g.1 g.2) (trackIndex tracker)).map Prod.snd := by
      rw [finalizeOnce, if_neg hcn, if_neg hm]
    rw [hsnd]
    intro r hr
    rw [List.mem_map] at hr
    rcases hr with ⟨p, hp, rfl⟩
    have hne : ∀ x ∈ toAddRows today cname cn zi log m, ¬ x.campaignNumber = "" := by
      intro x hx
      rw [toAddRows_cn today cname cn zi log m x hx]
      exact hcn
    have hidx : ∀ p2 ∈ trackIndex tracker, TrackInv p2.2 :=
      fun p2 hp2 => hinv p2.2 (trackIndex_snd_mem tracker p2 hp2)
    exact foldl_updateTrack_inv today _ _ hne
      (fun g hg x hx => (groupByPair_ok _ g hg x hx).1) _ hidx p hp
  · rw [rebuildTracker]
    intro r hr
    rw [List.mem_map] at hr
    rcases hr with ⟨a, ha, rfl⟩
    rw [List.mem_map] at ha
    rcases ha with ⟨p, hp, rfl⟩
    exact aggToRow_inv p.2 (rebuild_agg_inv folders p hp)

theorem c2_witness :
    (∀ r ∈ ([] : List TrackRow), TrackInv r) ∧
    ((∀ r ∈ (finalizeOnce "2025-01-01" "Campaign 5" "5" (fun _ => "99999")
        [⟨"JANE DOE", "1 MAIN ST", "R1", "T1", "95835"⟩]
        [⟨"2024-01-01", "Campaign 5", "5", "JANE DOE", "1 MAIN ST", "T0", "R0", "95835"⟩]
        []).2, TrackInv r) ∧
     (∀ r ∈ rebuildTracker
        [([⟨"2024-01-01", "Campaign 5", "5", "JANE DOE", "1 MAIN ST", "T0", "R0", "95835"⟩,
           ⟨"2024-02-01", "Campaign 5", "5", "JANE DOE", "1 MAIN ST", "T0", "R2", "95835"⟩],
          fun _ => "99999")], TrackInv r)) := by
  refine ⟨fun r hr => absurd hr (List.not_mem_nil r), ?_⟩
  exact c2_campaign_count_matches "2025-01-01" "Campaign 5" "5" (fun _ => "99999")
    [⟨"JANE DOE", "1 MAIN ST", "R1", "T1", "95835"⟩]
    [⟨"2024-01-01", "Campaign 5", "5", "JANE DOE", "1 MAIN ST", "T0", "R0", "95835"⟩]
    []
    [([⟨"2024-01-01", "Campaign 5", "5", "JANE DOE", "1 MAIN ST", "T0", "R0", "95835"⟩,
       ⟨"2024-02-01", "Campaign 5", "5", "JANE DOE", "1 MAIN ST", "T0", "R2", "95835"⟩],
      fun _ => "99999")]
    (fun r hr => absurd hr (List.not_mem_nil r))

/-- The ledger cells compared by the rebuild-equivalence claim. -/
def cellView (r : TrackRow) : Nat × List String := (r.campaignCount, r.campaignNumbers)

theorem c4_counterexample :
    ¬ ((rebuildTracker [((finalizeOnce "2025-01-01" "Campaign 0" "0" (fun _ => "")
          [⟨"JANE DOE", "1 MAIN ST", "", "T1", "95835"⟩] [] []).1, fun _ => "")]).map cellView
      = ((finalizeOnce "2025-01-01" "Campaign 0" "0" (fun _ => "")
          [⟨"JANE DOE", "1 MAIN ST", "", "T1", "95835"⟩] [] []).2).map cellView) := by
  decide

/-! ## Full rebuild versus incremental finalize (claim C4) -/

/-- A campaign-number string in canonical form: stripping the non-digits and
    re-printing the resulting integer reproduces the string, and the integer
    is non-zero.  Plain decimal numerals like 5 or 12 are canonical. -/
def Canon (x : String) : Prop := natToStr (numKey x) = x ∧ ¬ numKey x = 0

theorem canon_ne_empty (x : String) (h : Canon x) : ¬ x = "" := by
  intro he
  exact h.2 (by rw [he]; rfl)

theorem canon_ne_zero (x : String) (h : Canon x) : ¬ x = "0" := by
  intro he
  exact h.2 (by rw [he]; rfl)

theorem canon_inj (a b : String) (ha : Canon a) (hb : Canon b)
    (h : numKey a = numKey b) : a = b := by
  rw [← ha.1, ← hb.1, h]

/-- The executed-log rows carrying a given dedup key. -/
def rowsAt (rows : List LogRow) (k : String × String) : List LogRow :=
  rows.filter (fun r => decide (normKey r.propertyAddress r.ownerName = k))

/-- The campaign numbers recorded at a given dedup key, in row order. -/
def cnsAt (rows : List LogRow) (k : String × String) : List String :=
  (rowsAt rows k).map LogRow.campaignNumber

theorem rowsAt_append (rows1 rows2 : List LogRow) (k : String × String) :
    rowsAt (rows1 ++ rows2) k = rowsAt rows1 k ++ rowsAt rows2 k := by
  rw [rowsAt, List.filter_append]; rfl

theorem cnsAt_append (rows1 rows2 : List LogRow) (k : String × String) :
    cnsAt (rows1 ++ rows2) k = cnsAt rows1 k ++ cnsAt rows2 k := by
  rw [cnsAt, rowsAt_append, List.map_append]; rfl

theorem cnsAt_sub (rows : List LogRow) (k : String × String) :
    ∀ x ∈ cnsAt rows k, ∃ r ∈ rows, x = r.campaignNumber ∧
      normKey r.propertyAddress r.ownerName = k := by
  intro x hx
  rw [cnsAt, List.mem_map] at hx
  rcases hx with ⟨r, hr, rfl⟩
  rw [rowsAt, List.mem_filter] at hr
  exact ⟨r, hr.1, rfl, by simpa using hr.2⟩

theorem cnsAt_of_mem (rows : List LogRow) (k : String × String) (r : LogRow)
    (hr : r ∈ rows) (hk : normKey r.propertyAddress r.ownerName = k) :
    r.campaignNumber ∈ cnsAt rows k := by
  rw [cnsAt, List.mem_map]
  exact ⟨r, by rw [rowsAt, List.mem_filter]; exact ⟨hr, by simpa using hk⟩, rfl⟩

theorem cnsAt_nil_of_none (rows : List LogRow) (k : String × String)
    (h : ∀ r ∈ rows, ¬ normKey r.propertyAddress r.ownerName = k) :
    cnsAt rows k = [] := by
  rw [cnsAt, rowsAt, List.filter_eq_nil_iff.mpr (fun r hr => by simpa using h r hr)]
  rfl

/-- The sortedness of a campaign-number cell as the code produces it. -/
def CellSorted (l : List String) : Prop :=
  List.Pairwise (fun a b => Nat.ble (numKey a) (numKey b) = true) l

theorem ble_total (a b : String) :
    Nat.ble (numKey a) (numKey b) = false → Nat.ble (numKey b) (numKey a) = true := by
  intro h
  rw [Nat.ble_eq]
  rw [Bool.eq_false_iff, Ne, Nat.ble_eq] at h
  omega

theorem ble_trans (a b c : String) :
    Nat.ble (numKey a) (numKey b) = true → Nat.ble (numKey b) (numKey c) = true →
    Nat.ble (numKey a) (numKey c) = true := by
  intro h1 h2
  rw [Nat.ble_eq] at h1 h2 ⊢
  omega

theorem sortNum_sorted (l : List String) : CellSorted (sortNum l) :=
  sortBy_sorted _ (fun a b => ble_total a b) (fun a b c => ble_trans a b c) l

/-- Two duplicate-free lists, sorted on a key that separates their members,
    with the same members, are equal. -/
theorem sorted_nodup_unique : ∀ (l1 l2 : List String),
    CellSorted l1 → CellSorted l2 → l1.Nodup → l2.Nodup →
    (∀ a ∈ l1, ∀ b ∈ l2, numKey a = numKey b → a = b) →
    (∀ x, x ∈ l1 ↔ x ∈ l2) → l1 = l2 := by
  intro l1
  induction l1 with
  | nil =>
    intro l2 _ _ _ _ _ hmem
    cases l2 with
    | nil => rfl
    | cons b t2 => exact absurd ((hmem b).mpr (by simp)) (by simp)
  | cons a t ih =>
    intro l2 hs1 hs2 hn1 hn2 hinj hmem
    cases l2 with
    | nil => exact absurd ((hmem a).mp (by simp)) (by simp)
    | cons b t2 =>
      have hab : a = b := by
        have hbin : b ∈ a :: t := (hmem b).mpr (by simp)
        have hain : a ∈ b :: t2 := (hmem a).mp (by simp)
        rw [List.mem_cons] at hbin hain
        rcases hbin with h | hbin
        · exact h.symm
        rcases hain with h | hain
        · exact h
        have h1 : numKey a ≤ numKey b := by
          have := (List.pairwise_cons.mp hs1).1 b hbin
          rw [Nat.ble_eq] at this
          exact this
        have h2 : numKey b ≤ numKey a := by
          have := (List.pairwise_cons.mp hs2).1 a hain
          rw [Nat.ble_eq] at this
          exact this
        exact hinj a (by simp) b (by simp) (le_antisymm h1 h2)
      subst hab
      have hmem2 : ∀ x, x ∈ t ↔ x ∈ t2 := by
        intro x
        constructor
        · intro hx
          have := (hmem x).mp (List.mem_cons_of_mem _ hx)
          rw [List.mem_cons] at this
          rcases this with rfl | h
          · exact absurd hx (List.nodup_cons.mp hn1).1
          · exact h
        · intro hx
          have := (hmem x).mpr (List.mem_cons_of_mem _ hx)
          rw [List.mem_cons] at this
          rcases this with rfl | h
          · exact absurd hx (List.nodup_cons.mp hn2).1
          · exact h
      rw [ih t2 (List.pairwise_cons.mp hs1).2 (List.pairwise_cons.mp hs2).2
        (List.nodup_cons.mp hn1).2 (List.nodup_cons.mp hn2).2
        (fun x hx y hy he => hinj x (List.mem_cons_of_mem _ hx) y (List.mem_cons_of_mem _ hy) he)
        hmem2]

theorem addPairGroup_keys_mem (gs : List ((String × String) × List LogRow))
    (k : String × String) (r : LogRow) (k1 : String × String) :
    k1 ∈ (addPairGroup gs k r).map Prod.fst ↔ k1 ∈ gs.map Prod.fst ∨ k1 = k := by
  induction gs with
  | nil => simp [addPairGroup]
  | cons p t ih =>
    obtain ⟨kk, l⟩ := p
    by_cases h : kk = k
    · rw [addPairGroup, if_pos h]
      subst h
      simp only [List.map_cons, List.mem_cons]
      tauto
    · rw [addPairGroup, if_neg h]
      simp only [List.map_cons, List.mem_cons, ih]
      tauto

theorem addPairGroup_keys_nodup (gs : List ((String × String) × List LogRow))
    (k : String × String) (r : LogRow) (h : (gs.map Prod.fst).Nodup) :
    ((addPairGroup gs k r).map Prod.fst).Nodup := by
  induction gs with
  | nil => simp [addPairGroup]
  | cons p t ih =>
    obtain ⟨kk, l⟩ := p
    rw [List.map_cons, List.nodup_cons] at h
    by_cases hk : kk = k
    · rw [addPairGroup, if_pos hk, List.map_cons, List.nodup_cons]
      exact h
    · rw [addPairGroup, if_neg hk, List.map_cons, List.nodup_cons]
      refine ⟨?_, ih h.2⟩
      intro hm
      rcases (addPairGroup_keys_mem t k r kk).mp hm with h2 | h2
      · exact h.1 h2
      · exact hk h2

theorem addPairGroup_ne (gs : List ((String × String) × List LogRow))
    (k : String × String) (r : LogRow) (h : ∀ g ∈ gs, ¬ g.2 = []) :
    ∀ g ∈ addPairGroup gs k r, ¬ g.2 = [] := by
  induction gs with
  | nil =>
    intro g hg
    rw [addPairGroup, List.mem_singleton] at hg
    rw [hg]
    simp
  | cons p t ih =>
    obtain ⟨kk, l⟩ := p
    intro g hg
    by_cases hk : kk = k
    · rw [addPairGroup, if_pos hk, List.mem_cons] at hg
      rcases hg with rfl | hg
      · simp
      · exact h g (List.mem_cons_of_mem _ hg)
    · rw [addPairGroup, if_neg hk, List.mem_cons] at hg
      rcases hg with rfl | hg
      · exact h (kk, l) (by simp)
      · exact ih (fun g2 hg2 => h g2 (List.mem_cons_of_mem _ hg2)) g hg

theorem addPairGroup_ex_iff (gs : List ((String × String) × List LogRow))
    (k : String × String) (r : LogRow) (k1 : String × String) (x : LogRow) :
    (∃ g ∈ addPairGroup gs k r, g.1 = k1 ∧ x ∈ g.2) ↔
      (∃ g ∈ gs, g.1 = k1 ∧ x ∈ g.2) ∨ (k1 = k ∧ x = r) := by
  induction gs with
  | nil =>
    simp only [addPairGroup, List.mem_singleton]
    constructor
    · rintro ⟨g, rfl, h1, h2⟩
      rw [List.mem_singleton] at h2
      exact Or.inr ⟨h1.symm, h2⟩
    · rintro (⟨g, hg, _, _⟩ | ⟨h1, h2⟩)
      · exact absurd hg (by simp)
      · exact ⟨(k, [r]), rfl, h1.symm, by rw [h2]; simp⟩
  | cons p t ih =>
    obtain ⟨kk, l⟩ := p
    by_cases hk : kk = k
    · rw [addPairGroup, if_pos hk]
      constructor
      · rintro ⟨g, hg, h1, h2⟩
        rw [List.mem_cons] at hg
        rcases hg with rfl | hg
        · rw [List.mem_append, List.mem_singleton] at h2
          rcases h2 with h2 | rfl
          · exact Or.inl ⟨(kk, l), by simp, h1, h2⟩
          · exact Or.inr ⟨by rw [← h1, hk], rfl⟩
        · exact Or.inl ⟨g, List.mem_cons_of_mem _ hg, h1, h2⟩
      · rintro (⟨g, hg, h1, h2⟩ | ⟨h1, h2⟩)
        · rw [List.mem_cons] at hg
          rcases hg with rfl | hg
          · exact ⟨(kk, l ++ [r]), by simp, h1, by rw [List.mem_append]; exact Or.inl h2⟩
          · exact ⟨g, List.mem_cons_of_mem _ hg, h1, h2⟩
        · exact ⟨(kk, l ++ [r]), by simp, by rw [h1, hk],
            by rw [h2, List.mem_append]; simp⟩
    · rw [addPairGroup, if_neg hk]
      constructor
      · rintro ⟨g, hg, h1, h2⟩
        rw [List.mem_cons] at hg
        rcases hg with rfl | hg
        · exact Or.inl ⟨(kk, l), by simp, h1, h2⟩
        · rcases (ih).mp ⟨g, hg, h1, h2⟩ with h3 | h3
          · rcases h3 with ⟨g2, hg2, h4, h5⟩
            exact Or.inl ⟨g2, List.mem_cons_of_mem _ hg2, h4, h5⟩
          · exact Or.inr h3
      · rintro (⟨g, hg, h1, h2⟩ | h3)
        · rw [List.mem_cons] at hg
          rcases hg with rfl | hg
          · exact ⟨(kk, l), by simp, h1, h2⟩
          · rcases (ih).mpr (Or.inl ⟨g, hg, h1, h2⟩) with ⟨g2, hg2, h4, h5⟩
            exact ⟨g2, List.mem_cons_of_mem _ hg2, h4, h5⟩
        · rcases (ih).mpr (Or.inr h3) with ⟨g2, hg2, h4, h5⟩
          exact ⟨g2, List.mem_cons_of_mem _ hg2, h4, h5⟩

theorem groupByPair_ex_aux (k1 : String × String) (x : LogRow) :
    ∀ (rows : List LogRow) (gs : List ((String × String) × List LogRow)),
      ∀ P0, ((∃ g ∈ gs, g.1 = k1 ∧ x ∈ g.2) ↔ P0) →
      ((∃ g ∈ rows.foldl
          (fun gs r => addPairGroup gs (normKey r.propertyAddress r.ownerName) r) gs,
          g.1 = k1 ∧ x ∈ g.2) ↔
        (P0 ∨ (x ∈ rows ∧ normKey x.propertyAddress x.ownerName = k1))) := by
  intro rows
  induction rows with
  | nil =>
    intro gs P0 h0
    simp only [List.foldl_nil]
    rw [h0]
    simp
  | cons r t ih =>
    intro gs P0 h0
    simp only [List.foldl_cons]
    have h1 := ih (addPairGroup gs (normKey r.propertyAddress r.ownerName) r)
      (P0 ∨ (normKey r.propertyAddress r.ownerName = k1 ∧ x = r))
      (by rw [addPairGroup_ex_iff, h0]; tauto)
    rw [h1]
    constructor
    · rintro ((hp | ⟨hk, rfl⟩) | ⟨hx, hk⟩)
      · exact Or.inl hp
      · exact Or.inr ⟨by simp, hk⟩
      · exact Or.inr ⟨List.mem_cons_of_mem _ hx, hk⟩
    · rintro (hp | ⟨hx, hk⟩)
      · exact Or.inl (Or.inl hp)
      · rw [List.mem_cons] at hx
        rcases hx with rfl | hx
        · exact Or.inl (Or.inr ⟨hk, rfl⟩)
        · exact Or.inr ⟨hx, hk⟩

theorem groupByPair_ex_iff (rows : List LogRow) (k1 : String × String) (x : LogRow) :
    (∃ g ∈ groupByPair rows, g.1 = k1 ∧ x ∈ g.2) ↔
      (x ∈ rows ∧ normKey x.propertyAddress x.ownerName = k1) := by
  rw [groupByPair]
  have h := groupByPair_ex_aux k1 x rows [] False (by simp)
  rw [h]
  tauto

theorem groupByPair_keys_nodup (rows : List LogRow) :
    ((groupByPair rows).map Prod.fst).Nodup := by
  rw [groupByPair]
  suffices h : ∀ (rs : List LogRow) (gs : List ((String × String) × List LogRow)),
      (gs.map Prod.fst).Nodup →
      ((rs.foldl (fun gs r => addPairGroup gs (normKey r.propertyAddress r.ownerName) r)
        gs).map Prod.fst).Nodup by
    exact h rows [] (by simp)
  intro rs
  induction rs with
  | nil => intro gs h; exact h
  | cons r t ih =>
    intro gs h
    simp only [List.foldl_cons]
    exact ih _ (addPairGroup_keys_nodup gs _ r h)

theorem groupByPair_ne (rows : List LogRow) :
    ∀ g ∈ groupByPair rows, ¬ g.2 = [] := by
  rw [groupByPair]
  suffices h : ∀ (rs : List LogRow) (gs : List ((String × String) × List LogRow)),
      (∀ g ∈ gs, ¬ g.2 = []) →
      ∀ g ∈ rs.foldl (fun gs r => addPairGroup gs (normKey r.propertyAddress r.ownerName) r) gs,
        ¬ g.2 = [] by
    exact h rows [] (fun g hg => absurd hg (by simp))
  intro rs
  induction rs with
  | nil => intro gs h; exact h
  | cons r t ih =>
    intro gs h
    simp only [List.foldl_cons]
    exact ih _ (addPairGroup_ne gs _ r h)

theorem lookupT_dictSetT (d : List ((String × String) × TrackRow))
    (k1 k : String × String) (v : TrackRow) :
    lookupT (dictSetT d k1 v) k = if k1 = k then some v else lookupT d k := by
  induction d with
  | nil =>
    by_cases h : k1 = k
    · simp [dictSetT, lookupT, h]
    · simp [dictSetT, lookupT, h]
  | cons p t ih =>
    obtain ⟨kk, w⟩ := p
    by_cases h : kk = k1
    · by_cases h2 : k1 = k
      · simp [dictSetT, lookupT, h, h2]
      · have h3 : ¬ kk = k := fun he => h2 ((h.symm.trans he))
        simp [dictSetT, lookupT, h, h2, h3]
    · by_cases h2 : kk = k
      · have h3 : ¬ k1 = k := fun he => h (h2.trans he.symm)
        have h4 : ¬ k = k1 := fun he => h3 he.symm
        simp [dictSetT, lookupT, h, h2, h3, h4]
      · simp [dictSetT, lookupT, h, h2, ih]

theorem lookupT_updateTrack_other (today : String)
    (d : List ((String × String) × TrackRow)) (k1 : String × String)
    (grows : List LogRow) (k : String × String) (hk : ¬ k1 = k) :
    lookupT (updateTrack today d k1 grows) k = lookupT d k := by
  cases grows with
  | nil => rfl
  | cons r0 rest =>
    rw [updateTrack]
    cases lookupT d k1 with
    | some tr => rw [lookupT_dictSetT, if_neg hk]
    | none => rw [lookupT_dictSetT, if_neg hk]

/-- Per-key correctness of a ledger dict entry against the executed-log rows
    it summarises: present exactly when the key occurs, count recomputed,
    duplicate-free, numerically sorted, and holding exactly the campaign
    numbers logged at the key. -/
def CellOk (rows : List LogRow) (k : String × String) (o : Option TrackRow) : Prop :=
  match o with
  | none => cnsAt rows k = []
  | some tr => tr.campaignCount = tr.campaignNumbers.length ∧
      tr.campaignNumbers.Nodup ∧ CellSorted tr.campaignNumbers ∧
      (∀ x, x ∈ tr.campaignNumbers ↔ x ∈ cnsAt rows k) ∧
      ¬ cnsAt rows k = []

theorem cellOk_congr (rows1 rows2 : List LogRow) (k : String × String)
    (o : Option TrackRow) (h : cnsAt rows1 k = cnsAt rows2 k)
    (hc : CellOk rows1 k o) : CellOk rows2 k o := by
  cases o with
  | none => rw [CellOk] at hc ⊢; rw [← h]; exact hc
  | some tr =>
    rw [CellOk] at hc ⊢
    refine ⟨hc.1, hc.2.1, hc.2.2.1, ?_, ?_⟩
    · intro x; rw [← h]; exact hc.2.2.2.1 x
    · rw [← h]; exact hc.2.2.2.2

theorem updateTrack_cell_self (today cn : String) (ta rows : List LogRow)
    (d : List ((String × String) × TrackRow)) (k : String × String)
    (grows : List LogRow)
    (hta_cn : ∀ x ∈ ta, x.campaignNumber = cn)
    (hrows : ∀ r ∈ rows, ¬ r.campaignNumber = "")
    (hgne : ¬ grows = [])
    (hgiff : ∀ x, x ∈ grows ↔ (x ∈ ta ∧ normKey x.propertyAddress x.ownerName = k))
    (hcell : CellOk rows k (lookupT d k)) :
    CellOk (rows ++ ta) k (lookupT (updateTrack today d k grows) k) := by
  have hgmap : ∀ x, x ∈ grows.map LogRow.campaignNumber ↔ x ∈ cnsAt ta k := by
    intro x
    constructor
    · intro hx
      rw [List.mem_map] at hx
      rcases hx with ⟨r, hr, rfl⟩
      have h2 := (hgiff r).mp hr
      exact cnsAt_of_mem ta k r h2.1 h2.2
    · intro hx
      rcases cnsAt_sub ta k x hx with ⟨r, hrta, rfl, hk⟩
      rw [List.mem_map]
      exact ⟨r, (hgiff r).mpr ⟨hrta, hk⟩, rfl⟩
  have hrowcns : ∀ x ∈ cnsAt rows k, ¬ x = "" := by
    intro x hx
    rcases cnsAt_sub rows k x hx with ⟨r, hr, rfl, _⟩
    exact hrows r hr
  cases grows with
  | nil => exact absurd rfl hgne
  | cons r0 rest =>
  have hr0 := (hgiff r0).mp (by simp)
  have hr0cn : r0.campaignNumber = cn := hta_cn r0 hr0.1
  have hr0mem : r0.campaignNumber ∈ cnsAt ta k := cnsAt_of_mem ta k r0 hr0.1 hr0.2
  have htane : ¬ cnsAt ta k = [] := List.ne_nil_of_mem hr0mem
  rw [updateTrack]
  cases hlk : lookupT d k with
  | none =>
    rw [hlk] at hcell
    rw [CellOk] at hcell
    rw [lookupT_dictSetT, if_pos rfl, CellOk]
    refine ⟨rfl, by simp, by simp [CellSorted], ?_, ?_⟩
    · intro x
      rw [cnsAt_append, hcell, List.nil_append, List.mem_singleton]
      constructor
      · intro h; rw [h]; exact hr0mem
      · intro h
        rcases cnsAt_sub ta k x h with ⟨r, hrta, rfl, _⟩
        rw [hta_cn r hrta, hr0cn]
    · rw [cnsAt_append, hcell, List.nil_append]
      exact htane
  | some tr =>
    rw [hlk] at hcell
    rw [CellOk] at hcell
    rcases hcell with ⟨_, _, _, hm, _⟩
    rw [lookupT_dictSetT, if_pos rfl, CellOk]
    refine ⟨rfl, sortNum_nodup _ (List.nodup_dedup _), sortNum_sorted _, ?_, ?_⟩
    · intro x
      rw [sortNum_mem, List.mem_dedup, List.mem_append, cnsAt_append, List.mem_append]
      rw [List.mem_filter, hgmap]
      constructor
      · rintro (⟨h1, _⟩ | h1)
        · exact Or.inl ((hm x).mp h1)
        · exact Or.inr h1
      · rintro (h1 | h1)
        · exact Or.inl ⟨(hm x).mpr h1, by simpa using hrowcns x h1⟩
        · exact Or.inr h1
    · rw [cnsAt_append]
      intro he
      exact htane (List.append_eq_nil.mp he).2

theorem foldl_updateTrack_cells (today cn : String) (ta rows : List LogRow)
    (hta_cn : ∀ x ∈ ta, x.campaignNumber = cn)
    (hrows : ∀ r ∈ rows, ¬ r.campaignNumber = "") :
    ∀ (groups : List ((String × String) × List LogRow))
      (d : List ((String × String) × TrackRow)),
      ((groups.map Prod.fst).Nodup) →
      (∀ g ∈ groups, ¬ g.2 = [] ∧
        ∀ x, x ∈ g.2 ↔ (x ∈ ta ∧ normKey x.propertyAddress x.ownerName = g.1)) →
      (∀ k, ((∃ g ∈ groups, g.1 = k) → CellOk rows k (lookupT d k)) ∧
            ((¬ ∃ g ∈ groups, g.1 = k) → CellOk (rows ++ ta) k (lookupT d k))) →
      ∀ k, CellOk (rows ++ ta) k
        (lookupT (groups.foldl (fun d g => updateTrack today d g.1 g.2) d) k) := by
  intro groups
  induction groups with
  | nil =>
    intro d _ _ hd k
    exact (hd k).2 (by simp)
  | cons g t ih =>
    intro d hnd hg hd k
    simp only [List.foldl_cons]
    rw [List.map_cons, List.nodup_cons] at hnd
    refine ih _ hnd.2 (fun g2 hg2 => hg g2 (List.mem_cons_of_mem _ hg2)) ?_ k
    intro k2
    constructor
    · intro hex
      rcases hex with ⟨g2, hg2, hk2⟩
      have hne : ¬ g.1 = k2 := by
        intro he
        exact hnd.1 (by rw [he, ← hk2]; exact List.mem_map_of_mem _ hg2)
      rw [lookupT_updateTrack_other today d g.1 g.2 k2 hne]
      exact (hd k2).1 ⟨g2, List.mem_cons_of_mem _ hg2, hk2⟩
    · intro hnex
      by_cases hk2 : g.1 = k2
      · subst hk2
        rcases hg g (by simp) with ⟨hne2, hiff⟩
        exact updateTrack_cell_self today cn ta rows d g.1 g.2 hta_cn hrows hne2 hiff
          ((hd g.1).1 ⟨g, by simp, rfl⟩)
      · rw [lookupT_updateTrack_other today d g.1 g.2 k2 hk2]
        refine (hd k2).2 ?_
        rintro ⟨g2, hg2, hk3⟩
        rw [List.mem_cons] at hg2
        rcases hg2 with rfl | hg2
        · exact hk2 hk3
        · exact hnex ⟨g2, hg2, hk3⟩

/-- One finalize run: its metadata, ZIP backfill and mapping file.  Each run
    operates on its own campaign folder, whose executed log starts empty. -/
structure FinRun where
  today : String
  cname : String
  cn : String
  zi : String × String → String
  m : List MapRow

/-- The executed log a run's folder holds afterwards. -/
def runLog (run : FinRun) : List LogRow :=
  (finalizeOnce run.today run.cname run.cn run.zi run.m [] []).1

/-- The ledger maintained incrementally by the finalize runs in order. -/
def incrementalTracker (runs : List FinRun) : List TrackRow :=
  runs.foldl (fun tr run =>
    (finalizeOnce run.today run.cname run.cn run.zi run.m [] tr).2) []

/-- All executed-log rows the runs produced, in folder order. -/
def runStream (runs : List FinRun) : List LogRow := (runs.map runLog).flatten

/-- The tracker-index effect of one finalize run. -/
def stepIdx (d : List ((String × String) × TrackRow)) (run : FinRun) :
    List ((String × String) × TrackRow) :=
  (groupByPair (toAddRows run.today run.cname run.cn run.zi [] run.m)).foldl
    (fun d g => updateTrack run.today d g.1 g.2) d

theorem runStream_cons (run : FinRun) (t : List FinRun) :
    runStream (run :: t) = runLog run ++ runStream t := by
  rw [runStream, List.map_cons, List.flatten_cons]
  rfl

theorem runLog_eq (run : FinRun) (hcn : ¬ run.cn = "") :
    runLog run = toAddRows run.today run.cname run.cn run.zi [] run.m := by
  rw [runLog, finalizeOnce, if_neg hcn]
  by_cases hm : run.m = []
  · rw [if_pos hm, hm]
    rfl
  · rw [if_neg hm]
    show ([] : List LogRow) ++ toAddRows run.today run.cname run.cn run.zi [] run.m = _
    rw [List.nil_append]

theorem finalizeOnce_snd_eq (run : FinRun) (d : List ((String × String) × TrackRow))
    (hw : WKeyed d) (hnd : KeysNodup d) (hcn : ¬ run.cn = "") :
    (finalizeOnce run.today run.cname run.cn run.zi run.m [] (d.map Prod.snd)).2
      = (stepIdx d run).map Prod.snd := by
  rw [finalizeOnce, if_neg hcn]
  by_cases hm : run.m = []
  · rw [if_pos hm, stepIdx, hm]
    rfl
  · rw [if_neg hm]
    show ((groupByPair (toAddRows run.today run.cname run.cn run.zi [] run.m)).foldl
      (fun d g => updateTrack run.today d g.1 g.2)
      (trackIndex (d.map Prod.snd))).map Prod.snd = _
    rw [trackIndex_roundtrip d hw hnd, stepIdx]

theorem stepIdx_ok (d : List ((String × String) × TrackRow)) (run : FinRun)
    (hw : WKeyed d) (hnd : KeysNodup d) :
    WKeyed (stepIdx d run) ∧ KeysNodup (stepIdx d run) :=
  foldl_updateTrack_ok run.today _ _
    (groupByPair_ok (toAddRows run.today run.cname run.cn run.zi [] run.m)) d hw hnd

theorem group_iff_of_groupByPair (ta : List LogRow) :
    ∀ g ∈ groupByPair ta, ¬ g.2 = [] ∧
      ∀ x, x ∈ g.2 ↔ (x ∈ ta ∧ normKey x.propertyAddress x.ownerName = g.1) := by
  intro g hg
  refine ⟨groupByPair_ne ta g hg, ?_⟩
  intro x
  constructor
  · intro hx
    exact groupByPair_ok ta g hg x hx
  · intro hx
    rcases (groupByPair_ex_iff ta g.1 x).mpr ⟨hx.1, hx.2⟩ with ⟨g2, hg2, hk, hxg⟩
    have hinj := List.inj_on_of_nodup_map (groupByPair_keys_nodup ta)
    have heq : g2 = g := hinj hg2 hg (by rw [hk])
    rw [← heq]
    exact hxg

theorem incremental_aux : ∀ (runs : List FinRun),
    (∀ run ∈ runs, ¬ run.cn = "") →
    ∀ (d : List ((String × String) × TrackRow)) (rows : List LogRow),
      (∀ r ∈ rows, ¬ r.campaignNumber = "") →
      WKeyed d → KeysNodup d →
      (∀ k, CellOk rows k (lookupT d k)) →
      ∃ idx2 : List ((String × String) × TrackRow),
        runs.foldl (fun tr run =>
            (finalizeOnce run.today run.cname run.cn run.zi run.m [] tr).2)
          (d.map Prod.snd) = idx2.map Prod.snd ∧
        WKeyed idx2 ∧ KeysNodup idx2 ∧
        ∀ k, CellOk (rows ++ runStream runs) k (lookupT idx2 k) := by
  intro runs
  induction runs with
  | nil =>
    intro _ d rows _ hw hnd hcells
    refine ⟨d, rfl, hw, hnd, ?_⟩
    intro k
    rw [show runStream [] = [] from rfl, List.append_nil]
    exact hcells k
  | cons run t ih =>
    intro hcns d rows hrows hw hnd hcells
    have hcn : ¬ run.cn = "" := hcns run (by simp)
    have hta_cn := toAddRows_cn run.today run.cname run.cn run.zi [] run.m
    have hcells2 : ∀ k, CellOk
        (rows ++ toAddRows run.today run.cname run.cn run.zi [] run.m) k
        (lookupT (stepIdx d run) k) := by
      refine foldl_updateTrack_cells run.today run.cn _ rows hta_cn hrows _ d
        (groupByPair_keys_nodup _) (group_iff_of_groupByPair _) ?_
      intro k
      refine ⟨fun _ => hcells k, ?_⟩
      intro hnex
      have hnota : ∀ r ∈ toAddRows run.today run.cname run.cn run.zi [] run.m,
          ¬ normKey r.propertyAddress r.ownerName = k := by
        intro r hr hk
        rcases (groupByPair_ex_iff _ k r).mpr ⟨hr, hk⟩ with ⟨g, hg, hk2, _⟩
        exact hnex ⟨g, hg, hk2⟩
      refine cellOk_congr rows _ k _ ?_ (hcells k)
      rw [cnsAt_append, cnsAt_nil_of_none _ k hnota, List.append_nil]
    have hok := stepIdx_ok d run hw hnd
    have hrows2 : ∀ r ∈ rows ++ toAddRows run.today run.cname run.cn run.zi [] run.m,
        ¬ r.campaignNumber = "" := by
      intro r hr
      rw [List.mem_append] at hr
      rcases hr with hr | hr
      · exact hrows r hr
      · rw [hta_cn r hr]; exact hcn
    rcases ih (fun r2 h2 => hcns r2 (List.mem_cons_of_mem _ h2)) (stepIdx d run) _
      hrows2 hok.1 hok.2 hcells2 with ⟨idx2, heq, hw2, hnd2, hcells3⟩
    refine ⟨idx2, ?_, hw2, hnd2, ?_⟩
    · simp only [List.foldl_cons]
      rw [finalizeOnce_snd_eq run d hw hnd hcn]
      exact heq
    · intro k
      rw [runStream_cons, runLog_eq run hcn, ← List.append_assoc]
      exact hcells3 k

theorem incremental_cells (runs : List FinRun)
    (hcns : ∀ run ∈ runs, ¬ run.cn = "") :
    ∃ idx2 : List ((String × String) × TrackRow),
      incrementalTracker runs = idx2.map Prod.snd ∧ WKeyed idx2 ∧ KeysNodup idx2 ∧
      ∀ k, CellOk (runStream runs) k (lookupT idx2 k) := by
  have h := incremental_aux runs hcns [] []
    (fun r hr => absurd hr (by simp))
    (fun p hp => absurd hp (by simp))
    (by simp [KeysNodup])
    (fun k => rfl)
  simp only [List.map_nil] at h
  rcases h with ⟨idx2, heq, hw2, hnd2, hcells⟩
  refine ⟨idx2, ?_, hw2, hnd2, ?_⟩
  · rw [incrementalTracker]
    exact heq
  · intro k
    have := hcells k
    rwa [List.nil_append] at this

theorem lookupAgg_dictSetAgg (d : List ((String × String) × AggRec))
    (k1 k : String × String) (v : AggRec) :
    lookupAgg (dictSetAgg d k1 v) k = if k1 = k then some v else lookupAgg d k := by
  induction d with
  | nil =>
    by_cases h : k1 = k
    · simp [dictSetAgg, lookupAgg, h]
    · simp [dictSetAgg, lookupAgg, h]
  | cons p t ih =>
    obtain ⟨kk, w⟩ := p
    by_cases h : kk = k1
    · by_cases h2 : k1 = k
      · simp [dictSetAgg, lookupAgg, h, h2]
      · have h3 : ¬ kk = k := fun he => h2 ((h.symm.trans he))
        simp [dictSetAgg, lookupAgg, h, h2, h3]
    · by_cases h2 : kk = k
      · have h3 : ¬ k1 = k := fun he => h (h2.trans he.symm)
        have h4 : ¬ k = k1 := fun he => h3 he.symm
        simp [dictSetAgg, lookupAgg, h, h2, h3, h4]
      · simp [dictSetAgg, lookupAgg, h, h2, ih]

theorem addCn_mem (l : List String) (c x : String) :
    x ∈ addCn l c ↔ x ∈ l ∨ x = c := by
  rw [addCn]
  by_cases h : c ∈ l
  · rw [if_pos h]
    constructor
    · exact Or.inl
    · rintro (h2 | rfl)
      · exact h2
      · exact h
  · rw [if_neg h]
    simp

/-- Well-keyedness of the rebuild aggregation: every entry's key is the
    dedup key of its stored, non-empty fields. -/
def AggWK (d : List ((String × String) × AggRec)) : Prop :=
  ∀ p ∈ d, normKey p.2.propertyAddress p.2.ownerName = p.1 ∧
    ¬ p.2.propertyAddress = "" ∧ ¬ p.2.ownerName = ""

/-- Per-key correctness of a rebuild aggregation entry against the scanned
    rows: present exactly when the key occurs, duplicate-free, holding
    exactly the campaign numbers logged at the key. -/
def AggOk (rows : List LogRow) (k : String × String) (o : Option AggRec) : Prop :=
  match o with
  | none => rowsAt rows k = []
  | some a => a.cns.Nodup ∧ (∀ x, x ∈ a.cns ↔ x ∈ cnsAt rows k) ∧
      ¬ rowsAt rows k = []

theorem rowsAt_single_ne (r : LogRow) (k : String × String)
    (h : ¬ normKey r.propertyAddress r.ownerName = k) : rowsAt [r] k = [] := by
  simp [rowsAt, List.filter_cons, h]

theorem rowsAt_single_eq (r : LogRow) (k : String × String)
    (h : normKey r.propertyAddress r.ownerName = k) : rowsAt [r] k = [r] := by
  simp [rowsAt, List.filter_cons, h]

theorem rebuildRec_cns (zi : String × String → String)
    (agg : List ((String × String) × AggRec)) (r : LogRow) :
    (rebuildRec zi agg r).cns
      = addCn (rebuildRec0 zi agg r).cns (natToStr (numKey r.campaignNumber)) := rfl

theorem rebuildRec_pa (zi : String × String → String)
    (agg : List ((String × String) × AggRec)) (r : LogRow) :
    (rebuildRec zi agg r).propertyAddress
      = if (rebuildRec0 zi agg r).propertyAddress = "" then r.propertyAddress
        else (rebuildRec0 zi agg r).propertyAddress := rfl

theorem rebuildRec_on (zi : String × String → String)
    (agg : List ((String × String) × AggRec)) (r : LogRow) :
    (rebuildRec zi agg r).ownerName
      = if (rebuildRec0 zi agg r).ownerName = "" then r.ownerName
        else (rebuildRec0 zi agg r).ownerName := rfl

theorem rebuildRec0_some (zi : String × String → String)
    (agg : List ((String × String) × AggRec)) (r : LogRow) (a : AggRec)
    (hlk : lookupAgg agg (normKey r.propertyAddress r.ownerName) = some a) :
    rebuildRec0 zi agg r = a := by
  rw [rebuildRec0, hlk]

theorem rebuildRec0_none (zi : String × String → String)
    (agg : List ((String × String) × AggRec)) (r : LogRow)
    (hlk : lookupAgg agg (normKey r.propertyAddress r.ownerName) = none) :
    rebuildRec0 zi agg r = ⟨r.propertyAddress, r.ownerName, rebuildZip zi r, [], []⟩ := by
  rw [rebuildRec0, hlk]

theorem rebuildRow_cells (zi : String × String → String)
    (agg : List ((String × String) × AggRec)) (r : LogRow) (rows : List LogRow)
    (hpa : ¬ r.propertyAddress = "") (how : ¬ r.ownerName = "")
    (hcanon : natToStr (numKey r.campaignNumber) = r.campaignNumber)
    (hwk : AggWK agg) (hcells : ∀ k, AggOk rows k (lookupAgg agg k)) :
    AggWK (rebuildRow zi agg r) ∧
    ∀ k, AggOk (rows ++ [r]) k (lookupAgg (rebuildRow zi agg r) k) := by
  have hskip : ¬ (r.propertyAddress = "" ∨ r.ownerName = "") := by
    rintro (h | h)
    · exact hpa h
    · exact how h
  rw [rebuildRow, if_neg hskip]
  have hrec : normKey (rebuildRec zi agg r).propertyAddress
      (rebuildRec zi agg r).ownerName = normKey r.propertyAddress r.ownerName ∧
      ¬ (rebuildRec zi agg r).propertyAddress = "" ∧
      ¬ (rebuildRec zi agg r).ownerName = "" := by
    rw [rebuildRec_pa, rebuildRec_on]
    cases hlk : lookupAgg agg (normKey r.propertyAddress r.ownerName) with
    | some a =>
      have ha := hwk _ (lookupAgg_mem agg _ a hlk)
      rw [rebuildRec0_some zi agg r a hlk]
      rw [if_neg ha.2.1, if_neg ha.2.2]
      exact ⟨ha.1, ha.2.1, ha.2.2⟩
    | none =>
      rw [rebuildRec0_none zi agg r hlk]
      dsimp only
      rw [if_neg hpa, if_neg how]
      exact ⟨rfl, hpa, how⟩
  constructor
  · intro p hp
    rcases dictSetAgg_mem agg _ _ p hp with h | h
    · exact hwk p h
    · rw [h]
      exact hrec
  · intro k
    by_cases hk : normKey r.propertyAddress r.ownerName = k
    · rw [lookupAgg_dictSetAgg, if_pos hk, AggOk, rebuildRec_cns]
      have hc := hcells k
      have hone : rowsAt [r] k = [r] := rowsAt_single_eq r k hk
      have hcn1 : cnsAt [r] k = [r.campaignNumber] := by
        rw [cnsAt, hone]
        rfl
      refine ⟨?_, ?_, ?_⟩
      · refine addCn_nodup _ _ ?_
        rw [rebuildRec0]
        cases hlk : lookupAgg agg (normKey r.propertyAddress r.ownerName) with
        | some a =>
          have := hcells k
          rw [hk] at hlk
          rw [hlk, AggOk] at this
          exact this.1
        | none => exact List.nodup_nil
      · intro x
        rw [addCn_mem, hcanon, cnsAt_append, List.mem_append, hcn1, List.mem_singleton]
        rw [rebuildRec0]
        cases hlk : lookupAgg agg (normKey r.propertyAddress r.ownerName) with
        | some a =>
          have h2 := hcells k
          rw [hk] at hlk
          rw [hlk, AggOk] at h2
          rw [h2.2.1 x]
        | none =>
          have h2 := hcells k
          rw [hk] at hlk
          rw [hlk, AggOk] at h2
          rw [show cnsAt rows k = [] from by rw [cnsAt, h2, List.map_nil]]
      · rw [rowsAt_append, hone]
        simp
    · rw [lookupAgg_dictSetAgg, if_neg hk]
      have hc := hcells k
      have hrows1 : rowsAt (rows ++ [r]) k = rowsAt rows k := by
        rw [rowsAt_append, rowsAt_single_ne r k hk, List.append_nil]
      cases hlk : lookupAgg agg k with
      | none =>
        rw [hlk, AggOk] at hc
        rw [AggOk, hrows1]
        exact hc
      | some a =>
        rw [hlk, AggOk] at hc
        rw [AggOk, hrows1]
        refine ⟨hc.1, ?_, hc.2.2⟩
        intro x
        rw [show cnsAt (rows ++ [r]) k = cnsAt rows k from by rw [cnsAt, hrows1]; rfl]
        exact hc.2.1 x

theorem rebuild_fold_rows (zi : String × String → String) : ∀ (lrows : List LogRow)
    (agg : List ((String × String) × AggRec)) (rows : List LogRow),
    (∀ r ∈ lrows, ¬ r.propertyAddress = "" ∧ ¬ r.ownerName = "" ∧
      natToStr (numKey r.campaignNumber) = r.campaignNumber) →
    AggWK agg → (∀ k, AggOk rows k (lookupAgg agg k)) →
    AggWK (lrows.foldl (rebuildRow zi) agg) ∧
    ∀ k, AggOk (rows ++ lrows) k (lookupAgg (lrows.foldl (rebuildRow zi) agg) k) := by
  intro lrows
  induction lrows with
  | nil =>
    intro agg rows _ hwk hcells
    refine ⟨hwk, ?_⟩
    intro k
    rw [List.append_nil]
    exact hcells k
  | cons r t ih =>
    intro agg rows hprops hwk hcells
    have hr := hprops r (by simp)
    have hstep := rebuildRow_cells zi agg r rows hr.1 hr.2.1 hr.2.2 hwk hcells
    simp only [List.foldl_cons]
    have hres := ih (rebuildRow zi agg r) (rows ++ [r])
      (fun r2 h2 => hprops r2 (List.mem_cons_of_mem _ h2)) hstep.1 hstep.2
    refine ⟨hres.1, ?_⟩
    intro k
    rw [show rows ++ r :: t = (rows ++ [r]) ++ t from by
      rw [List.append_assoc, List.singleton_append]]
    exact hres.2 k

theorem rebuild_fold_folders :
    ∀ (folders : List (List LogRow × (String × String → String)))
      (agg : List ((String × String) × AggRec)) (rows : List LogRow),
    (∀ f ∈ folders, ∀ r ∈ f.1, ¬ r.propertyAddress = "" ∧ ¬ r.ownerName = "" ∧
      natToStr (numKey r.campaignNumber) = r.campaignNumber) →
    AggWK agg → (∀ k, AggOk rows k (lookupAgg agg k)) →
    AggWK (folders.foldl (fun a f => f.1.foldl (rebuildRow f.2) a) agg) ∧
    ∀ k, AggOk (rows ++ (folders.map Prod.fst).flatten) k
      (lookupAgg (folders.foldl (fun a f => f.1.foldl (rebuildRow f.2) a) agg) k) := by
  intro folders
  induction folders with
  | nil =>
    intro agg rows _ hwk hcells
    refine ⟨hwk, ?_⟩
    intro k
    rw [show ((List.map Prod.fst [] : List (List LogRow))).flatten = [] from rfl,
      List.append_nil]
    exact hcells k
  | cons f t ih =>
    intro agg rows hprops hwk hcells
    simp only [List.foldl_cons]
    have hstep := rebuild_fold_rows f.2 f.1 agg rows (hprops f (by simp)) hwk hcells
    have hres := ih _ (rows ++ f.1)
      (fun f2 h2 => hprops f2 (List.mem_cons_of_mem _ h2)) hstep.1 hstep.2
    refine ⟨hres.1, ?_⟩
    intro k
    rw [List.map_cons, List.flatten_cons, ← List.append_assoc]
    exact hres.2 k

theorem find_map_snd (idx : List ((String × String) × TrackRow))
    (hw : WKeyed idx) (k : String × String) :
    (idx.map Prod.snd).find?
      (fun r => decide (normKey r.propertyAddress r.ownerName = k)) = lookupT idx k := by
  induction idx with
  | nil => rfl
  | cons p t ih =>
    obtain ⟨kk, w⟩ := p
    have hkk : normKey w.propertyAddress w.ownerName = kk := hw (kk, w) (by simp)
    rw [List.map_cons]
    by_cases h : kk = k
    · rw [List.find?_cons_of_pos _ (by rw [hkk]; simpa using h)]
      rw [lookupT, if_pos h]
    · rw [List.find?_cons_of_neg _ (by rw [hkk]; simpa using h)]
      rw [lookupT, if_neg h]
      exact ih (fun q hq => hw q (List.mem_cons_of_mem _ hq))

theorem find_agg (d : List ((String × String) × AggRec)) (hw : AggWK d)
    (k : String × String) :
    ((d.map Prod.snd).map aggToRow).find?
      (fun r => decide (normKey r.propertyAddress r.ownerName = k))
      = (lookupAgg d k).map aggToRow := by
  induction d with
  | nil => rfl
  | cons p t ih =>
    obtain ⟨kk, w⟩ := p
    have hkk := hw (kk, w) (by simp)
    have hfields : (aggToRow w).propertyAddress = w.propertyAddress ∧
        (aggToRow w).ownerName = w.ownerName := ⟨rfl, rfl⟩
    rw [List.map_cons, List.map_cons]
    by_cases h : kk = k
    · rw [List.find?_cons_of_pos _ (by
        rw [hfields.1, hfields.2, hkk.1]
        simpa using h)]
      rw [lookupAgg, if_pos h]
      rfl
    · rw [List.find?_cons_of_neg _ (by
        rw [hfields.1, hfields.2, hkk.1]
        simpa using h)]
      rw [lookupAgg, if_neg h]
      exact ih (fun q hq => hw q (List.mem_cons_of_mem _ hq))

theorem runStream_canon (runs : List FinRun)
    (hcanon : ∀ run ∈ runs, Canon run.cn) :
    ∀ r ∈ runStream runs, Canon r.campaignNumber := by
  intro r hr
  rw [runStream, List.mem_flatten] at hr
  rcases hr with ⟨l, hl, hrl⟩
  rw [List.mem_map] at hl
  rcases hl with ⟨run, hrun, rfl⟩
  have hcn := hcanon run hrun
  rw [runLog_eq run (canon_ne_empty _ hcn)] at hrl
  rw [toAddRows_cn _ _ _ _ _ _ r hrl]
  exact hcn

theorem runLog_fields (run : FinRun) (hcn : ¬ run.cn = "")
    (hfields : ∀ r ∈ run.m, ¬ r.addr = "" ∧ ¬ r.owner = "") :
    ∀ x ∈ runLog run, ¬ x.propertyAddress = "" ∧ ¬ x.ownerName = "" ∧
      x.campaignNumber = run.cn := by
  intro x hx
  have hcnx := toAddRows_cn run.today run.cname run.cn run.zi [] run.m x
    (by rw [← runLog_eq run hcn]; exact hx)
  rw [runLog_eq run hcn, toAddRows, List.mem_map] at hx
  rcases hx with ⟨mr, hmr, rfl⟩
  have hf := hfields mr (List.mem_of_mem_filter hmr)
  exact ⟨hf.1, hf.2, hcnx⟩

/-- [C4] Corrected rebuild equivalence.  For any sequence of finalize runs
    whose campaign numbers are canonical non-zero numerals and whose mapping
    rows carry non-empty address and owner fields, rebuilding the ledger from
    scratch over the runs' executed logs yields, for every dedup key, the
    same CampaignNumbers sequence and the same CampaignCount as the ledger
    maintained incrementally by those finalize runs.  (Without the two
    hypotheses the claim fails: the rebuild re-normalises campaign numbers
    and discards the number zero and rows with empty fields, while the
    incremental path stores the raw campaign-number string; see the
    counterexample.) -/
theorem c4_rebuild_equivalence (runs : List FinRun)
    (hcanon : ∀ run ∈ runs, Canon run.cn)
    (hfields : ∀ run ∈ runs, ∀ r ∈ run.m, ¬ r.addr = "" ∧ ¬ r.owner = "") :
    ∀ k : String × String,
      ((incrementalTracker runs).find?
          (fun r => decide (normKey r.propertyAddress r.ownerName = k))).map cellView
        = ((rebuildTracker (runs.map (fun run => (runLog run, run.zi)))).find?
            (fun r => decide (normKey r.propertyAddress r.ownerName = k))).map cellView := by
  intro k
  have hcns : ∀ run ∈ runs, ¬ run.cn = "" :=
    fun run hr => canon_ne_empty _ (hcanon run hr)
  rcases incremental_cells runs hcns with ⟨idx2, heq, hw2, _, hcellsI⟩
  have hfolder : ∀ f ∈ runs.map (fun run => (runLog run, run.zi)), ∀ r ∈ f.1,
      ¬ r.propertyAddress = "" ∧ ¬ r.ownerName = "" ∧
      natToStr (numKey r.campaignNumber) = r.campaignNumber := by
    intro f hf r hr
    rw [List.mem_map] at hf
    rcases hf with ⟨run, hrun, rfl⟩
    have h1 := runLog_fields run (hcns run hrun) (hfields run hrun) r hr
    refine ⟨h1.1, h1.2.1, ?_⟩
    rw [h1.2.2]
    exact (hcanon run hrun).1
  have hreb := rebuild_fold_folders (runs.map (fun run => (runLog run, run.zi))) [] []
    hfolder (fun p hp => absurd hp (by simp)) (fun k2 => rfl)
  have hstream : ((runs.map (fun run => (runLog run, run.zi))).map Prod.fst).flatten
      = runStream runs := by
    rw [List.map_map]
    rfl
  rw [hstream] at hreb
  have hcellsA := hreb.2
  simp only [List.nil_append] at hcellsA
  have hScanon := runStream_canon runs hcanon
  have hcnsCanon : ∀ x ∈ cnsAt (runStream runs) k, Canon x := by
    intro x hx
    rcases cnsAt_sub (runStream runs) k x hx with ⟨r, hr, rfl, _⟩
    exact hScanon r hr
  rw [heq, find_map_snd idx2 hw2 k]
  rw [show rebuildTracker (runs.map (fun run => (runLog run, run.zi)))
    = (((runs.map (fun run => (runLog run, run.zi))).foldl
        (fun a f => f.1.foldl (rebuildRow f.2) a) []).map Prod.snd).map aggToRow from rfl]
  rw [find_agg _ hreb.1 k]
  have hI := hcellsI k
  have hA := hcellsA k
  cases hT : lookupT idx2 k with
  | none =>
    rw [hT, CellOk] at hI
    cases hAgg : lookupAgg ((runs.map (fun run => (runLog run, run.zi))).foldl
        (fun a f => f.1.foldl (rebuildRow f.2) a) []) k with
    | none => rfl
    | some a =>
      rw [hAgg, AggOk] at hA
      have hmap : (rowsAt (runStream runs) k).map LogRow.campaignNumber = [] := hI
      exact absurd (List.map_eq_nil.mp hmap) hA.2.2
  | some tr =>
    rw [hT, CellOk] at hI
    cases hAgg : lookupAgg ((runs.map (fun run => (runLog run, run.zi))).foldl
        (fun a f => f.1.foldl (rebuildRow f.2) a) []) k with
    | none =>
      rw [hAgg, AggOk] at hA
      refine absurd ?_ hI.2.2.2.2
      rw [cnsAt, hA, List.map_nil]
    | some a =>
      rw [hAgg, AggOk] at hA
      have hfilt : a.cns.filter (fun x => decide (¬ x = "" ∧ ¬ x = "0")) = a.cns := by
        rw [List.filter_eq_self]
        intro x hx
        have hcx := hcnsCanon x ((hA.2.1 x).mp hx)
        rw [decide_eq_true_eq]
        exact ⟨canon_ne_empty _ hcx, canon_ne_zero _ hcx⟩
      have hview : cellView (aggToRow a)
          = ((sortNum a.cns).length, sortNum a.cns) := by
        rw [cellView]
        show ((sortNum (a.cns.filter (fun x => decide (¬ x = "" ∧ ¬ x = "0")))).length,
          sortNum (a.cns.filter (fun x => decide (¬ x = "" ∧ ¬ x = "0"))))
          = _
        rw [hfilt]
      have hlist : tr.campaignNumbers = sortNum a.cns := by
        refine sorted_nodup_unique tr.campaignNumbers (sortNum a.cns)
          hI.2.2.1 (sortNum_sorted _) hI.2.1 (sortNum_nodup _ hA.1) ?_ ?_
        · intro x hx y hy hxy
          exact canon_inj x y (hcnsCanon x ((hI.2.2.2.1 x).mp hx))
            (hcnsCanon y ((hA.2.1 y).mp ((sortNum_mem _ y).mp hy))) hxy
        · intro x
          rw [hI.2.2.2.1 x, sortNum_mem, hA.2.1 x]
      show some (cellView tr) = some (cellView (aggToRow a))
      rw [hview, cellView, hI.1, hlist]

def c4run1 : FinRun :=
  ⟨"2025-01-01", "Campaign 5", "5", fun _ => "",
    [⟨"JANE DOE", "1 MAIN ST", "", "T1", "95835"⟩]⟩

def c4run2 : FinRun :=
  ⟨"2025-02-01", "Campaign 6", "6", fun _ => "",
    [⟨"JANE DOE", "1 MAIN ST", "", "T2", "95835"⟩]⟩

theorem c4_witness :
    (∀ run ∈ [c4run1, c4run2], Canon run.cn) ∧
    (∀ run ∈ [c4run1, c4run2], ∀ r ∈ run.m, ¬ r.addr = "" ∧ ¬ r.owner = "") ∧
    ((incrementalTracker [c4run1, c4run2]).find? (fun r =>
        decide (normKey r.propertyAddress r.ownerName
          = ("1 MAIN ST", "JANE DOE")))).map cellView
      = ((rebuildTracker ([c4run1, c4run2].map (fun run => (runLog run, run.zi)))).find?
          (fun r => decide (normKey r.propertyAddress r.ownerName
            = ("1 MAIN ST", "JANE DOE")))).map cellView := by
  have h1 : ∀ run ∈ [c4run1, c4run2], Canon run.cn := by
    intro run hr
    rw [List.mem_cons, List.mem_singleton] at hr
    rcases hr with rfl | rfl
    · exact ⟨rfl, by decide⟩
    · exact ⟨rfl, by decide⟩
  have h2 : ∀ run ∈ [c4run1, c4run2], ∀ r ∈ run.m, ¬ r.addr = "" ∧ ¬ r.owner = "" := by
    intro run hr r hrr
    rw [List.mem_cons, List.mem_singleton] at hr
    rcases hr with rfl | rfl
    · rw [show c4run1.m = [⟨"JANE DOE", "1 MAIN ST", "", "T1", "95835"⟩] from rfl,
        List.mem_singleton] at hrr
      rw [hrr]
      exact ⟨by decide, by decide⟩
    · rw [show c4run2.m = [⟨"JANE DOE", "1 MAIN ST", "", "T2", "95835"⟩] from rfl,
        List.mem_singleton] at hrr
      rw [hrr]
      exact ⟨by decide, by decide⟩
  exact ⟨h1, h2,
    c4_rebuild_equivalence [c4run1, c4run2] h1 h2 ("1 MAIN ST", "JANE DOE")⟩

/-! ## Planner on ZIP5-contiguous input (amended claims C3 and C8) -/

theorem lookupD_setKey_self (m : List (String × Nat)) (k : String) (v : Nat) :
    lookupD (setKey m k v) k = v := by
  induction m with
  | nil => simp [setKey, lookupD]
  | cons p t ih =>
    by_cases h : p.1 = k
    · simp [setKey, lookupD, h]
    · simp [setKey, lookupD, h, ih]

theorem lookupD_setKey_other (m : List (String × Nat)) (k w : String) (v : Nat)
    (h : ¬ k = w) : lookupD (setKey m k v) w = lookupD m w := by
  induction m with
  | nil => simp [setKey, lookupD, h]
  | cons p t ih =>
    by_cases hp : p.1 = k
    · have hw : ¬ p.1 = w := by rw [hp]; exact h
      simp [setKey, lookupD, hp, h, hw]
    · simp [setKey, lookupD, hp, ih]

/-- Piece count held by an open run (zero when no run is open). -/
def openCount (o : Option (Nat × String × Nat)) : Nat :=
  match o with
  | none => 0
  | some (_, _, c) => c

/-- The open ZIP3 run, when present, belongs to the given group and holds
    between 1 and 149 pieces. -/
def OpenFor (g : String) (o : Option (Nat × String × Nat)) : Prop :=
  match o with
  | none => True
  | some (_, g2, c) => g2 = g ∧ 1 ≤ c ∧ c < 150

/-- The open ZIP3 run, when present, holds between 1 and 149 pieces. -/
def OpenAny (o : Option (Nat × String × Nat)) : Prop :=
  match o with
  | none => True
  | some (_, _, c) => 1 ≤ c ∧ c < 150

/-- Pieces of the open run that survive into a block of the given ZIP3. -/
def carryOver (g : String) (o : Option (Nat × String × Nat)) : Nat :=
  match o with
  | none => 0
  | some (_, g2, c) => if g2 = g then c else 0

theorem closeZ3_idem (i : Nat) (z3 : String) (s : PlanState) :
    closeZ3IfChanged i z3 (closeZ3IfChanged i z3 s) = closeZ3IfChanged i z3 s := by
  rcases s with ⟨bins, tr, cur, o⟩
  cases o with
  | none => rfl
  | some p =>
    obtain ⟨st, ⟨g, c⟩⟩ := p
    by_cases h : g ≠ z3
    · simp [closeZ3IfChanged, h]
    · simp [closeZ3IfChanged, h]

theorem planStep_close (tt : String → Nat) (i : Nat) (z : String) (s : PlanState) :
    planStep tt i z s = planStep tt i z (closeZ3IfChanged i (z3of z) s) := by
  rw [planStep, planStep, closeZ3_idem]

theorem planFold_acc2 (tt : String → Nat) (z : String)
    (o : Option (Nat × String × Nat))
    (ho : o = none ∨ ∃ st2 c2, o = some (st2, z3of z, c2)) :
    ∀ (k : Nat) (bins : List Bin) (tr : List (String × Nat)) (st i c : Nat),
      lookupD tr z < tt z → c + k < 150 →
      planFold tt ⟨bins, tr, some (st, z, c), o⟩ i (List.replicate k z)
        = ⟨bins, tr, some (st, z, c + k), o⟩ := by
  intro k
  induction k with
  | zero => intro bins tr st i c h1 h2; simp [planFold]
  | succ n ih =>
    intro bins tr st i c h1 h2
    rw [List.replicate_succ]
    simp only [planFold]
    have hne' : ¬ c + 1 = 150 := by omega
    have hstep : planStep tt i z ⟨bins, tr, some (st, z, c), o⟩
        = ⟨bins, tr, some (st, z, c + 1), o⟩ := by
      rcases ho with rfl | ⟨st2, c2, rfl⟩
      · simp [planStep, closeZ3IfChanged, h1, hne']
      · simp [planStep, closeZ3IfChanged, h1, hne']
    rw [hstep, ih bins tr st (i + 1) (c + 1) h1 (by omega)]
    have h3 : c + 1 + n = c + (n + 1) := by omega
    rw [h3]

theorem planFold_tray (tt : String → Nat) (z : String)
    (o : Option (Nat × String × Nat))
    (ho : o = none ∨ ∃ st2 c2, o = some (st2, z3of z, c2))
    (bins : List Bin) (tr : List (String × Nat)) (i : Nat)
    (h : lookupD tr z < tt z) :
    planFold tt ⟨bins, tr, none, o⟩ i (List.replicate 150 z)
      = ⟨bins ++ [⟨0, i, i + 149, BinType.five, z, 150⟩],
         setKey tr z (lookupD tr z + 1), none, o⟩ := by
  rw [show (150 : Nat) = 149 + 1 from rfl, List.replicate_succ]
  rw [planFold_cons]
  have hstep1 : planStep tt i z ⟨bins, tr, none, o⟩ = ⟨bins, tr, some (i, z, 1), o⟩ := by
    rcases ho with rfl | ⟨st2, c2, rfl⟩
    · simp [planStep, closeZ3IfChanged, h]
    · simp [planStep, closeZ3IfChanged, h]
  rw [hstep1]
  rw [show (149 : Nat) = 148 + 1 from rfl, List.replicate_succ']
  rw [planFold_append, List.length_replicate]
  rw [planFold_acc2 tt z o ho 148 bins tr i (i + 1) 1 h (by norm_num)]
  rw [planFold_cons, planFold_nil]
  have h150 : (1 : Nat) + 148 + 1 = 150 := by norm_num
  rcases ho with rfl | ⟨st2, c2, rfl⟩
  · simp [planStep, closeZ3IfChanged, h, h150]
  · simp [planStep, closeZ3IfChanged, h, h150]

theorem planFold_trays (tt : String → Nat) (z : String)
    (o : Option (Nat × String × Nat))
    (ho : o = none ∨ ∃ st2 c2, o = some (st2, z3of z, c2)) :
    ∀ (T : Nat) (bins : List Bin) (tr : List (String × Nat)) (i : Nat),
      lookupD tr z + T ≤ tt z →
      ∃ (fb : List Bin) (tr2 : List (String × Nat)),
        planFold tt ⟨bins, tr, none, o⟩ i (List.replicate (150 * T) z)
          = ⟨bins ++ fb, tr2, none, o⟩ ∧
        (∀ b ∈ fb, b.btype = BinType.five ∧ b.count = 150) ∧
        fb.length = T ∧
        lookupD tr2 z = lookupD tr z + T ∧
        (∀ w, ¬ w = z → lookupD tr2 w = lookupD tr w) := by
  intro T
  induction T with
  | zero =>
    intro bins tr i _
    refine ⟨[], tr, ?_, by simp, rfl, by omega, fun w _ => rfl⟩
    rw [List.append_nil]
    rfl
  | succ n ih =>
    intro bins tr i h
    rw [show 150 * (n + 1) = 150 + 150 * n from by ring, List.replicate_add]
    rw [planFold_append, List.length_replicate]
    rw [planFold_tray tt z o ho bins tr i (by omega)]
    rcases ih (bins ++ [⟨0, i, i + 149, BinType.five, z, 150⟩])
      (setKey tr z (lookupD tr z + 1)) (i + 150)
      (by rw [lookupD_setKey_self]; omega) with ⟨fb, tr2, heq, hfb, hlen, hz, hw⟩
    refine ⟨⟨0, i, i + 149, BinType.five, z, 150⟩ :: fb, tr2, ?_, ?_, ?_, ?_, ?_⟩
    · rw [show i + 150 = i + 150 from rfl] at heq
      rw [heq, List.append_assoc, List.singleton_append]
    · intro b hb
      rw [List.mem_cons] at hb
      rcases hb with rfl | hb
      · exact ⟨rfl, rfl⟩
      · exact hfb b hb
    · rw [List.length_cons, hlen]
    · rw [hz, lookupD_setKey_self]
      omega
    · intro w hwz
      rw [hw w hwz, lookupD_setKey_other tr z w _ (fun he => hwz he.symm)]

theorem planFold_leftover (tt : String → Nat) (z : String) :
    ∀ (r : Nat) (o : Option (Nat × String × Nat)) (bins : List Bin)
      (tr : List (String × Nat)) (i : Nat),
      OpenFor (z3of z) o →
      ¬ lookupD tr z < tt z →
      ∃ (tb : List Bin) (o2 : Option (Nat × String × Nat)),
        planFold tt ⟨bins, tr, none, o⟩ i (List.replicate r z)
          = ⟨bins ++ tb, tr, none, o2⟩ ∧
        (∀ b ∈ tb, b.btype = BinType.three ∧ b.count = 150) ∧
        tb.length = (openCount o + r) / 150 ∧
        OpenFor (z3of z) o2 ∧
        openCount o2 = (openCount o + r) % 150 := by
  intro r
  induction r with
  | zero =>
    intro o bins tr i ho hc
    have hlt : openCount o < 150 := by
      cases o with
      | none => simp [openCount]
      | some p =>
        obtain ⟨st, ⟨g, c⟩⟩ := p
        rw [OpenFor] at ho
        simpa [openCount] using ho.2.2
    refine ⟨[], o, ?_, by simp, ?_, ho, ?_⟩
    · rw [List.append_nil]
      rfl
    · rw [Nat.add_zero, Nat.div_eq_of_lt hlt]
      rfl
    · rw [Nat.add_zero, Nat.mod_eq_of_lt hlt]
  | succ n ih =>
    intro o bins tr i ho hc
    rw [List.replicate_succ, planFold_cons]
    cases o with
    | none =>
      have hstep : planStep tt i z ⟨bins, tr, none, none⟩
          = ⟨bins, tr, none, some (i, z3of z, 1)⟩ := by
        simp [planStep, closeZ3IfChanged, hc]
      rw [hstep]
      rcases ih (some (i, z3of z, 1)) bins tr (i + 1)
        (by rw [OpenFor]; exact ⟨rfl, by norm_num, by norm_num⟩) hc
        with ⟨tb, o2, heq, hb, hlen, ho2, hcnt⟩
      refine ⟨tb, o2, heq, hb, ?_, ho2, ?_⟩
      · rw [hlen]
        show (openCount (some (i, z3of z, 1)) + n) / 150 = _
        rw [show openCount (some (i, z3of z, 1)) = 1 from rfl,
          show openCount (none : Option (Nat × String × Nat)) = 0 from rfl]
        omega
      · rw [hcnt]
        show (openCount (some (i, z3of z, 1)) + n) % 150 = _
        rw [show openCount (some (i, z3of z, 1)) = 1 from rfl,
          show openCount (none : Option (Nat × String × Nat)) = 0 from rfl]
        omega
    | some p =>
      obtain ⟨st, ⟨g, c⟩⟩ := p
      rw [OpenFor] at ho
      obtain ⟨rfl, hc1, hc150⟩ := ho
      by_cases h150 : c + 1 = 150
      · have hstep : planStep tt i z ⟨bins, tr, none, some (st, z3of z, c)⟩
            = ⟨bins ++ [⟨0, st, i, BinType.three, z3of z, 150⟩], tr, none, none⟩ := by
          simp [planStep, closeZ3IfChanged, hc, h150]
        rw [hstep]
        rcases ih none _ tr (i + 1) (by rw [OpenFor]; trivial) hc
          with ⟨tb, o2, heq, hb, hlen, ho2, hcnt⟩
        refine ⟨⟨0, st, i, BinType.three, z3of z, 150⟩ :: tb, o2, ?_, ?_, ?_, ho2, ?_⟩
        · rw [heq, List.append_assoc, List.singleton_append]
        · intro b hb2
          rw [List.mem_cons] at hb2
          rcases hb2 with rfl | hb2
          · exact ⟨rfl, rfl⟩
          · exact hb b hb2
        · rw [List.length_cons, hlen]
          show Nat.succ ((0 + n) / 150) = (c + (n + 1)) / 150
          omega
        · rw [hcnt]
          show (0 + n) % 150 = (c + (n + 1)) % 150
          omega
      · have hstep : planStep tt i z ⟨bins, tr, none, some (st, z3of z, c)⟩
            = ⟨bins, tr, none, some (st, z3of z, c + 1)⟩ := by
          simp [planStep, closeZ3IfChanged, hc, h150]
        rw [hstep]
        rcases ih (some (st, z3of z, c + 1)) bins tr (i + 1)
          (by rw [OpenFor]; exact ⟨rfl, by omega, by omega⟩) hc
          with ⟨tb, o2, heq, hb, hlen, ho2, hcnt⟩
        refine ⟨tb, o2, heq, hb, ?_, ho2, ?_⟩
        · rw [hlen]
          show (c + 1 + n) / 150 = (c + (n + 1)) / 150
          omega
        · rw [hcnt]
          show (c + 1 + n) % 150 = (c + (n + 1)) % 150
          omega

theorem planFold_block_core (tt : String → Nat) (z : String) (k : Nat)
    (htt : tt z = k / 150) (bins : List Bin) (tr : List (String × Nat)) (i : Nat)
    (o : Option (Nat × String × Nat)) (htr : lookupD tr z = 0)
    (ho : OpenFor (z3of z) o) :
    ∃ (fb tb : List Bin) (tr2 : List (String × Nat)) (o2 : Option (Nat × String × Nat)),
      planFold tt ⟨bins, tr, none, o⟩ i (List.replicate k z)
        = ⟨bins ++ fb ++ tb, tr2, none, o2⟩ ∧
      (∀ b ∈ fb, b.btype = BinType.five ∧ b.count = 150) ∧
      fb.length = k / 150 ∧
      (∀ b ∈ tb, b.btype = BinType.three ∧ b.count = 150) ∧
      tb.length = (openCount o + k % 150) / 150 ∧
      OpenFor (z3of z) o2 ∧
      openCount o2 = (openCount o + k % 150) % 150 ∧
      lookupD tr2 z = k / 150 ∧
      (∀ w, ¬ w = z → lookupD tr2 w = lookupD tr w) := by
  have hoalt : o = none ∨ ∃ st2 c2, o = some (st2, z3of z, c2) := by
    cases o with
    | none => exact Or.inl rfl
    | some p =>
      obtain ⟨st, ⟨g, c⟩⟩ := p
      rw [OpenFor] at ho
      exact Or.inr ⟨st, c, by rw [ho.1]⟩
  have hrep : List.replicate k z
      = List.replicate (150 * (k / 150)) z ++ List.replicate (k % 150) z := by
    rw [← List.replicate_add, Nat.div_add_mod]
  rw [hrep, planFold_append, List.length_replicate]
  rcases planFold_trays tt z o hoalt (k / 150) bins tr i (by omega)
    with ⟨fb, tr2, heq, hfb, hlenf, hz, hw⟩
  rw [heq]
  have hnc : ¬ lookupD tr2 z < tt z := by
    rw [hz, htr, htt]
    omega
  rcases planFold_leftover tt z (k % 150) o (bins ++ fb) tr2 (i + 150 * (k / 150)) ho hnc
    with ⟨tb, o2, heq2, htb, hlent, ho2, hcnt⟩
  refine ⟨fb, tb, tr2, o2, ?_, hfb, hlenf, htb, ?_, ho2, ?_, ?_, hw⟩
  · rw [heq2, List.append_assoc]
  · rw [hlent]
  · rw [hcnt]
  · rw [hz, htr]
    omega

theorem planFold_block (tt : String → Nat) (z : String) (k : Nat) (hk : 1 ≤ k)
    (htt : tt z = k / 150) (bins : List Bin) (tr : List (String × Nat)) (i : Nat)
    (o : Option (Nat × String × Nat)) (htr : lookupD tr z = 0) (ho : OpenAny o) :
    ∃ (ab fb tb : List Bin) (tr2 : List (String × Nat))
      (o2 : Option (Nat × String × Nat)),
      planFold tt ⟨bins, tr, none, o⟩ i (List.replicate k z)
        = ⟨bins ++ ab ++ fb ++ tb, tr2, none, o2⟩ ∧
      (∀ b ∈ ab, b.btype = BinType.aadc) ∧
      sumCounts ab = openCount o - carryOver (z3of z) o ∧
      (∀ b ∈ fb, b.btype = BinType.five ∧ b.count = 150) ∧
      fb.length = k / 150 ∧
      (∀ b ∈ tb, b.btype = BinType.three ∧ b.count = 150) ∧
      tb.length = (carryOver (z3of z) o + k % 150) / 150 ∧
      OpenFor (z3of z) o2 ∧
      openCount o2 = (carryOver (z3of z) o + k % 150) % 150 ∧
      lookupD tr2 z = k / 150 ∧
      (∀ w, ¬ w = z → lookupD tr2 w = lookupD tr w) := by
  obtain ⟨m, rfl⟩ : ∃ m, k = m + 1 := ⟨k - 1, by omega⟩
  rw [List.replicate_succ, planFold_cons, planStep_close, ← planFold_cons,
    ← List.replicate_succ]
  cases o with
  | none =>
    have hcl : closeZ3IfChanged i (z3of z) ⟨bins, tr, none, none⟩
        = ⟨bins, tr, none, none⟩ := rfl
    rw [hcl]
    rcases planFold_block_core tt z (m + 1) htt bins tr i none htr
      (by rw [OpenFor]; trivial)
      with ⟨fb, tb, tr2, o2, heq, hfb, hlf, htb, hlt, ho2, hcnt, hz, hwv⟩
    refine ⟨[], fb, tb, tr2, o2, ?_, by simp, rfl, hfb, hlf, htb, hlt, ho2, hcnt, hz, hwv⟩
    rw [heq, List.append_nil]
  | some p =>
    obtain ⟨st, ⟨g, c⟩⟩ := p
    rw [OpenAny] at ho
    by_cases hg : g = z3of z
    · have hcl : closeZ3IfChanged i (z3of z) ⟨bins, tr, none, some (st, g, c)⟩
          = ⟨bins, tr, none, some (st, g, c)⟩ := by
        simp [closeZ3IfChanged, hg]
      rw [hcl]
      rcases planFold_block_core tt z (m + 1) htt bins tr i (some (st, g, c)) htr
        (by rw [OpenFor]; exact ⟨hg, ho⟩)
        with ⟨fb, tb, tr2, o2, heq, hfb, hlf, htb, hlt, ho2, hcnt, hz, hwv⟩
      have hco : carryOver (z3of z) (some (st, g, c)) = c := by
        simp [carryOver, hg]
      refine ⟨[], fb, tb, tr2, o2, ?_, by simp, ?_, hfb, hlf, htb, ?_, ho2, ?_, hz, hwv⟩
      · rw [heq, List.append_nil]
      · rw [hco]
        show (0 : Nat) = c - c
        omega
      · rw [hco]
        exact hlt
      · rw [hco]
        exact hcnt
    · have hcl : closeZ3IfChanged i (z3of z) ⟨bins, tr, none, some (st, g, c)⟩
          = ⟨bins ++ [⟨0, st, i - 1, BinType.aadc, g, c⟩], tr, none, none⟩ := by
        simp [closeZ3IfChanged, hg]
      rw [hcl]
      rcases planFold_block_core tt z (m + 1) htt
        (bins ++ [⟨0, st, i - 1, BinType.aadc, g, c⟩]) tr i none htr
        (by rw [OpenFor]; trivial)
        with ⟨fb, tb, tr2, o2, heq, hfb, hlf, htb, hlt, ho2, hcnt, hz, hwv⟩
      have hco : carryOver (z3of z) (some (st, g, c)) = 0 := by
        simp [carryOver, hg]
      refine ⟨[⟨0, st, i - 1, BinType.aadc, g, c⟩], fb, tb, tr2, o2, heq, ?_, ?_, hfb,
        hlf, htb, ?_, ho2, ?_, hz, hwv⟩
      · intro b hb
        rw [List.mem_singleton] at hb
        rw [hb]
      · rw [hco]
        show c + 0 = c - 0
        omega
      · rw [hco]
        exact hlt
      · rw [hco]
        exact hcnt

/-- Tier bookkeeping the walk performs over a list of ZIP5 blocks, given the
    entering leftover-run state (group, count): per block, whole 150-trays at
    the 5-digit tier, the surviving leftover carry merged and closed at the
    3-digit tier, and a foreign leftover run closed at the aadc tier. -/
def chainSpec : List (String × Nat) → String × Nat → (Nat × Nat × Nat) × (String × Nat)
  | [], gc => ((0, 0, 0), gc)
  | (z, k) :: rest, (g, c) =>
    let c0 := if z3of z = g then c else 0
    let res := chainSpec rest (z3of z, (c0 + k % 150) % 150)
    ((150 * (k / 150) + res.1.1,
      150 * ((c0 + k % 150) / 150) + res.1.2.1,
      (c - c0) + res.1.2.2), res.2)

/-- The open run realises the abstract (group, count) pair: absent exactly
    when the count is zero. -/
def OpenMatch (gc : String × Nat) (o : Option (Nat × String × Nat)) : Prop :=
  (gc.2 = 0 ∧ o = none) ∨
  (∃ st, o = some (st, gc.1, gc.2) ∧ 1 ≤ gc.2 ∧ gc.2 < 150)

theorem openMatch_any (gc : String × Nat) (o : Option (Nat × String × Nat))
    (h : OpenMatch gc o) : OpenAny o := by
  rcases h with ⟨_, rfl⟩ | ⟨st, rfl, h1, h2⟩
  · rw [OpenAny]; trivial
  · rw [OpenAny]; exact ⟨h1, h2⟩

theorem openMatch_count (gc : String × Nat) (o : Option (Nat × String × Nat))
    (h : OpenMatch gc o) : openCount o = gc.2 := by
  rcases h with ⟨he, rfl⟩ | ⟨st, rfl, _, _⟩
  · rw [he]; rfl
  · rfl

theorem openMatch_carry (gc : String × Nat) (o : Option (Nat × String × Nat))
    (h : OpenMatch gc o) (g2 : String) :
    carryOver g2 o = if g2 = gc.1 then gc.2 else 0 := by
  rcases h with ⟨he, rfl⟩ | ⟨st, rfl, _, _⟩
  · rw [he, carryOver]
    by_cases hgg : g2 = gc.1
    · rw [if_pos hgg]
    · rw [if_neg hgg]
  · rw [carryOver]
    by_cases hgg : gc.1 = g2
    · rw [if_pos hgg, if_pos hgg.symm]
    · rw [if_neg hgg, if_neg (fun he => hgg he.symm)]

theorem openMatch_of_openFor (g : String) (c : Nat) (o : Option (Nat × String × Nat))
    (hf : OpenFor g o) (hc : openCount o = c) : OpenMatch (g, c) o := by
  cases o with
  | none =>
    left
    exact ⟨by rw [← hc]; rfl, rfl⟩
  | some p =>
    obtain ⟨st, ⟨g2, c2⟩⟩ := p
    rw [OpenFor] at hf
    right
    refine ⟨st, ?_, ?_, ?_⟩
    · show some (st, g2, c2) = some (st, g, c)
      rw [hf.1, ← hc]
      rfl
    · show 1 ≤ (g, c).2
      rw [← hc]
      exact hf.2.1
    · show (g, c).2 < 150
      rw [← hc]
      exact hf.2.2

theorem tierTotal_append (l1 l2 : List Bin) (t : BinType) :
    tierTotal (l1 ++ l2) t = tierTotal l1 t + tierTotal l2 t := by
  rw [tierTotal, tierTotal, tierTotal, List.filter_append, List.map_append,
    List.sum_append]

theorem tierTotal_pure (l : List Bin) (t : BinType)
    (h : ∀ b ∈ l, b.btype = t ∧ b.count = 150) : tierTotal l t = 150 * l.length := by
  induction l with
  | nil => rfl
  | cons b bs ih =>
    have hb := h b (by simp)
    rw [tierTotal, List.filter_cons, if_pos (by simp [hb.1]), List.map_cons,
      List.sum_cons]
    rw [show ((List.filter (fun b => decide (b.btype = t)) bs).map Bin.count).sum
      = tierTotal bs t from rfl]
    rw [ih (fun b2 h2 => h b2 (List.mem_cons_of_mem _ h2)), hb.2, List.length_cons]
    ring

theorem tierTotal_off (l : List Bin) (t t2 : BinType) (hne : ¬ t = t2)
    (h : ∀ b ∈ l, b.btype = t) : tierTotal l t2 = 0 := by
  induction l with
  | nil => rfl
  | cons b bs ih =>
    have hb := h b (by simp)
    rw [tierTotal, List.filter_cons, if_neg (by simp [hb, hne])]
    rw [show ((List.filter (fun b => decide (b.btype = t2)) bs).map Bin.count).sum
      = tierTotal bs t2 from rfl]
    exact ih (fun b2 h2 => h b2 (List.mem_cons_of_mem _ h2))

theorem tierTotal_aadc_all (l : List Bin) (h : ∀ b ∈ l, b.btype = BinType.aadc) :
    tierTotal l BinType.aadc = sumCounts l := by
  rw [tierTotal, sumCounts, List.filter_eq_self.mpr (fun b hb => by simp [h b hb])]

theorem chainSpec_cons_f (z : String) (k : Nat) (rest : List (String × Nat))
    (g : String) (c : Nat) :
    (chainSpec ((z, k) :: rest) (g, c)).1.1
      = 150 * (k / 150)
        + (chainSpec rest (z3of z, ((if z3of z = g then c else 0) + k % 150) % 150)).1.1 :=
  rfl

theorem chainSpec_cons_t (z : String) (k : Nat) (rest : List (String × Nat))
    (g : String) (c : Nat) :
    (chainSpec ((z, k) :: rest) (g, c)).1.2.1
      = 150 * (((if z3of z = g then c else 0) + k % 150) / 150)
        + (chainSpec rest (z3of z, ((if z3of z = g then c else 0) + k % 150) % 150)).1.2.1 :=
  rfl

theorem chainSpec_cons_a (z : String) (k : Nat) (rest : List (String × Nat))
    (g : String) (c : Nat) :
    (chainSpec ((z, k) :: rest) (g, c)).1.2.2
      = (c - (if z3of z = g then c else 0))
        + (chainSpec rest (z3of z, ((if z3of z = g then c else 0) + k % 150) % 150)).1.2.2 :=
  rfl

theorem chainSpec_cons_gc (z : String) (k : Nat) (rest : List (String × Nat))
    (g : String) (c : Nat) :
    (chainSpec ((z, k) :: rest) (g, c)).2
      = (chainSpec rest (z3of z, ((if z3of z = g then c else 0) + k % 150) % 150)).2 :=
  rfl

theorem planFold_chain (tt : String → Nat) :
    ∀ (blocks : List (String × Nat)) (bins : List Bin) (tr : List (String × Nat))
      (i : Nat) (o : Option (Nat × String × Nat)) (gc : String × Nat),
      (blocks.map Prod.fst).Nodup →
      (∀ p ∈ blocks, 1 ≤ p.2 ∧ tt p.1 = p.2 / 150 ∧ lookupD tr p.1 = 0) →
      OpenMatch gc o →
      ∃ (bs : List Bin) (tr2 : List (String × Nat)) (o2 : Option (Nat × String × Nat)),
        planFold tt ⟨bins, tr, none, o⟩ i
            ((blocks.map (fun p => List.replicate p.2 p.1)).flatten)
          = ⟨bins ++ bs, tr2, none, o2⟩ ∧
        OpenMatch (chainSpec blocks gc).2 o2 ∧
        tierTotal bs BinType.five = (chainSpec blocks gc).1.1 ∧
        tierTotal bs BinType.three = (chainSpec blocks gc).1.2.1 ∧
        tierTotal bs BinType.aadc = (chainSpec blocks gc).1.2.2 := by
  intro blocks
  induction blocks with
  | nil =>
    intro bins tr i o gc _ _ hm
    refine ⟨[], tr, o, ?_, hm, rfl, rfl, rfl⟩
    rw [show ((List.map (fun (p : String × Nat) => List.replicate p.2 p.1) []).flatten
      : List String) = [] from rfl, planFold_nil, List.append_nil]
  | cons p rest ih =>
    obtain ⟨z, k⟩ := p
    intro bins tr i o gc hnd hblocks hm
    obtain ⟨g, c⟩ := gc
    rw [List.map_cons, List.flatten_cons, planFold_append, List.length_replicate]
    have hp := hblocks (z, k) (by simp)
    rcases planFold_block tt z k hp.1 hp.2.1 bins tr i o hp.2.2 (openMatch_any _ _ hm)
      with ⟨ab, fb, tb, tr2, o2, heq, hab, habsum, hfb, hlf, htb, hlt, ho2, hcnt, hz2, hwv⟩
    rw [heq]
    have hcarry := openMatch_carry (g, c) o hm (z3of z)
    have hocount := openMatch_count (g, c) o hm
    dsimp only at hcarry hocount
    rw [List.map_cons, List.nodup_cons] at hnd
    have hm2 : OpenMatch (z3of z, ((if z3of z = g then c else 0) + k % 150) % 150) o2 := by
      refine openMatch_of_openFor _ _ o2 ho2 ?_
      rw [hcnt, hcarry]
    have hrest : ∀ q ∈ rest, 1 ≤ q.2 ∧ tt q.1 = q.2 / 150 ∧ lookupD tr2 q.1 = 0 := by
      intro q hq
      have hq2 := hblocks q (List.mem_cons_of_mem _ hq)
      refine ⟨hq2.1, hq2.2.1, ?_⟩
      have hne : ¬ q.1 = z := by
        intro he
        exact hnd.1 (by rw [← he]; exact List.mem_map.mpr ⟨q, hq, rfl⟩)
      rw [hwv q.1 hne]
      exact hq2.2.2
    rcases ih (bins ++ ab ++ fb ++ tb) tr2 (i + k) o2
      (z3of z, ((if z3of z = g then c else 0) + k % 150) % 150) hnd.2 hrest hm2
      with ⟨bs2, tr3, o3, heq2, hm3, hf3, ht3, ha3⟩
    refine ⟨ab ++ fb ++ tb ++ bs2, tr3, o3, ?_, ?_, ?_, ?_, ?_⟩
    · rw [heq2]
      simp only [List.append_assoc]
    · rw [chainSpec_cons_gc]
      exact hm3
    · rw [chainSpec_cons_f, tierTotal_append, tierTotal_append, tierTotal_append]
      rw [tierTotal_off ab BinType.aadc BinType.five (by simp) hab]
      rw [tierTotal_pure fb BinType.five hfb, hlf]
      rw [tierTotal_off tb BinType.three BinType.five (by simp) (fun b hb => (htb b hb).1)]
      rw [hf3]
      omega
    · rw [chainSpec_cons_t, tierTotal_append, tierTotal_append, tierTotal_append]
      rw [tierTotal_off ab BinType.aadc BinType.three (by simp) hab]
      rw [tierTotal_off fb BinType.five BinType.three (by simp) (fun b hb => (hfb b hb).1)]
      rw [tierTotal_pure tb BinType.three htb, hlt, hcarry]
      rw [ht3]
      omega
    · rw [chainSpec_cons_a, tierTotal_append, tierTotal_append, tierTotal_append]
      rw [tierTotal_aadc_all ab hab, habsum, hocount, hcarry]
      rw [tierTotal_off fb BinType.five BinType.aadc (by simp) (fun b hb => (hfb b hb).1)]
      rw [tierTotal_off tb BinType.three BinType.aadc (by simp) (fun b hb => (htb b hb).1)]
      rw [ha3]
      omega

theorem sumCounts_cons (b : Bin) (bs : List Bin) :
    sumCounts (b :: bs) = b.count + sumCounts bs := by
  simp [sumCounts]

theorem tierTotal_cons (b : Bin) (bs : List Bin) (t : BinType) :
    tierTotal (b :: bs) t = (if b.btype = t then b.count else 0) + tierTotal bs t := by
  by_cases hb : b.btype = t
  · simp [tierTotal, List.filter_cons, hb]
  · simp [tierTotal, List.filter_cons, hb]

theorem sumCounts_tiers (l : List Bin) :
    sumCounts l = tierTotal l BinType.five + tierTotal l BinType.three
      + tierTotal l BinType.aadc := by
  induction l with
  | nil => rfl
  | cons b bs ih =>
    rw [sumCounts_cons, tierTotal_cons, tierTotal_cons, tierTotal_cons, ih]
    cases hb : b.btype <;> simp [hb] <;> omega

theorem tierTotal_mapIdx (t : BinType) : ∀ (l : List Bin) (f : Nat → Bin → Bin),
    (∀ j b, (f j b).btype = b.btype ∧ (f j b).count = b.count) →
    tierTotal (l.mapIdx f) t = tierTotal l t := by
  intro l
  induction l with
  | nil => intro f _; rfl
  | cons b bs ih =>
    intro f hf
    rw [List.mapIdx_cons, tierTotal_cons, tierTotal_cons, (hf 0 b).1, (hf 0 b).2]
    rw [ih (fun i => f (i + 1)) (fun j b2 => hf (j + 1) b2)]

theorem sumCounts_mapIdx : ∀ (l : List Bin) (f : Nat → Bin → Bin),
    (∀ j b, (f j b).count = b.count) →
    sumCounts (l.mapIdx f) = sumCounts l := by
  intro l
  induction l with
  | nil => intro f _; rfl
  | cons b bs ih =>
    intro f hf
    rw [List.mapIdx_cons, sumCounts_cons, sumCounts_cons, hf 0 b]
    rw [ih (fun i => f (i + 1)) (fun j b2 => hf (j + 1) b2)]

theorem chainSpec_conserve : ∀ (blocks : List (String × Nat)) (gc : String × Nat),
    (chainSpec blocks gc).1.1 + (chainSpec blocks gc).1.2.1
      + (chainSpec blocks gc).1.2.2 + (chainSpec blocks gc).2.2
      = gc.2 + (blocks.map Prod.snd).sum := by
  intro blocks
  induction blocks with
  | nil =>
    intro gc
    show 0 + 0 + 0 + gc.2 = gc.2 + ((List.map Prod.snd []).sum)
    simp
  | cons p rest ih =>
    obtain ⟨z, k⟩ := p
    intro gc
    obtain ⟨g, c⟩ := gc
    rw [chainSpec_cons_f, chainSpec_cons_t, chainSpec_cons_a, chainSpec_cons_gc]
    have hih := ih (z3of z, ((if z3of z = g then c else 0) + k % 150) % 150)
    dsimp only at hih
    rw [List.map_cons, List.sum_cons]
    by_cases hc0 : z3of z = g
    · rw [if_pos hc0] at hih ⊢
      omega
    · rw [if_neg hc0] at hih ⊢
      omega

/-- The ZIP5-contiguous input made of the given (zip, size) blocks. -/
def blockedOf (blocks : List (String × Nat)) : List String :=
  (blocks.map (fun p => List.replicate p.2 p.1)).flatten

theorem blockedOf_length (blocks : List (String × Nat)) :
    (blockedOf blocks).length = (blocks.map Prod.snd).sum := by
  induction blocks with
  | nil => rfl
  | cons p rest ih =>
    rw [blockedOf, List.map_cons, List.flatten_cons, List.length_append,
      List.length_replicate, List.map_cons, List.sum_cons]
    rw [show ((rest.map (fun p => List.replicate p.2 p.1)).flatten).length
      = (blockedOf rest).length from rfl, ih]

theorem blockedOf_count_zero (w : String) : ∀ (blocks : List (String × Nat)),
    (∀ q ∈ blocks, ¬ q.1 = w) → (blockedOf blocks).count w = 0 := by
  intro blocks
  induction blocks with
  | nil => intro _; rfl
  | cons p rest ih =>
    intro h
    rw [blockedOf, List.map_cons, List.flatten_cons, List.count_append]
    rw [show ((rest.map (fun p => List.replicate p.2 p.1)).flatten) = blockedOf rest
      from rfl]
    rw [ih (fun q hq => h q (List.mem_cons_of_mem _ hq)), List.count_replicate]
    have hne : ¬ w = p.1 := fun he => h p (by simp) he.symm
    simp [hne]
    intro he
    exact absurd he.symm hne

theorem blockedOf_count (w : String) (k : Nat) : ∀ (blocks : List (String × Nat)),
    (blocks.map Prod.fst).Nodup → (w, k) ∈ blocks → (blockedOf blocks).count w = k := by
  intro blocks
  induction blocks with
  | nil => intro _ h; exact absurd h (by simp)
  | cons p rest ih =>
    intro hnd hm
    rw [List.map_cons, List.nodup_cons] at hnd
    rw [blockedOf, List.map_cons, List.flatten_cons, List.count_append]
    rw [show ((rest.map (fun p => List.replicate p.2 p.1)).flatten) = blockedOf rest
      from rfl]
    rw [List.mem_cons] at hm
    rcases hm with rfl | hm
    · rw [List.count_replicate]
      rw [blockedOf_count_zero w rest (fun q hq he =>
        hnd.1 (by rw [← he]; exact List.mem_map.mpr ⟨q, hq, rfl⟩))]
      simp
    · have hne : ¬ w = p.1 := by
        intro he
        exact hnd.1 (by rw [← he]; exact List.mem_map.mpr ⟨(w, k), hm, rfl⟩)
      rw [List.count_replicate, ih hnd.2 hm]
      simp [hne]
      intro he
      exact absurd he.symm hne

theorem planBins_blocked_tiers (blocks : List (String × Nat))
    (hnd : (blocks.map Prod.fst).Nodup) (hpos : ∀ p ∈ blocks, 1 ≤ p.2) :
    tierTotal (planBins (blockedOf blocks)) BinType.five
      = (chainSpec blocks ("", 0)).1.1 ∧
    tierTotal (planBins (blockedOf blocks)) BinType.three
      = (chainSpec blocks ("", 0)).1.2.1 ∧
    tierTotal (planBins (blockedOf blocks)) BinType.aadc
      = (chainSpec blocks ("", 0)).1.2.2 + (chainSpec blocks ("", 0)).2.2 := by
  have hblocks : ∀ p ∈ blocks, 1 ≤ p.2 ∧
      (fun z => lookupD (countsOf (blockedOf blocks)) z / 150) p.1 = p.2 / 150 ∧
      lookupD ([] : List (String × Nat)) p.1 = 0 := by
    intro p hp
    refine ⟨hpos p hp, ?_, rfl⟩
    show lookupD (countsOf (blockedOf blocks)) p.1 / 150 = p.2 / 150
    rw [countsOf_count, blockedOf_count p.1 p.2 blocks hnd hp]
  rcases planFold_chain (fun z => lookupD (countsOf (blockedOf blocks)) z / 150)
    blocks [] [] 1 none ("", 0) hnd hblocks (Or.inl ⟨rfl, rfl⟩)
    with ⟨bs, tr2, o2, heq, hm2, hf, ht, ha⟩
  rw [List.nil_append] at heq
  have hstate : planFold (fun z => lookupD (countsOf (blockedOf blocks)) z / 150)
      planInit 1 (blockedOf blocks) = ⟨bs, tr2, none, o2⟩ := by
    rw [show planInit = (⟨[], [], none, none⟩ : PlanState) from rfl, blockedOf]
    exact heq
  rcases hm2 with ⟨hz, rfl⟩ | ⟨st, rfl, h1, h2⟩
  · have hall : planBins (blockedOf blocks)
        = bs.mapIdx (fun j b => { b with idn := j + 1 }) := by
      simp only [planBins]
      rw [hstate]
    refine ⟨?_, ?_, ?_⟩ <;>
      rw [hall, tierTotal_mapIdx _ bs (fun j b => { b with idn := j + 1 })
        (fun j b => ⟨rfl, rfl⟩)]
    · exact hf
    · exact ht
    · rw [ha, hz]
      omega
  · have hall : planBins (blockedOf blocks)
        = (bs ++ [Bin.mk 0 st (blockedOf blocks).length BinType.aadc
            (chainSpec blocks ("", 0)).2.1 (chainSpec blocks ("", 0)).2.2]).mapIdx
          (fun j b => { b with idn := j + 1 }) := by
      simp only [planBins]
      rw [hstate]
    refine ⟨?_, ?_, ?_⟩ <;>
      rw [hall, tierTotal_mapIdx _
        (bs ++ [Bin.mk 0 st (blockedOf blocks).length BinType.aadc
          (chainSpec blocks ("", 0)).2.1 (chainSpec blocks ("", 0)).2.2])
        (fun j b => { b with idn := j + 1 }) (fun j b => ⟨rfl, rfl⟩), tierTotal_append]
    · rw [hf, tierTotal_off _ BinType.aadc BinType.five (by simp)
        (by intro b hb; rw [List.mem_singleton] at hb; rw [hb])]
      omega
    · rw [ht, tierTotal_off _ BinType.aadc BinType.three (by simp)
        (by intro b hb; rw [List.mem_singleton] at hb; rw [hb])]
      omega
    · rw [ha, tierTotal_aadc_all _
        (by intro b hb; rw [List.mem_singleton] at hb; rw [hb])]
      rw [show sumCounts [Bin.mk 0 st (blockedOf blocks).length BinType.aadc
        (chainSpec blocks ("", 0)).2.1 (chainSpec blocks ("", 0)).2.2]
        = (chainSpec blocks ("", 0)).2.2 from by simp [sumCounts]]

/-- [C3] Amended conservation.  On a ZIP5-contiguous input — the pieces of
    each ZIP5 forming one contiguous block, as the upstream master list
    (sorted by ZIP) provides — the bin counts of the planner sum to the
    input length, and the empty input yields zero bins.  (On un-sorted input
    the property fails; see the counterexample: the walk abandons an open
    5-digit run whenever the ZIP5 changes mid-tray.) -/
theorem c3_blocked_sum (blocks : List (String × Nat))
    (hnd : (blocks.map Prod.fst).Nodup) (hpos : ∀ p ∈ blocks, 1 ≤ p.2) :
    sumCounts (planBins (blockedOf blocks)) = (blockedOf blocks).length ∧
    planBins [] = [] := by
  refine ⟨?_, rfl⟩
  rcases planBins_blocked_tiers blocks hnd hpos with ⟨hf, ht, ha⟩
  rw [sumCounts_tiers, hf, ht, ha, blockedOf_length]
  have hcons := chainSpec_conserve blocks ("", 0)
  dsimp only at hcons
  omega

theorem c3_witness :
    ((([("95835", 151), ("95811", 149)] : List (String × Nat)).map Prod.fst).Nodup) ∧
    (∀ p ∈ ([("95835", 151), ("95811", 149)] : List (String × Nat)), 1 ≤ p.2) ∧
    (sumCounts (planBins (blockedOf [("95835", 151), ("95811", 149)]))
        = (blockedOf [("95835", 151), ("95811", 149)]).length ∧
      planBins [] = []) := by
  refine ⟨by decide, by decide, ?_⟩
  exact c3_blocked_sum [("95835", 151), ("95811", 149)] (by decide) (by decide)

theorem chainSpec_append : ∀ (l1 l2 : List (String × Nat)) (gc : String × Nat),
    (chainSpec (l1 ++ l2) gc).1.1
      = (chainSpec l1 gc).1.1 + (chainSpec l2 (chainSpec l1 gc).2).1.1 ∧
    (chainSpec (l1 ++ l2) gc).1.2.1
      = (chainSpec l1 gc).1.2.1 + (chainSpec l2 (chainSpec l1 gc).2).1.2.1 ∧
    (chainSpec (l1 ++ l2) gc).1.2.2
      = (chainSpec l1 gc).1.2.2 + (chainSpec l2 (chainSpec l1 gc).2).1.2.2 ∧
    (chainSpec (l1 ++ l2) gc).2 = (chainSpec l2 (chainSpec l1 gc).2).2 := by
  intro l1
  induction l1 with
  | nil =>
    intro l2 gc
    refine ⟨?_, ?_, ?_, ?_⟩ <;>
      simp [List.nil_append, show chainSpec [] gc = ((0, 0, 0), gc) from rfl]
  | cons p t ih =>
    obtain ⟨z, k⟩ := p
    intro l2 gc
    obtain ⟨g, c⟩ := gc
    rw [List.cons_append]
    rcases ih l2 (z3of z, ((if z3of z = g then c else 0) + k % 150) % 150)
      with ⟨ihf, iht, iha, ihgc⟩
    refine ⟨?_, ?_, ?_, ?_⟩
    · rw [chainSpec_cons_f, chainSpec_cons_f, ihf, chainSpec_cons_gc]
      omega
    · rw [chainSpec_cons_t, chainSpec_cons_t, iht, chainSpec_cons_gc]
      omega
    · rw [chainSpec_cons_a, chainSpec_cons_a, iha, chainSpec_cons_gc]
      omega
    · rw [chainSpec_cons_gc, chainSpec_cons_gc, ihgc]

theorem chainSpec_same (g : String) : ∀ (bl : List (String × Nat)) (c : Nat),
    (∀ p ∈ bl, z3of p.1 = g) → c < 150 →
    (chainSpec bl (g, c)).1.1 = (bl.map (fun p => 150 * (p.2 / 150))).sum ∧
    (chainSpec bl (g, c)).1.2.1
      = 150 * ((c + (bl.map (fun p => p.2 % 150)).sum) / 150) ∧
    (chainSpec bl (g, c)).1.2.2 = 0 ∧
    (chainSpec bl (g, c)).2 = (g, (c + (bl.map (fun p => p.2 % 150)).sum) % 150) := by
  intro bl
  induction bl with
  | nil =>
    intro c _ hc
    refine ⟨rfl, ?_, rfl, ?_⟩
    · show (0 : Nat) = 150 * ((c + (List.map _ []).sum) / 150)
      simp
      omega
    · show (g, c) = (g, (c + (List.map _ []).sum) % 150)
      rw [show ((List.map (fun (p : String × Nat) => p.2 % 150) []).sum) = 0 from rfl]
      rw [show (c + 0) % 150 = c from by omega]
  | cons p t ih =>
    obtain ⟨z, k⟩ := p
    intro c hall hc
    have hz : z3of z = g := hall (z, k) (by simp)
    have hrest : ∀ q ∈ t, z3of q.1 = g := fun q hq => hall q (List.mem_cons_of_mem _ hq)
    rcases ih ((c + k % 150) % 150) hrest (by omega)
      with ⟨ihf, iht, iha, ihgc⟩
    refine ⟨?_, ?_, ?_, ?_⟩
    · rw [chainSpec_cons_f, if_pos hz, hz, ihf, List.map_cons, List.sum_cons]
    · rw [chainSpec_cons_t, if_pos hz, hz, iht, List.map_cons, List.sum_cons]
      omega
    · rw [chainSpec_cons_a, if_pos hz, hz, iha]
      omega
    · rw [chainSpec_cons_gc, if_pos hz, hz, ihgc, List.map_cons, List.sum_cons]
      rw [show ((c + k % 150) % 150 + (List.map (fun (p : String × Nat) => p.2 % 150) t).sum)
          % 150
        = (c + (k % 150 + (List.map (fun (p : String × Nat) => p.2 % 150) t).sum)) % 150
        from by omega]

theorem chainSpec_group (g : String) (bl : List (String × Nat)) (gp : String) (c : Nat)
    (hall : ∀ p ∈ bl, z3of p.1 = g) (hgp : ¬ g = gp ∨ c = 0) (hc : c < 150) :
    (chainSpec bl (gp, c)).1.1 = (bl.map (fun p => 150 * (p.2 / 150))).sum ∧
    (chainSpec bl (gp, c)).1.2.1
      = 150 * (((bl.map (fun p => p.2 % 150)).sum) / 150) ∧
    (chainSpec bl (gp, c)).1.2.2 = (if bl = [] then 0 else c) ∧
    (chainSpec bl (gp, c)).2
      = (if bl = [] then (gp, c)
         else (g, ((bl.map (fun p => p.2 % 150)).sum) % 150)) := by
  cases bl with
  | nil =>
    refine ⟨rfl, ?_, rfl, rfl⟩
    show (0 : Nat) = 150 * ((List.map _ []).sum / 150)
    simp
  | cons p t =>
    obtain ⟨z, k⟩ := p
    have hz : z3of z = g := hall (z, k) (by simp)
    have hc0 : (if z3of z = gp then c else 0) = 0 := by
      rcases hgp with hgp | rfl
      · rw [if_neg (by rw [hz]; exact hgp)]
      · by_cases h2 : z3of z = gp
        · rw [if_pos h2]
        · rw [if_neg h2]
    have hrest : ∀ q ∈ t, z3of q.1 = g := fun q hq => hall q (List.mem_cons_of_mem _ hq)
    rcases chainSpec_same g t ((0 + k % 150) % 150) hrest (by omega)
      with ⟨ihf, iht, iha, ihgc⟩
    refine ⟨?_, ?_, ?_, ?_⟩
    · rw [chainSpec_cons_f, hc0, hz, ihf, List.map_cons, List.sum_cons]
    · rw [chainSpec_cons_t, hc0, hz, iht, List.map_cons, List.sum_cons]
      omega
    · rw [chainSpec_cons_a, hc0, hz, iha]
      rw [if_neg (by simp)]
      omega
    · rw [chainSpec_cons_gc, hc0, hz, ihgc, if_neg (by simp), List.map_cons, List.sum_cons]
      rw [show ((0 + k % 150) % 150 + (List.map (fun (p : String × Nat) => p.2 % 150) t).sum)
          % 150
        = (k % 150 + (List.map (fun (p : String × Nat) => p.2 % 150) t).sum) % 150
        from by omega]

theorem chainSpec_groups : ∀ (groups : List (String × List (String × Nat)))
    (gp : String) (c : Nat),
    (groups.map Prod.fst).Nodup →
    (∀ q ∈ groups, (∀ p ∈ q.2, z3of p.1 = q.1) ∧ ¬ q.2 = []) →
    ((∀ q ∈ groups, ¬ q.1 = gp) ∨ c = 0) → c < 150 →
    (chainSpec ((groups.map Prod.snd).flatten) (gp, c)).1.1
      = (((groups.map Prod.snd).flatten).map (fun p => 150 * (p.2 / 150))).sum ∧
    (chainSpec ((groups.map Prod.snd).flatten) (gp, c)).1.2.1
      = (groups.map (fun q => 150 * (((q.2.map (fun p => p.2 % 150)).sum) / 150))).sum ∧
    (chainSpec ((groups.map Prod.snd).flatten) (gp, c)).1.2.2
        + (chainSpec ((groups.map Prod.snd).flatten) (gp, c)).2.2
      = c + (groups.map (fun q => ((q.2.map (fun p => p.2 % 150)).sum) % 150)).sum := by
  intro groups
  induction groups with
  | nil =>
    intro gp c _ _ _ _
    refine ⟨rfl, rfl, ?_⟩
    show 0 + c = c + (List.map _ ([] : List (String × List (String × Nat)))).sum
    simp
  | cons q rest ih =>
    obtain ⟨g, bl⟩ := q
    intro gp c hnd hprops hgp hc
    rw [List.map_cons, List.flatten_cons]
    rcases chainSpec_append bl ((rest.map Prod.snd).flatten) (gp, c)
      with ⟨haf, hat, haa, hagc⟩
    have hq := hprops (g, bl) (by simp)
    have hgp2 : ¬ g = gp ∨ c = 0 := by
      rcases hgp with hgp | rfl
      · exact Or.inl (hgp (g, bl) (by simp))
      · exact Or.inr rfl
    rcases chainSpec_group g bl gp c hq.1 hgp2 hc with ⟨hbf, hbt, hba, hbgc⟩
    rw [if_neg hq.2] at hba hbgc
    rw [List.map_cons, List.nodup_cons] at hnd
    rw [hbgc] at haf hat haa hagc
    rcases ih g (((bl.map (fun p => p.2 % 150)).sum) % 150) hnd.2
      (fun q2 h2 => hprops q2 (List.mem_cons_of_mem _ h2))
      (Or.inl (fun q2 h2 he => hnd.1 (by rw [← he]; exact List.mem_map.mpr ⟨q2, h2, rfl⟩)))
      (by omega) with ⟨hrf, hrt, hra⟩
    refine ⟨?_, ?_, ?_⟩
    · rw [haf, hbf, hrf, List.map_append, List.sum_append]
    · rw [hat, hbt, hrt, List.map_cons, List.sum_cons]
    · rw [haa, hba, hagc, List.map_cons, List.sum_cons]
      dsimp only
      omega

theorem perm_of_nodup_mem_iff {α : Type} [DecidableEq α] (l1 l2 : List α)
    (h1 : l1.Nodup) (h2 : l2.Nodup) (hm : ∀ x, x ∈ l1 ↔ x ∈ l2) : l1.Perm l2 :=
  List.perm_of_nodup_nodup_toFinset_eq h1 h2 (Finset.ext (fun a => by
    rw [List.mem_toFinset, List.mem_toFinset]
    exact hm a))

theorem blockedOf_mem (blocks : List (String × Nat)) (hpos : ∀ p ∈ blocks, 1 ≤ p.2)
    (x : String) : x ∈ blockedOf blocks ↔ x ∈ blocks.map Prod.fst := by
  rw [blockedOf, List.mem_flatten]
  constructor
  · rintro ⟨l, hl, hx⟩
    rw [List.mem_map] at hl
    rcases hl with ⟨p, hp, rfl⟩
    rw [List.mem_replicate] at hx
    rw [hx.2]
    exact List.mem_map.mpr ⟨p, hp, rfl⟩
  · intro hx
    rw [List.mem_map] at hx
    rcases hx with ⟨p, hp, rfl⟩
    refine ⟨List.replicate p.2 p.1, List.mem_map.mpr ⟨p, hp, rfl⟩, ?_⟩
    rw [List.mem_replicate]
    exact ⟨by have := hpos p hp; omega, rfl⟩

theorem groups_flatten_mem (groups : List (String × List (String × Nat)))
    (p : String × Nat) :
    p ∈ (groups.map Prod.snd).flatten ↔ ∃ q ∈ groups, p ∈ q.2 := by
  rw [List.mem_flatten]
  constructor
  · rintro ⟨l, hl, hp⟩
    rw [List.mem_map] at hl
    rcases hl with ⟨q, hq, rfl⟩
    exact ⟨q, hq, hp⟩
  · rintro ⟨q, hq, hp⟩
    exact ⟨q.2, List.mem_map.mpr ⟨q, hq, rfl⟩, hp⟩

theorem remsB_filter_zero (gg : String) : ∀ (groups : List (String × List (String × Nat))),
    (∀ q ∈ groups, ∀ p ∈ q.2, z3of p.1 = q.1) →
    (∀ q ∈ groups, ¬ q.1 = gg) →
    (((groups.map Prod.snd).flatten).map (fun p => (z3of p.1, p.2 % 150))).filter
      (fun e => decide (e.1 = gg)) = [] := by
  intro groups
  induction groups with
  | nil => intro _ _; rfl
  | cons q rest ih =>
    intro hz3 hgg
    rw [List.map_cons, List.flatten_cons, List.map_append, List.filter_append]
    rw [ih (fun q2 h2 => hz3 q2 (List.mem_cons_of_mem _ h2))
      (fun q2 h2 => hgg q2 (List.mem_cons_of_mem _ h2)), List.append_nil]
    rw [List.filter_eq_nil_iff]
    intro e he
    rw [List.mem_map] at he
    rcases he with ⟨p, hp, rfl⟩
    simp only [decide_eq_true_eq]
    show ¬ (z3of p.1, p.2 % 150).1 = gg
    rw [show (z3of p.1, p.2 % 150).1 = z3of p.1 from rfl, hz3 q (by simp) p hp]
    exact hgg q (by simp)

theorem remsB_filter_sum (gg : String) : ∀ (groups : List (String × List (String × Nat)))
    (q0 : String × List (String × Nat)),
    (∀ q ∈ groups, ∀ p ∈ q.2, z3of p.1 = q.1) →
    (groups.map Prod.fst).Nodup →
    q0 ∈ groups → q0.1 = gg →
    ((((((groups.map Prod.snd).flatten).map (fun p => (z3of p.1, p.2 % 150))).filter
      (fun e => decide (e.1 = gg))).map Prod.snd).sum)
      = (q0.2.map (fun p => p.2 % 150)).sum := by
  intro groups
  induction groups with
  | nil => intro q0 _ _ h _; exact absurd h (by simp)
  | cons q rest ih =>
    intro q0 hz3 hnd hmem hgg
    rw [List.map_cons, List.flatten_cons, List.map_append, List.filter_append,
      List.map_append, List.sum_append]
    rw [List.map_cons, List.nodup_cons] at hnd
    rw [List.mem_cons] at hmem
    rcases hmem with rfl | hmem
    · have hkeep : (q0.2.map (fun p => (z3of p.1, p.2 % 150))).filter
          (fun e => decide (e.1 = gg)) = q0.2.map (fun p => (z3of p.1, p.2 % 150)) := by
        rw [List.filter_eq_self]
        intro e he
        rw [List.mem_map] at he
        rcases he with ⟨p, hp, rfl⟩
        simp only [decide_eq_true_eq]
        show (z3of p.1, p.2 % 150).1 = gg
        rw [show (z3of p.1, p.2 % 150).1 = z3of p.1 from rfl, hz3 q0 (by simp) p hp]
        exact hgg
      rw [hkeep]
      rw [remsB_filter_zero gg rest (fun q2 h2 => hz3 q2 (List.mem_cons_of_mem _ h2))
        (fun q2 h2 he => hnd.1 (by rw [hgg, ← he]; exact List.mem_map.mpr ⟨q2, h2, rfl⟩))]
      rw [List.map_map]
      rw [show (List.map (Prod.snd ∘ fun p => (z3of p.1, p.2 % 150)) q0.2)
        = q0.2.map (fun p => p.2 % 150) from rfl]
      simp
    · have hne : ¬ q.1 = gg := by
        intro he
        refine hnd.1 ?_
        rw [he, ← hgg]
        exact List.mem_map.mpr ⟨q0, hmem, rfl⟩
      have hdrop : (q.2.map (fun p => (z3of p.1, p.2 % 150))).filter
          (fun e => decide (e.1 = gg)) = [] := by
        rw [List.filter_eq_nil_iff]
        intro e he
        rw [List.mem_map] at he
        rcases he with ⟨p, hp, rfl⟩
        simp only [decide_eq_true_eq]
        show ¬ (z3of p.1, p.2 % 150).1 = gg
        rw [show (z3of p.1, p.2 % 150).1 = z3of p.1 from rfl, hz3 q (by simp) p hp]
        exact hne
      rw [hdrop]
      rw [show ((([] : List (String × Nat)).map Prod.snd).sum) = 0 from rfl, Nat.zero_add]
      exact ih q0 (fun q2 h2 => hz3 q2 (List.mem_cons_of_mem _ h2)) hnd.2 hmem hgg

theorem tierCounts_grouped (groups : List (String × List (String × Nat)))
    (hz3 : ∀ q ∈ groups, ∀ p ∈ q.2, z3of p.1 = q.1)
    (hqne : ∀ q ∈ groups, ¬ q.2 = [])
    (hgnd : (groups.map Prod.fst).Nodup)
    (hznd : (((groups.map Prod.snd).flatten).map Prod.fst).Nodup)
    (hpos : ∀ p ∈ (groups.map Prod.snd).flatten, 1 ≤ p.2) :
    tierCounts (blockedOf ((groups.map Prod.snd).flatten))
      = ((((groups.map Prod.snd).flatten).map (fun p => 150 * (p.2 / 150))).sum,
         (groups.map (fun q => 150 * (((q.2.map (fun p => p.2 % 150)).sum) / 150))).sum,
         (groups.map (fun q => ((q.2.map (fun p => p.2 % 150)).sum) % 150)).sum) := by
  have hcnt : ∀ p ∈ (groups.map Prod.snd).flatten,
      (blockedOf ((groups.map Prod.snd).flatten)).count p.1 = p.2 := by
    intro p hp
    exact blockedOf_count p.1 p.2 _ hznd hp
  have h0 : ((blockedOf ((groups.map Prod.snd).flatten)).dedup).Perm
      (((groups.map Prod.snd).flatten).map Prod.fst) :=
    perm_of_nodup_mem_iff _ _ (List.nodup_dedup _) hznd (fun x => by
      rw [List.mem_dedup, blockedOf_mem _ hpos x])
  have hrems : ((blockedOf ((groups.map Prod.snd).flatten)).dedup.map
      (fun z => (z3of z, (blockedOf ((groups.map Prod.snd).flatten)).count z % 150))).Perm
      (((groups.map Prod.snd).flatten).map (fun p => (z3of p.1, p.2 % 150))) := by
    have h1 := h0.map
      (fun z => (z3of z, (blockedOf ((groups.map Prod.snd).flatten)).count z % 150))
    rw [List.map_map] at h1
    have h2 : ((groups.map Prod.snd).flatten).map
        ((fun z => (z3of z, (blockedOf ((groups.map Prod.snd).flatten)).count z % 150))
          ∘ Prod.fst)
        = ((groups.map Prod.snd).flatten).map (fun p => (z3of p.1, p.2 % 150)) := by
      refine List.map_congr_left ?_
      intro p hp
      show (z3of p.1, (blockedOf ((groups.map Prod.snd).flatten)).count p.1 % 150)
        = (z3of p.1, p.2 % 150)
      rw [hcnt p hp]
    rw [h2] at h1
    exact h1
  have hz3s : ((((blockedOf ((groups.map Prod.snd).flatten)).dedup.map
      (fun z => (z3of z, (blockedOf ((groups.map Prod.snd).flatten)).count z % 150))).map
        Prod.fst).dedup).Perm (groups.map Prod.fst) := by
    refine perm_of_nodup_mem_iff _ _ (List.nodup_dedup _) hgnd (fun gg => ?_)
    rw [List.mem_dedup, (hrems.map Prod.fst).mem_iff, List.map_map]
    constructor
    · intro h
      rw [List.mem_map] at h
      rcases h with ⟨p, hp, rfl⟩
      rcases (groups_flatten_mem groups p).mp hp with ⟨q, hq, hpq⟩
      show ((fun p => (z3of p.1, p.2 % 150)) p).1 ∈ _
      rw [show ((fun (p : String × Nat) => (z3of p.1, p.2 % 150)) p).1 = z3of p.1 from rfl]
      rw [hz3 q hq p hpq]
      exact List.mem_map.mpr ⟨q, hq, rfl⟩
    · intro h
      rw [List.mem_map] at h
      rcases h with ⟨q, hq, rfl⟩
      cases hbl : q.2 with
      | nil => exact absurd hbl (hqne q hq)
      | cons p t =>
        have hpq : p ∈ q.2 := by rw [hbl]; simp
        refine List.mem_map.mpr ⟨p, (groups_flatten_mem groups p).mpr ⟨q, hq, hpq⟩, ?_⟩
        show ((fun (p : String × Nat) => (z3of p.1, p.2 % 150)) p).1 = q.1
        rw [show ((fun (p : String × Nat) => (z3of p.1, p.2 % 150)) p).1 = z3of p.1 from rfl]
        exact hz3 q hq p hpq
  have hftot : ∀ gg : String,
      ((((blockedOf ((groups.map Prod.snd).flatten)).dedup.map
        (fun z => (z3of z, (blockedOf ((groups.map Prod.snd).flatten)).count z % 150))).filter
          (fun p => decide (p.1 = gg))).map Prod.snd).sum
      = (((((groups.map Prod.snd).flatten).map (fun p => (z3of p.1, p.2 % 150))).filter
          (fun e => decide (e.1 = gg))).map Prod.snd).sum :=
    fun gg => ((hrems.filter (fun p => decide (p.1 = gg))).map Prod.snd).sum_eq
  have htotals : ((((blockedOf ((groups.map Prod.snd).flatten)).dedup.map
      (fun z => (z3of z, (blockedOf ((groups.map Prod.snd).flatten)).count z % 150))).map
        Prod.fst).dedup.map (fun gg =>
      ((((blockedOf ((groups.map Prod.snd).flatten)).dedup.map
        (fun z => (z3of z, (blockedOf ((groups.map Prod.snd).flatten)).count z % 150))).filter
          (fun p => decide (p.1 = gg))).map Prod.snd).sum)).Perm
      (groups.map (fun q => (q.2.map (fun p => p.2 % 150)).sum)) := by
    have h1 : (((blockedOf ((groups.map Prod.snd).flatten)).dedup.map
        (fun z => (z3of z, (blockedOf ((groups.map Prod.snd).flatten)).count z % 150))).map
          Prod.fst).dedup.map (fun gg =>
        ((((blockedOf ((groups.map Prod.snd).flatten)).dedup.map
          (fun z => (z3of z, (blockedOf ((groups.map Prod.snd).flatten)).count z % 150))).filter
            (fun p => decide (p.1 = gg))).map Prod.snd).sum)
        = (((blockedOf ((groups.map Prod.snd).flatten)).dedup.map
        (fun z => (z3of z, (blockedOf ((groups.map Prod.snd).flatten)).count z % 150))).map
          Prod.fst).dedup.map (fun gg =>
        (((((groups.map Prod.snd).flatten).map (fun p => (z3of p.1, p.2 % 150))).filter
            (fun e => decide (e.1 = gg))).map Prod.snd).sum) :=
      List.map_congr_left (fun gg _ => hftot gg)
    rw [h1]
    have h2 := hz3s.map (fun gg =>
      (((((groups.map Prod.snd).flatten).map (fun p => (z3of p.1, p.2 % 150))).filter
          (fun e => decide (e.1 = gg))).map Prod.snd).sum)
    have h3 : (groups.map Prod.fst).map (fun gg =>
        (((((groups.map Prod.snd).flatten).map (fun p => (z3of p.1, p.2 % 150))).filter
            (fun e => decide (e.1 = gg))).map Prod.snd).sum)
        = groups.map (fun q => (q.2.map (fun p => p.2 % 150)).sum) := by
      rw [List.map_map]
      refine List.map_congr_left ?_
      intro q hq
      exact remsB_filter_sum q.1 groups q hz3 hgnd hq rfl
    rw [h3] at h2
    exact h2
  simp only [tierCounts]
  refine Prod.ext ?_ (Prod.ext ?_ ?_)
  · show ((blockedOf ((groups.map Prod.snd).flatten)).dedup.map
      (fun z => (blockedOf ((groups.map Prod.snd).flatten)).count z / 150 * 150)).sum = _
    rw [(h0.map (fun z =>
      (blockedOf ((groups.map Prod.snd).flatten)).count z / 150 * 150)).sum_eq]
    rw [List.map_map]
    refine congrArg List.sum (List.map_congr_left ?_)
    intro p hp
    show (blockedOf ((groups.map Prod.snd).flatten)).count p.1 / 150 * 150
      = 150 * (p.2 / 150)
    rw [hcnt p hp, Nat.mul_comm]
  · show (((((blockedOf ((groups.map Prod.snd).flatten)).dedup.map
      (fun z => (z3of z, (blockedOf ((groups.map Prod.snd).flatten)).count z % 150))).map
        Prod.fst).dedup.map (fun gg =>
      ((((blockedOf ((groups.map Prod.snd).flatten)).dedup.map
        (fun z => (z3of z, (blockedOf ((groups.map Prod.snd).flatten)).count z % 150))).filter
          (fun p => decide (p.1 = gg))).map Prod.snd).sum)).map
        (fun t => t / 150 * 150)).sum = _
    rw [(htotals.map (fun t => t / 150 * 150)).sum_eq, List.map_map]
    refine congrArg List.sum (List.map_congr_left ?_)
    intro q _
    show ((q.2.map (fun p => p.2 % 150)).sum) / 150 * 150
      = 150 * (((q.2.map (fun p => p.2 % 150)).sum) / 150)
    rw [Nat.mul_comm]
  · show (((((blockedOf ((groups.map Prod.snd).flatten)).dedup.map
      (fun z => (z3of z, (blockedOf ((groups.map Prod.snd).flatten)).count z % 150))).map
        Prod.fst).dedup.map (fun gg =>
      ((((blockedOf ((groups.map Prod.snd).flatten)).dedup.map
        (fun z => (z3of z, (blockedOf ((groups.map Prod.snd).flatten)).count z % 150))).filter
          (fun p => decide (p.1 = gg))).map Prod.snd).sum)).map
        (fun t => t % 150)).sum = _
    rw [(htotals.map (fun t => t % 150)).sum_eq, List.map_map]
    rfl

/-- [C8] Amended tier agreement.  On a ZIP5-contiguous, ZIP3-grouped input —
    each ZIP5's pieces contiguous, and all ZIP5s sharing a ZIP3 prefix
    adjacent, as a ZIP-sorted master list provides — the Postage Estimator's
    (five_digit, three_digit, aadc) tier counts equal the total piece counts
    of the Bin Planner's 5digit, 3digit and aadc bins on the same list.
    (Without the grouping the equality fails; see the counterexample: the
    estimator pools ZIP3 leftovers globally while the planner closes a run
    whenever the ZIP3 prefix changes.) -/
theorem c8_grouped_tiers (groups : List (String × List (String × Nat)))
    (hz3 : ∀ q ∈ groups, ∀ p ∈ q.2, z3of p.1 = q.1)
    (hqne : ∀ q ∈ groups, ¬ q.2 = [])
    (hgnd : (groups.map Prod.fst).Nodup)
    (hznd : (((groups.map Prod.snd).flatten).map Prod.fst).Nodup)
    (hpos : ∀ p ∈ (groups.map Prod.snd).flatten, 1 ≤ p.2) :
    tierCounts (blockedOf ((groups.map Prod.snd).flatten))
      = (tierTotal (planBins (blockedOf ((groups.map Prod.snd).flatten))) BinType.five,
         tierTotal (planBins (blockedOf ((groups.map Prod.snd).flatten))) BinType.three,
         tierTotal (planBins (blockedOf ((groups.map Prod.snd).flatten))) BinType.aadc) := by
  rcases planBins_blocked_tiers ((groups.map Prod.snd).flatten) hznd hpos
    with ⟨hf, ht, ha⟩
  rcases chainSpec_groups groups "" 0 hgnd (fun q hq => ⟨hz3 q hq, hqne q hq⟩)
    (Or.inr rfl) (by norm_num) with ⟨hcf, hct, hca⟩
  rw [tierCounts_grouped groups hz3 hqne hgnd hznd hpos]
  rw [hf, ht, ha, hcf, hct, hca]
  rw [Nat.zero_add]

theorem c8_witness :
    (∀ q ∈ ([("958", [("95835", 151), ("95811", 149)]), ("957", [("95700", 75)])] :
        List (String × List (String × Nat))), ∀ p ∈ q.2, z3of p.1 = q.1) ∧
    (∀ q ∈ ([("958", [("95835", 151), ("95811", 149)]), ("957", [("95700", 75)])] :
        List (String × List (String × Nat))), ¬ q.2 = []) ∧
    tierCounts (blockedOf (((([("958", [("95835", 151), ("95811", 149)]),
        ("957", [("95700", 75)])] : List (String × List (String × Nat))).map
          Prod.snd)).flatten))
      = (tierTotal (planBins (blockedOf (((([("958", [("95835", 151), ("95811", 149)]),
            ("957", [("95700", 75)])] : List (String × List (String × Nat))).map
              Prod.snd)).flatten))) BinType.five,
         tierTotal (planBins (blockedOf (((([("958", [("95835", 151), ("95811", 149)]),
            ("957", [("95700", 75)])] : List (String × List (String × Nat))).map
              Prod.snd)).flatten))) BinType.three,
         tierTotal (planBins (blockedOf (((([("958", [("95835", 151), ("95811", 149)]),
            ("957", [("95700", 75)])] : List (String × List (String × Nat))).map
              Prod.snd)).flatten))) BinType.aadc) := by
  refine ⟨by decide, by decide, ?_⟩
  exact c8_grouped_tiers
    [("958", [("95835", 151), ("95811", 149)]), ("957", [("95700", 75)])]
    (by decide) (by decide) (by decide) (by decide) (by decide)
